import Mathlib

/-!
# ws-relay: frame demuxer and broadcast dispatcher

A shallow embedding of `ws-relay.go`.

* Byte slices are lists of `UInt8`.  Every buffer of the program is created by
  `make([]byte, n)` or is a suffix of such a buffer, so length and capacity
  agree and a slice expression panics exactly when an index exceeds the length.
* The `*bufio.Reader` over standard input is the list of bytes not yet consumed
  together with the size of the reader's internal buffer (which decides when
  `ReadSlice` gives up with `ErrBufferFull`).  The stream is finite and ends
  with `io.EOF`.
* A function that writes into its buffer argument returns the new contents.
* `for` loops run on fuel that the entry points choose large enough; the
  outcome `diverge` (fuel exhausted) is proved unreachable.
-/

namespace WsRelay

abbrev Byte := UInt8

/-- A frame handed to the dispatcher: the bytes of one image. -/
abbrev Frame := List Byte

/-- The error values the decoders can return. -/
inductive Error
  | EOF                -- io.EOF
  | ErrUnexpectedEOF   -- io.ErrUnexpectedEOF
  | ErrBufferFull      -- bufio.ErrBufferFull
  | mayNotJPG          -- errors.New("may not JPG image")
  | mayNotPNG          -- errors.New("may not PNG image")
  | connDie            -- errors.New("ws connection die")
  deriving DecidableEq, Repr

/-- How a call ends: a run-time panic (slice bounds out of range), fuel
exhausted, or a normal return. -/
inductive Outcome (α : Type)
  | panic : Outcome α
  | diverge : Outcome α
  | ret : α → Outcome α
  deriving DecidableEq, Repr

/-- A `*bufio.Reader`: the unread bytes of the stream and `len(b.buf)`. -/
structure Reader where
  rest : List Byte
  size : Nat
  deriving DecidableEq, Repr

/-- `bufio.NewReaderSize(rd, size)`: the buffer has at least 16 bytes. -/
def NewReaderSize (rd : List Byte) (size : Nat) : Reader :=
  ⟨rd, max size 16⟩

/-- `io.ReadFull(r, p)` with `len(p) = k`: the bytes stored in `p[:n]`, the
error, and the reader afterwards.  No error when `k` bytes were read, `EOF`
when none was, `ErrUnexpectedEOF` in between. -/
def ReadFull (r : Reader) (k : Nat) : List Byte × Option Error × Reader :=
  let p := r.rest.take k
  let r' : Reader := ⟨r.rest.drop k, r.size⟩
  if p.length = k then (p, none, r')
  else if p.length = 0 then (p, some Error.EOF, r')
  else (p, some Error.ErrUnexpectedEOF, r')

/-- `bytes.IndexByte(b, c)`: index of the first `c` in `b`, if any. -/
def IndexByte : List Byte → Byte → Option Nat
  | [], _ => none
  | b :: bs, c => if b = c then some 0 else (IndexByte bs c).map (· + 1)

/-- `(*bufio.Reader).ReadSlice(delim)`: up to and including the first `delim`
when it lies within the reader's buffer; otherwise `ErrBufferFull` once the
buffer holds `size` bytes without a delimiter, or everything left and `EOF`
when the stream ends first.  The returned bytes are consumed in every case. -/
def ReadSlice (r : Reader) (delim : Byte) : List Byte × Option Error × Reader :=
  match IndexByte (r.rest.take r.size) delim with
  | some i => (r.rest.take (i + 1), none, ⟨r.rest.drop (i + 1), r.size⟩)
  | none =>
    if r.size ≤ r.rest.length then
      (r.rest.take r.size, some Error.ErrBufferFull, ⟨r.rest.drop r.size, r.size⟩)
    else
      (r.rest, some Error.EOF, ⟨[], r.size⟩)

/-- `copy(buf[off:], s)` as the new contents of `buf`: it copies
`min(len(buf) - off, len(s))` bytes and silently drops the rest. -/
def copyAt (buf : List Byte) (off : Nat) (s : List Byte) : List Byte :=
  buf.take off ++ s.take (buf.length - off) ++ buf.drop (off + s.length)

/-- `bytes.HasSuffix(s, suffix)`. -/
def HasSuffix (s suffix : List Byte) : Bool :=
  decide (suffix.length ≤ s.length) && (s.drop (s.length - suffix.length) == suffix)

/-- The start-of-image marker `"\xFF\xD8"`. -/
def SOI : List Byte := [0xFF, 0xD8]

/-- The end-of-image marker `"\xFF\xD9"`. -/
def EOI : List Byte := [0xFF, 0xD9]

/-- The signature `"\x89PNG\x0D\x0A\x1A\x0A"`. -/
def PNGSIG : List Byte := [0x89, 0x50, 0x4E, 0x47, 0x0D, 0x0A, 0x1A, 0x0A]

/-- The type tag `"IEND"`. -/
def IEND : List Byte := [0x49, 0x45, 0x4E, 0x44]

/-- What `readJPG` and `readPNG` return and leave behind: `(n, err)`, the
contents of the scratch buffer and the reader. -/
structure DecodeRet where
  n : Nat
  err : Option Error
  buf : List Byte
  r : Reader
  deriving DecidableEq, Repr

/-- What `readPNGChunk` returns and leaves behind: `(n, chunkType, err)` (a nil
chunk type is the empty list), the contents of its buffer and the reader. -/
structure ChunkRet where
  n : Nat
  typ : List Byte
  err : Option Error
  buf : List Byte
  r : Reader
  deriving DecidableEq, Repr

/-- The `for` loop of `readJPG`, entered with `offset` bytes accumulated. -/
def jpgLoop : Nat → Reader → List Byte → Nat → Outcome DecodeRet
  | 0, _, _, _ => Outcome.diverge
  | fuel + 1, r, buf, offset =>
    match ReadSlice r 0xD9 with
    | (_, some err, r') => Outcome.ret ⟨offset, some err, buf, r'⟩
    | (s, none, r') =>
      if buf.length < offset then Outcome.panic            -- buf[offset:]
      else
        let buf' := copyAt buf offset s
        let offset' := offset + s.length
        if buf'.length < offset' then Outcome.panic        -- buf[:offset]
        else if HasSuffix (buf'.take offset') EOI then
          Outcome.ret ⟨offset', none, buf', r'⟩
        else jpgLoop fuel r' buf' offset'

/-- The decoder `readJPG(r, buf)`. -/
def readJPG (r : Reader) (buf : List Byte) : Outcome DecodeRet :=
  if buf.length < 2 then Outcome.panic                     -- buf[:2]
  else
    match ReadFull r 2 with
    | (p, some err, r') => Outcome.ret ⟨p.length, some err, copyAt buf 0 p, r'⟩
    | (p, none, r') =>
      let buf' := copyAt buf 0 p
      if buf'.take 2 ≠ SOI then Outcome.ret ⟨2, some Error.mayNotJPG, buf', r'⟩
      else jpgLoop (r'.rest.length + 1) r' buf' 2

/-- `binary.BigEndian.Uint32(b)` for a four-byte slice `b`. -/
def Uint32 (b : List Byte) : Nat :=
  (b.getD 0 0).toNat * 2 ^ 24 + (b.getD 1 0).toNat * 2 ^ 16
    + (b.getD 2 0).toNat * 2 ^ 8 + (b.getD 3 0).toNat

/-- The function `readPNGChunk(r, buf)`.  `dataLen` and the slice bound
`dataLen+4` are `uint32` values and wrap modulo `2^32`. -/
def readPNGChunk (r : Reader) (buf : List Byte) : Outcome ChunkRet :=
  if buf.length < 4 then Outcome.panic                     -- buf[:4]
  else
    match ReadFull r 4 with
    | (p, some err, r1) => Outcome.ret ⟨p.length, [], some err, copyAt buf 0 p, r1⟩
    | (p, none, r1) =>
      let buf1 := copyAt buf 0 p
      let dataLen := (Uint32 (buf1.take 4) + 4 + 4) % 2 ^ 32
      if buf1.length < 4 + 4 then Outcome.panic            -- buf[4:4+4]
      else
        match ReadFull r1 4 with
        | (p2, some err, r2) =>
          Outcome.ret ⟨p2.length + 4, [], some err, copyAt buf1 4 p2, r2⟩
        | (p2, none, r2) =>
          let buf2 := copyAt buf1 4 p2
          let hi := (dataLen + 4) % 2 ^ 32
          if hi < 4 + 4 ∨ buf2.length < hi then Outcome.panic  -- buf[4+4:dataLen+4]
          else
            match ReadFull r2 (hi - (4 + 4)) with
            | (p3, err, r3) =>
              let buf3 := copyAt buf2 (4 + 4) p3
              Outcome.ret ⟨p3.length + 8, (buf3.drop 4).take 4, err, buf3, r3⟩

/-- The `for` loop of `readPNG`, entered with `offset` bytes accumulated. -/
def pngLoop : Nat → Reader → List Byte → Nat → Outcome DecodeRet
  | 0, _, _, _ => Outcome.diverge
  | fuel + 1, r, buf, offset =>
    if buf.length < offset then Outcome.panic              -- buf[offset:]
    else
      match readPNGChunk r (buf.drop offset) with
      | Outcome.panic => Outcome.panic
      | Outcome.diverge => Outcome.diverge
      | Outcome.ret c =>
        let buf' := buf.take offset ++ c.buf
        let offset' := offset + c.n
        match c.err with
        | some err => Outcome.ret ⟨offset', some err, buf', c.r⟩
        | none =>
          if c.typ = IEND then Outcome.ret ⟨offset', none, buf', c.r⟩
          else pngLoop fuel c.r buf' offset'

/-- The decoder `readPNG(r, buf)`. -/
def readPNG (r : Reader) (buf : List Byte) : Outcome DecodeRet :=
  if buf.length < 8 then Outcome.panic                     -- buf[:8]
  else
    match ReadFull r 8 with
    | (p, some err, r') => Outcome.ret ⟨p.length, some err, copyAt buf 0 p, r'⟩
    | (p, none, r') =>
      let buf' := copyAt buf 0 p
      if buf'.take 8 ≠ PNGSIG then Outcome.ret ⟨8, some Error.mayNotPNG, buf', r'⟩
      else pngLoop (r'.rest.length + 1) r' buf' 8

/-- The map `markMap` of `connCam`, looked up at `*split`. -/
def markMap (split : String) : Option (Reader → List Byte → Outcome DecodeRet) :=
  if split = "jpg" then some readJPG
  else if split = "png" then some readPNG
  else none

/-- What a run of `connCam` does: the frames it sends on `bufCh`, in order, how
it ends, the number of calls of the decoder, and the bytes of standard input
that no call of the decoder has consumed. -/
structure IngestRet where
  frames : List Frame
  out : Outcome Unit
  calls : Nat
  rest : List Byte
  deriving DecidableEq, Repr

/-- The `for` loop of `connCam`: it returns at the first error of the decoder.
The argument `buf[:8]` of the log call and `buf[0:n]` are slice expressions
that can panic. -/
def connCamLoop (decodeFn : Reader → List Byte → Outcome DecodeRet) :
    Nat → Reader → List Byte → IngestRet
  | 0, reader, _ => ⟨[], Outcome.diverge, 0, reader.rest⟩
  | fuel + 1, reader, buf =>
    match decodeFn reader buf with
    | Outcome.panic => ⟨[], Outcome.panic, 1, reader.rest⟩
    | Outcome.diverge => ⟨[], Outcome.diverge, 1, reader.rest⟩
    | Outcome.ret x =>
      match x.err with
      | some _ => ⟨[], Outcome.ret (), 1, x.r.rest⟩
      | none =>
        if x.buf.length < 8 then ⟨[], Outcome.panic, 1, x.r.rest⟩          -- buf[:8]
        else if x.buf.length < x.n then ⟨[], Outcome.panic, 1, x.r.rest⟩   -- buf[0:n]
        else
          ⟨(x.buf.take x.n) :: (connCamLoop decodeFn fuel x.r x.buf).frames,
            (connCamLoop decodeFn fuel x.r x.buf).out,
            (connCamLoop decodeFn fuel x.r x.buf).calls + 1,
            (connCamLoop decodeFn fuel x.r x.buf).rest⟩

/-- The function `connCam` on the bytes `stdin` of standard input; `size` stands
for the constant `8*1024*1024` that sizes both the reader and the scratch
buffer.  With a `*split` that `markMap` does not hold it returns before the
reader is made. -/
def connCam (size : Nat) (split : String) (stdin : List Byte) : IngestRet :=
  match markMap split with
  | none => ⟨[], Outcome.ret (), 0, stdin⟩
  | some decodeFn =>
    connCamLoop decodeFn (stdin.length + 1) (NewReaderSize stdin size) (List.replicate size 0)

/-! ## Frames as the specification describes them -/

/-- A format-A frame: start marker, payload, end marker. -/
def jpgFrame (payload : List Byte) : List Byte :=
  SOI ++ payload ++ EOI

/-- The payload contains no adjacent byte pair `FF D9`. -/
def noEOI : List Byte → Bool
  | a :: b :: t => !(a == 0xFF && b == 0xD9) && noEOI (b :: t)
  | _ => true

/-- The last byte of `l`, or `prev` when `l` is empty. -/
def lastOr : Byte → List Byte → Byte
  | prev, [] => prev
  | _, x :: xs => lastOr x xs

/-- Number of bytes of `l` up to and including the first `D9` that directly
follows an `FF`, where `prev` is the byte in front of `l`. -/
def scanEOI : Byte → List Byte → Option Nat
  | _, [] => none
  | prev, b :: t =>
    if prev = 0xFF ∧ b = 0xD9 then some 1 else (scanEOI b t).map (· + 1)

/-- Successive calls of a decoder on one reader and one scratch buffer return
the given frames: call `i` returns the length of frame `i` without error and
leaves the frame in the front of the buffer; after the last frame the stream is
used up and one more call returns `(0, io.EOF)`. -/
def DecodesAll (dec : Reader → List Byte → Outcome DecodeRet) :
    List (List Byte) → Reader → List Byte → Prop
  | [], r, buf => r.rest = [] ∧ ∃ buf', dec r buf = Outcome.ret ⟨0, some Error.EOF, buf', r⟩
  | f :: fs, r, buf =>
    ∃ buf' r', dec r buf = Outcome.ret ⟨f.length, none, buf', r'⟩
      ∧ buf'.take f.length = f ∧ DecodesAll dec fs r' buf'

/-- A chunk record of a format-B frame: type tag, data and checksum; the length
field is derived from the data. -/
structure Chunk where
  typ : List Byte
  data : List Byte
  crc : List Byte
  deriving DecidableEq, Repr

/-- The four bytes of `n` in big-endian order. -/
def be32 (n : Nat) : List Byte :=
  [UInt8.ofNat (n / 2 ^ 24), UInt8.ofNat (n / 2 ^ 16), UInt8.ofNat (n / 2 ^ 8), UInt8.ofNat n]

/-- The bytes of a chunk record: 4-byte big-endian length `L`, 4-byte type, `L`
data bytes, 4 checksum bytes. -/
def Chunk.encode (c : Chunk) : List Byte :=
  be32 c.data.length ++ c.typ ++ c.data ++ c.crc

/-- The fields of a chunk record have their sizes: a 4-byte type, a 4-byte
checksum and a data length that a 32-bit field can hold. -/
def Chunk.wf (c : Chunk) : Prop :=
  c.typ.length = 4 ∧ c.crc.length = 4 ∧ c.data.length < 2 ^ 32

instance (c : Chunk) : Decidable c.wf := by
  unfold Chunk.wf; infer_instance

/-- A format-B frame: the chunk records in front of the last one, and the last
one. -/
structure PngFrame where
  chunks : List Chunk
  last : Chunk
  deriving DecidableEq, Repr

/-- The bytes of a format-B frame: the signature followed by its chunk records. -/
def PngFrame.encode (f : PngFrame) : List Byte :=
  PNGSIG ++ ((f.chunks.map Chunk.encode).flatten ++ f.last.encode)

/-- The last chunk record and only the last has type `IEND`. -/
def PngFrame.wf (f : PngFrame) : Prop :=
  (∀ c ∈ f.chunks, c.wf ∧ c.typ ≠ IEND) ∧ f.last.wf ∧ f.last.typ = IEND

instance (f : PngFrame) : Decidable f.wf := by
  unfold PngFrame.wf; infer_instance

/-! ## Subscribers and the dispatcher

A Go channel is the list of the elements it buffers, oldest first, with its
capacity.  A blocking channel operation that cannot proceed is `none`; a send
on a channel of capacity 0, which waits for a receiver, is modelled as
blocking.  Pointers to `WsClient` values are natural numbers into a heap. -/

/-- A channel `chan α`: it never buffers more elements than its capacity. -/
structure Chan (α : Type) where
  buf : List α
  cap : Nat
  le_cap : buf.length ≤ cap

/-- The channel `make(chan α, n)`. -/
def Chan.make {α : Type} (n : Nat) : Chan α :=
  ⟨[], n, Nat.zero_le n⟩

/-- The receive `<-ch`: the oldest element and the channel without it, or
`none` when the receive blocks. -/
def Chan.recv {α : Type} : Chan α → Option (α × Chan α)
  | ⟨[], _, _⟩ => none
  | ⟨x :: xs, cap, h⟩ => some (x, ⟨xs, cap, Nat.le_of_succ_le h⟩)

/-- The statement `select { case <-ch: default: }`: it discards the oldest
buffered element if there is one. -/
def Chan.drain {α : Type} (ch : Chan α) : Chan α :=
  match ch.recv with
  | some (_, ch') => ch'
  | none => ch

/-- The send `ch <- x`, or `none` when the send blocks. -/
def Chan.send {α : Type} (ch : Chan α) (x : α) : Option (Chan α) :=
  if h : ch.buf.length < ch.cap then
    some ⟨ch.buf ++ [x], ch.cap, by rw [List.length_append]; exact h⟩
  else none

/-- The websocket connection as far as the relay uses it: the messages written
with `WriteMessage` and the number of calls of `Close`. -/
structure Conn where
  written : List Frame
  closes : Nat
  deriving DecidableEq, Repr

/-- The struct `WsClient`: the embedded connection, the channel `data` and the
flag `die`. -/
structure WsClient where
  conn : Conn
  data : Chan Frame
  die : Bool

/-- The constructor `NewWsClient(c)`, with `*queue` as a parameter. -/
def NewWsClient (c : Conn) (queue : Nat) : WsClient :=
  ⟨c, Chan.make queue, false⟩

/-- How a call of `Send` ends: it returns an error or nil, or it waits at
`c.data <- buf`. -/
inductive SendResult
  | ret (err : Option Error) (c : WsClient)
  | blocked (c : WsClient)

/-- The method `(c *WsClient) Send(buf)`. -/
def WsClient.Send (c : WsClient) (buf : Frame) : SendResult :=
  if c.die then SendResult.ret (some Error.connDie) c
  else
    let c1 : WsClient := { c with data := c.data.drain }
    match c1.data.send buf with
    | some ch => SendResult.ret none { c1 with data := ch }
    | none => SendResult.blocked c1

/-- Where the goroutine of `wsHandler` that runs `client.worker()` stands: at
the receive of `worker`, at the write of a received frame, after the return of
`worker`, or after the return of `wsHandler` itself. -/
inductive WorkerPC
  | recv
  | write (buf : Frame)
  | exited
  | done
  deriving DecidableEq, Repr

/-- The deferred `c.Close()` that runs when `wsHandler` returns. -/
def WsClient.handlerClose (c : WsClient) : WsClient :=
  { c with conn := { c.conn with closes := c.conn.closes + 1 } }

/-- The receive `buf := <-c.data` of `worker`. -/
def WsClient.workerRecv (c : WsClient) : Option (Frame × WsClient) :=
  match c.data.recv with
  | some (b, ch) => some (b, { c with data := ch })
  | none => none

/-- The rest of an iteration of `worker`: `WriteMessage(buf)` succeeds or fails
as `ok` says; on failure `Close()`, `c.die = true` and return.  The second
component tells whether `worker` returns. -/
def WsClient.workerWrite (c : WsClient) (buf : Frame) (ok : Bool) : WsClient × Bool :=
  if ok then ({ c with conn := { c.conn with written := c.conn.written ++ [buf] } }, false)
  else ({ c with conn := { c.conn with closes := c.conn.closes + 1 }, die := true }, true)

/-- The method `(c *WsClient) worker()` run against the outcomes `oks` of its
writes, until it blocks at the receive, returns, or has no outcome left for a
write. -/
def WsClient.worker : List Bool → WsClient → WsClient × WorkerPC
  | [], c =>
    match c.workerRecv with
    | none => (c, WorkerPC.recv)
    | some (b, c1) => (c1, WorkerPC.write b)
  | ok :: oks, c =>
    match c.workerRecv with
    | none => (c, WorkerPC.recv)
    | some (b, c1) =>
      if (c1.workerWrite b ok).2 then ((c1.workerWrite b ok).1, WorkerPC.exited)
      else WsClient.worker oks (c1.workerWrite b ok).1

/-- One subscriber with the two goroutines that use it: the dispatcher, which
is inside `Send` between the `select` and `c.data <- buf` when `sender` is
`some buf`, and the worker. -/
structure ClientSys where
  c : WsClient
  sender : Option Frame
  worker : WorkerPC

/-- The steps of the two goroutines. -/
inductive ClientAct
  | sendEnter (buf : Frame)     -- Send: the test of `c.die` and the `select`
  | sendDeposit                 -- Send: `c.data <- buf` and return
  | workerRecv                  -- worker: `buf := <-c.data`
  | workerWrite (ok : Bool)     -- worker: `WriteMessage` and what follows
  deriving DecidableEq, Repr

/-- One step; `none` when the goroutine is not at that statement or the
statement blocks. -/
def ClientSys.step (s : ClientSys) : ClientAct → Option ClientSys
  | ClientAct.sendEnter buf =>
    match s.sender with
    | some _ => none
    | none =>
      if s.c.die then some s
      else some { s with c := { s.c with data := s.c.data.drain }, sender := some buf }
  | ClientAct.sendDeposit =>
    match s.sender with
    | none => none
    | some buf =>
      match s.c.data.send buf with
      | some ch => some { s with c := { s.c with data := ch }, sender := none }
      | none => none
  | ClientAct.workerRecv =>
    match s.worker with
    | WorkerPC.recv =>
      match s.c.workerRecv with
      | some (b, c') => some { s with c := c', worker := WorkerPC.write b }
      | none => none
    | _ => none
  | ClientAct.workerWrite ok =>
    match s.worker with
    | WorkerPC.write b =>
      some { s with c := (s.c.workerWrite b ok).1,
                    worker := if (s.c.workerWrite b ok).2 then WorkerPC.exited
                              else WorkerPC.recv }
    | _ => none

/-- A sequence of steps. -/
def ClientSys.run (s : ClientSys) : List ClientAct → Option ClientSys
  | [] => some s
  | a :: as =>
    match s.step a with
    | some s' => ClientSys.run s' as
    | none => none

/-- A new subscriber with mailbox capacity `q`: the mailbox is empty, no `Send`
is under way and the worker is at its receive. -/
def ClientSys.init (conn : Conn) (q : Nat) : ClientSys :=
  ⟨NewWsClient conn q, none, WorkerPC.recv⟩

/-- The state of the relay: the keys of the map `clients` of `broacast`, the
channel `newclients`, the `WsClient` behind each pointer, where each worker
stands, and the number of clients created so far. -/
structure Sys where
  clients : List Nat
  newclients : Chan Nat
  heap : Nat → WsClient
  wpc : Nat → WorkerPC
  next : Nat

/-- The state after `main` has made the channels and started `broacast`. -/
def Sys.init : Sys :=
  ⟨[], Chan.make 16, fun _ => NewWsClient ⟨[], 0⟩ 0, fun _ => WorkerPC.recv, 0⟩

/-- The loop `for _, c := range clients` of `broacast` over the keys `ps`:
`Send` to each client and `delete(clients, c)` when it returns an error.  `none`
when a `Send` blocks. -/
def rangeSend (data : Frame) :
    List Nat → List Nat → (Nat → WsClient) → Option (List Nat × (Nat → WsClient))
  | [], clients, heap => some (clients, heap)
  | p :: ps, clients, heap =>
    match (heap p).Send data with
    | SendResult.blocked _ => none
    | SendResult.ret (some _) c' =>
      rangeSend data ps (clients.filter (· ≠ p)) (Function.update heap p c')
    | SendResult.ret none c' =>
      rangeSend data ps clients (Function.update heap p c')

/-- The loop `for len(newclients) > 0` of `broacast` over the buffered pointers:
`clients[c] = c` for each. -/
def drainNew : List Nat → List Nat → List Nat
  | [], clients => clients
  | p :: ps, clients => drainNew ps (if p ∈ clients then clients else clients ++ [p])

/-- One iteration of the outer loop of `broacast` with `data` received from
`bufCh`. -/
def Sys.broacast (s : Sys) (data : Frame) : Option Sys :=
  match rangeSend data s.clients s.clients s.heap with
  | none => none
  | some (clients, heap) =>
    some { s with clients := drainNew s.newclients.buf clients,
                  newclients := Chan.make s.newclients.cap,
                  heap := heap }

/-- The handler `wsHandler` from a successful upgrade to the start of the
worker: the new client gets the next pointer and is sent on `newclients`.
`none` when that send blocks. -/
def Sys.connect (q : Nat) (s : Sys) (conn : Conn) : Option Sys :=
  match s.newclients.send s.next with
  | none => none
  | some ch =>
    some { clients := s.clients, newclients := ch,
           heap := Function.update s.heap s.next (NewWsClient conn q),
           wpc := Function.update s.wpc s.next WorkerPC.recv,
           next := s.next + 1 }

/-- The steps of the relay. -/
inductive Action
  | connect (conn : Conn)
  | frame (data : Frame)
  | workerRecv (p : Nat)
  | workerWrite (p : Nat) (ok : Bool)
  | handlerReturn (p : Nat)
  deriving DecidableEq, Repr

/-- One step of the relay; `none` when the step cannot be taken. -/
def Sys.step (q : Nat) (s : Sys) : Action → Option Sys
  | Action.connect conn => s.connect q conn
  | Action.frame data => s.broacast data
  | Action.workerRecv p =>
    if p < s.next then
      match s.wpc p with
      | WorkerPC.recv =>
        match (s.heap p).workerRecv with
        | some (b, c') =>
          some { s with heap := Function.update s.heap p c',
                        wpc := Function.update s.wpc p (WorkerPC.write b) }
        | none => none
      | _ => none
    else none
  | Action.workerWrite p ok =>
    if p < s.next then
      match s.wpc p with
      | WorkerPC.write b =>
        some { s with heap := Function.update s.heap p ((s.heap p).workerWrite b ok).1,
                      wpc := Function.update s.wpc p
                        (if ((s.heap p).workerWrite b ok).2 then WorkerPC.exited
                         else WorkerPC.recv) }
      | _ => none
    else none
  | Action.handlerReturn p =>
    if p < s.next then
      match s.wpc p with
      | WorkerPC.exited =>
        some { s with heap := Function.update s.heap p (s.heap p).handlerClose,
                      wpc := Function.update s.wpc p WorkerPC.done }
      | _ => none
    else none

/-- A sequence of steps of the relay. -/
def Sys.run (q : Nat) (s : Sys) : List Action → Option Sys
  | [] => some s
  | a :: as =>
    match s.step q a with
    | some s' => Sys.run q s' as
    | none => none

/-- What holds of every state the relay reaches with mailbox capacity `q`: the
keys of `clients` and the pointers waiting in `newclients` are distinct and
allocated, every mailbox has capacity `q`, and a client waiting in `newclients`
is not in `clients`, is not dead, has an empty mailbox and a worker at its
receive. -/
def Sys.Inv (q : Nat) (s : Sys) : Prop :=
  s.clients.Nodup ∧ s.newclients.buf.Nodup
    ∧ (∀ p ∈ s.clients, p < s.next) ∧ (∀ p ∈ s.newclients.buf, p < s.next)
    ∧ (∀ p, p < s.next → (s.heap p).data.cap = q)
    ∧ (∀ p ∈ s.newclients.buf, p ∉ s.clients ∧ (s.heap p).die = false
        ∧ (s.heap p).data.buf = [] ∧ s.wpc p = WorkerPC.recv)

/-- The step is an iteration of `broacast`. -/
def Action.isFrame : Action → Bool
  | Action.frame _ => true
  | _ => false

/-! ## Observations on runs -/

/-- Successive calls of a decoder, each on the reader and the scratch buffer
that the call before left behind: the calls `xs` return without error, in this
order, and the call after them ends as `last`. -/
def Calls (dec : Reader → List Byte → Outcome DecodeRet) :
    List DecodeRet → Outcome DecodeRet → Reader → List Byte → Prop
  | [], last, r, buf => dec r buf = last
  | x :: xs, last, r, buf =>
    dec r buf = Outcome.ret x ∧ x.err = none ∧ Calls dec xs last x.r x.buf

/-- The byte pair `FF D9` ends at position `n` of `s`: `s[n-2] = FF` and
`s[n-1] = D9`. -/
def eoiAt (s : List Byte) (n : Nat) : Prop :=
  2 ≤ n ∧ s[n - 2]? = some 0xFF ∧ s[n - 1]? = some 0xD9

instance (s : List Byte) (n : Nat) : Decidable (eoiAt s n) := by
  unfold eoiAt; infer_instance

/-- The frames passed to `Send` by the steps `acts`, in the order of the
calls. -/
def offered : List ClientAct → List Frame
  | [] => []
  | ClientAct.sendEnter buf :: as => buf :: offered as
  | _ :: as => offered as

/-- The frame the worker has received and not yet written. -/
def WorkerPC.held : WorkerPC → List Frame
  | WorkerPC.write b => [b]
  | _ => []

/-- The number of calls of `Close` that the goroutine of `wsHandler` has made
when it stands at the given place: none while `worker` runs, the one of `worker`
after its return, and the deferred one as well after the return of
`wsHandler`. -/
def WorkerPC.closeCalls : WorkerPC → Nat
  | WorkerPC.recv => 0
  | WorkerPC.write _ => 0
  | WorkerPC.exited => 1
  | WorkerPC.done => 2

/-- The number of deposits into the mailbox of client `p` during the steps
`acts` from the state `s`: an iteration of `broacast` deposits when `p` is a key
of `clients` and its `Send` returns nil. -/
def Sys.deposits (q : Nat) (p : Nat) : Sys → List Action → Nat
  | _, [] => 0
  | s, a :: as =>
    (match a with
     | Action.frame data =>
       if p ∈ s.clients then
         match (s.heap p).Send data with
         | SendResult.ret none _ => 1
         | _ => 0
       else 0
     | _ => 0)
    + (match s.step q a with
       | some s' => Sys.deposits q p s' as
       | none => 0)

/-- Client `p` has left the relay: it is allocated, it is neither a key of
`clients` nor waiting in `newclients`, it is dead, its mailbox is empty and its
worker has returned. -/
def Sys.Gone (s : Sys) (p : Nat) : Prop :=
  p < s.next ∧ p ∉ s.clients ∧ p ∉ s.newclients.buf ∧ (s.heap p).die = true
    ∧ (s.heap p).data.buf = [] ∧ (s.wpc p = WorkerPC.exited ∨ s.wpc p = WorkerPC.done)

/-! ## Library lemmas -/

theorem IndexByte_split (c : Byte) (a b : List Byte) (ha : c ∉ a) :
    IndexByte (a ++ c :: b) c = some a.length := by
  induction a with
  | nil => simp [IndexByte]
  | cons x xs ih =>
    have hx : x ≠ c := fun h => ha (by simp [h])
    have hxs : c ∉ xs := fun h => ha (by simp [h])
    simp [IndexByte, hx, ih hxs]

theorem IndexByte_none (c : Byte) (l : List Byte) (hl : c ∉ l) :
    IndexByte l c = none := by
  induction l with
  | nil => simp [IndexByte]
  | cons x xs ih =>
    have hx : x ≠ c := fun h => hl (by simp [h])
    have hxs : c ∉ xs := fun h => hl (by simp [h])
    simp [IndexByte, hx, ih hxs]

theorem ReadSlice_split (c : Byte) (a b : List Byte) (size : Nat) (ha : c ∉ a)
    (hsz : a.length < size) :
    ReadSlice ⟨a ++ c :: b, size⟩ c = (a ++ [c], none, ⟨b, size⟩) := by
  have h1 : (a ++ c :: b).take size = a ++ c :: b.take (size - a.length - 1) := by
    rw [List.take_append_eq_append_take, List.take_of_length_le (by omega)]
    congr 1
    obtain ⟨k, hk⟩ : ∃ k, size - a.length = k + 1 := ⟨size - a.length - 1, by omega⟩
    rw [hk]; simp
  have h2 : (a ++ c :: b).take (a.length + 1) = a ++ [c] := by
    rw [List.take_append]; simp
  have h3 : (a ++ c :: b).drop (a.length + 1) = b := by
    rw [List.drop_append]; simp
  simp only [ReadSlice, h1, IndexByte_split c a _ ha, h2, h3]

theorem ReadSlice_eof (c : Byte) (l : List Byte) (size : Nat) (hl : c ∉ l)
    (hsz : l.length < size) :
    ReadSlice ⟨l, size⟩ c = (l, some Error.EOF, ⟨[], size⟩) := by
  have h1 : l.take size = l := List.take_of_length_le (by omega)
  have h2 : ¬ size ≤ l.length := by omega
  simp only [ReadSlice, h1, IndexByte_none c l hl, h2, if_false]

theorem copyAt_append (done junk s : List Byte) (hs : s.length ≤ junk.length) :
    copyAt (done ++ junk) done.length s = done ++ s ++ junk.drop s.length := by
  unfold copyAt
  rw [List.take_left, List.drop_append, List.length_append]
  rw [List.take_of_length_le (by omega)]

theorem copyAt_zero (buf s : List Byte) (hs : s.length ≤ buf.length) :
    copyAt buf 0 s = s ++ buf.drop s.length := by
  simpa using copyAt_append [] buf s hs

theorem copyAt_length (buf s : List Byte) (off : Nat) (h : off ≤ buf.length) :
    (copyAt buf off s).length = buf.length := by
  unfold copyAt
  simp only [List.length_append, List.length_take, List.length_drop]
  omega

theorem HasSuffix_EOI (x : List Byte) (a b : Byte) :
    HasSuffix (x ++ [a, b]) EOI = true ↔ a = 0xFF ∧ b = 0xD9 := by
  simp [HasSuffix, EOI]

/-! ## The marker scan of `readJPG` -/

theorem scanEOI_split (prev : Byte) (a b : List Byte) (ha : (0xD9 : Byte) ∉ a) :
    scanEOI prev (a ++ 0xD9 :: b)
      = if lastOr prev a = 0xFF then some (a.length + 1)
        else (scanEOI 0xD9 b).map (· + (a.length + 1)) := by
  induction a generalizing prev with
  | nil =>
    by_cases h : prev = 0xFF
    · simp [scanEOI, h, lastOr]
    · simp [scanEOI, h, lastOr]
  | cons x xs ih =>
    have hx : x ≠ 0xD9 := fun h => ha (by simp [h])
    have hxs : (0xD9 : Byte) ∉ xs := fun h => ha (by simp [h])
    have e : scanEOI prev (x :: (xs ++ 0xD9 :: b))
        = (scanEOI x (xs ++ 0xD9 :: b)).map (· + 1) := by
      simp [scanEOI, hx]
    rw [List.cons_append, e, ih x hxs]
    by_cases h : lastOr x xs = 0xFF
    · simp [h, lastOr]
    · simp only [h, if_false, Option.map_map, lastOr, List.length_cons]
      congr 1

theorem scanEOI_mem (prev : Byte) (l : List Byte) (m : Nat) (h : scanEOI prev l = some m) :
    (0xD9 : Byte) ∈ l := by
  induction l generalizing prev m with
  | nil => simp [scanEOI] at h
  | cons x xs ih =>
    by_cases hc : prev = 0xFF ∧ x = 0xD9
    · simp [hc.2]
    · simp only [scanEOI, hc, if_false, Option.map_eq_some'] at h
      obtain ⟨m', hm', _⟩ := h
      exact List.mem_cons_of_mem _ (ih x m' hm')

theorem lastOr_snoc (prev : Byte) (a : List Byte) :
    ∃ x, [prev] ++ a = x ++ [lastOr prev a] := by
  induction a generalizing prev with
  | nil => exact ⟨[], rfl⟩
  | cons y ys ih =>
    obtain ⟨x, hx⟩ := ih y
    refine ⟨prev :: x, ?_⟩
    simp only [lastOr]
    simpa using hx

theorem HasSuffix_step (d0 a : List Byte) (prev : Byte) :
    HasSuffix (d0 ++ [prev] ++ (a ++ [0xD9])) EOI = true ↔ lastOr prev a = 0xFF := by
  obtain ⟨x, hx⟩ := lastOr_snoc prev a
  have : d0 ++ [prev] ++ (a ++ [0xD9]) = (d0 ++ x) ++ [lastOr prev a, 0xD9] := by
    calc d0 ++ [prev] ++ (a ++ [0xD9]) = d0 ++ ([prev] ++ a) ++ [0xD9] := by simp
      _ = d0 ++ (x ++ [lastOr prev a]) ++ [0xD9] := by rw [hx]
      _ = (d0 ++ x) ++ [lastOr prev a, 0xD9] := by simp
  rw [this, HasSuffix_EOI]
  simp

/-- One iteration of the loop of `readJPG` when the stream continues with a
segment `a ++ [D9]` that holds no other `D9`. -/
theorem jpgLoop_step (fuel : Nat) (d0 a b junk : List Byte) (prev : Byte) (size : Nat)
    (ha : (0xD9 : Byte) ∉ a) (hsz : a.length < size) (hj : a.length + 1 ≤ junk.length) :
    jpgLoop (fuel + 1) ⟨a ++ 0xD9 :: b, size⟩ (d0 ++ [prev] ++ junk) (d0.length + 1)
      = if lastOr prev a = 0xFF then
          Outcome.ret ⟨d0.length + 1 + (a.length + 1), none,
            d0 ++ [prev] ++ (a ++ [0xD9]) ++ junk.drop (a.length + 1), ⟨b, size⟩⟩
        else
          jpgLoop fuel ⟨b, size⟩
            ((d0 ++ [prev] ++ a) ++ [0xD9] ++ junk.drop (a.length + 1))
            ((d0 ++ [prev] ++ a).length + 1) := by
  have hlen : (d0 ++ [prev]).length = d0.length + 1 := by simp
  have hs : (a ++ [0xD9]).length = a.length + 1 := by simp
  have hc : copyAt (d0 ++ [prev] ++ junk) (d0.length + 1) (a ++ [0xD9])
      = d0 ++ [prev] ++ (a ++ [0xD9]) ++ junk.drop (a.length + 1) := by
    have := copyAt_append (d0 ++ [prev]) junk (a ++ [0xD9]) (by rw [hs]; exact hj)
    rw [hlen, hs] at this
    exact this
  have ht : (d0 ++ [prev] ++ (a ++ [0xD9]) ++ junk.drop (a.length + 1)).take
      (d0.length + 1 + (a ++ [0xD9]).length) = d0 ++ [prev] ++ (a ++ [0xD9]) := by
    apply List.take_left'
    simp only [List.length_append, List.length_cons, List.length_nil]
  have hl1 : ¬ (d0 ++ [prev] ++ junk).length < d0.length + 1 := by
    simp
  have hl2 : ¬ (d0 ++ [prev] ++ (a ++ [0xD9]) ++ junk.drop (a.length + 1)).length
      < d0.length + 1 + (a ++ [0xD9]).length := by
    simp only [List.length_append, List.length_cons, List.length_nil, List.length_drop]
    omega
  rw [jpgLoop, ReadSlice_split 0xD9 a b size ha hsz]
  simp only [hc, ht, hl1, hl2, if_false]
  by_cases h : lastOr prev a = 0xFF
  · have hS := (HasSuffix_step d0 a prev).2 h
    simp only [hS, h, if_true, hs]
  · have hS : HasSuffix (d0 ++ [prev] ++ (a ++ [0xD9])) EOI = false := by
      cases hq : HasSuffix (d0 ++ [prev] ++ (a ++ [0xD9])) EOI with
      | false => rfl
      | true => exact absurd ((HasSuffix_step d0 a prev).1 hq) h
    simp only [hS, h, if_false, hs, Bool.false_eq_true]
    congr 1
    · simp
    · simp only [List.length_append, List.length_cons, List.length_nil]
      omega

/-- The loop of `readJPG` returns at the first `FF D9` of the stream. -/
theorem jpgLoop_some (fuel : Nat) : ∀ (todo d0 junk : List Byte) (prev : Byte) (size m : Nat),
    scanEOI prev todo = some m → m ≤ junk.length → m ≤ size → todo.length < fuel →
    jpgLoop fuel ⟨todo, size⟩ (d0 ++ [prev] ++ junk) (d0.length + 1)
      = Outcome.ret ⟨d0.length + 1 + m, none,
          d0 ++ [prev] ++ todo.take m ++ junk.drop m, ⟨todo.drop m, size⟩⟩ := by
  induction fuel with
  | zero => intro todo d0 junk prev size m _ _ _ hf; omega
  | succ fuel ih =>
    intro todo d0 junk prev size m hscan hj hsz hf
    obtain ⟨a, b, rfl, ha⟩ := List.eq_append_cons_of_mem (scanEOI_mem prev todo m hscan)
    rw [scanEOI_split prev a b ha] at hscan
    by_cases h : lastOr prev a = 0xFF
    · simp only [h, if_true, Option.some.injEq] at hscan
      subst hscan
      rw [jpgLoop_step fuel d0 a b junk prev size ha (by omega) hj]
      simp only [h, if_true]
      have e1 : (a ++ 0xD9 :: b).take (a.length + 1) = a ++ [0xD9] := by
        rw [List.take_append]; simp
      have e2 : (a ++ 0xD9 :: b).drop (a.length + 1) = b := by
        rw [List.drop_append]; simp
      rw [e1, e2]
    · simp only [h, if_false, Option.map_eq_some'] at hscan
      obtain ⟨m', hm', rfl⟩ := hscan
      rw [jpgLoop_step fuel d0 a b junk prev size ha (by omega) (by omega)]
      simp only [h, if_false]
      have hb : b.length < fuel := by
        simp only [List.length_append, List.length_cons] at hf
        omega
      have := ih b (d0 ++ [prev] ++ a) (junk.drop (a.length + 1)) 0xD9 size m' hm'
        (by simp only [List.length_drop]; omega) (by omega) hb
      rw [this]
      have e1 : (a ++ 0xD9 :: b).take (m' + (a.length + 1)) = a ++ 0xD9 :: b.take m' := by
        rw [Nat.add_comm m', Nat.add_assoc, List.take_append, Nat.add_comm 1 m']
        simp
      have e2 : (a ++ 0xD9 :: b).drop (m' + (a.length + 1)) = b.drop m' := by
        rw [Nat.add_comm m', Nat.add_assoc, List.drop_append, Nat.add_comm 1 m']
        simp
      have e3 : (junk.drop (a.length + 1)).drop m' = junk.drop (m' + (a.length + 1)) := by
        rw [List.drop_drop]; congr 1; omega
      rw [e1, e2, e3]
      congr 2
      · simp only [List.length_append, List.length_cons, List.length_nil]
        omega
      · simp

/-- The loop of `readJPG` ends with `io.EOF` when the stream ends before an
`FF D9` shows up. -/
theorem jpgLoop_none (fuel : Nat) : ∀ (todo d0 junk : List Byte) (prev : Byte) (size : Nat),
    scanEOI prev todo = none → todo.length ≤ junk.length → todo.length < size →
    todo.length < fuel →
    ∃ k buf', jpgLoop fuel ⟨todo, size⟩ (d0 ++ [prev] ++ junk) (d0.length + 1)
      = Outcome.ret ⟨k, some Error.EOF, buf', ⟨[], size⟩⟩ := by
  induction fuel with
  | zero => intro todo d0 junk prev size _ _ _ hf; omega
  | succ fuel ih =>
    intro todo d0 junk prev size hscan hj hsz hf
    by_cases hmem : (0xD9 : Byte) ∈ todo
    · obtain ⟨a, b, rfl, ha⟩ := List.eq_append_cons_of_mem hmem
      simp only [List.length_append, List.length_cons] at hj hsz hf
      rw [scanEOI_split prev a b ha] at hscan
      by_cases h : lastOr prev a = 0xFF
      · simp [h] at hscan
      · simp only [h, if_false, Option.map_eq_none'] at hscan
        rw [jpgLoop_step fuel d0 a b junk prev size ha (by omega) (by omega)]
        simp only [h, if_false]
        exact ih b (d0 ++ [prev] ++ a) (junk.drop (a.length + 1)) 0xD9 size hscan
          (by simp only [List.length_drop]; omega) (by omega) (by omega)
    · refine ⟨d0.length + 1, d0 ++ [prev] ++ junk, ?_⟩
      rw [jpgLoop, ReadSlice_eof 0xD9 todo size hmem hsz]

theorem ReadFull_append (a b : List Byte) (size : Nat) :
    ReadFull ⟨a ++ b, size⟩ a.length = (a, none, ⟨b, size⟩) := by
  simp [ReadFull]

/-- The call `readJPG` on a stream that starts with the start marker and holds an
`FF D9` after it returns the bytes up to the first `FF D9`. -/
theorem readJPG_stream (todo buf : List Byte) (size m : Nat)
    (hscan : scanEOI 0xD8 todo = some m) (hfit : m + 2 ≤ buf.length) (hsz : m ≤ size) :
    readJPG ⟨SOI ++ todo, size⟩ buf
      = Outcome.ret ⟨m + 2, none, SOI ++ todo.take m ++ buf.drop (m + 2),
          ⟨todo.drop m, size⟩⟩ := by
  have hb : ¬ buf.length < 2 := by omega
  have hrf : ReadFull ⟨SOI ++ todo, size⟩ 2 = (SOI, none, ⟨todo, size⟩) :=
    ReadFull_append SOI todo size
  have hc : copyAt buf 0 SOI = [0xFF] ++ [0xD8] ++ buf.drop 2 := by
    rw [copyAt_zero buf SOI (by simp [SOI]; omega)]; rfl
  have ht : ([0xFF] ++ [0xD8] ++ buf.drop 2 : List Byte).take 2 = SOI := rfl
  have := jpgLoop_some (todo.length + 1) todo [0xFF] (buf.drop 2) 0xD8 size m hscan
    (by simp only [List.length_drop]; omega) hsz (by omega)
  have this2 : jpgLoop (todo.length + 1) ⟨todo, size⟩ ([0xFF] ++ [0xD8] ++ buf.drop 2) 2
      = Outcome.ret ⟨1 + 1 + m, none, [0xFF] ++ [0xD8] ++ todo.take m ++ (buf.drop 2).drop m,
          ⟨todo.drop m, size⟩⟩ := this
  simp only [readJPG, hb, if_false, hrf, hc, ht, ne_eq, not_true_eq_false]
  rw [this2]
  congr 2
  · omega
  · simp only [SOI, List.drop_drop]
    rw [Nat.add_comm 2 m]
    rfl

theorem noEOI_cons_D8 (p : List Byte) : noEOI (0xD8 :: p) = noEOI p := by
  cases p with
  | nil => rfl
  | cons x xs =>
    have : ((0xD8 : Byte) == 0xFF) = false := by decide
    simp [noEOI, this]

theorem scanEOI_payload (p tail : List Byte) : ∀ prev : Byte, noEOI (prev :: p) = true →
    scanEOI prev (p ++ EOI ++ tail) = some (p.length + 2) := by
  induction p with
  | nil =>
    intro prev _
    have : ¬ ((0xFF : Byte) = 0xD9) := by decide
    simp [scanEOI, EOI, this]
  | cons x xs ih =>
    intro prev h
    simp only [noEOI, Bool.and_eq_true, Bool.not_eq_true', Bool.and_eq_false_iff,
      beq_eq_false_iff_ne, ne_eq] at h
    have hc : ¬ (prev = 0xFF ∧ x = 0xD9) := by
      intro hc; rcases h.1 with h1 | h1
      · exact h1 hc.1
      · exact h1 hc.2
    rw [show x :: xs ++ EOI ++ tail = x :: (xs ++ EOI ++ tail) from rfl, scanEOI,
      if_neg hc, ih x h.2]
    simp

/-- One call of `readJPG` on a stream that starts with a frame. -/
theorem readJPG_frame (p tail buf : List Byte) (size : Nat) (hp : noEOI p = true)
    (hfit : (jpgFrame p).length ≤ buf.length) (hsz : buf.length ≤ size) :
    readJPG ⟨jpgFrame p ++ tail, size⟩ buf
      = Outcome.ret ⟨(jpgFrame p).length, none,
          jpgFrame p ++ buf.drop (jpgFrame p).length, ⟨tail, size⟩⟩ := by
  have hl : (jpgFrame p).length = p.length + 2 + 2 := by simp [jpgFrame, SOI, EOI]
  have hscan := scanEOI_payload p tail 0xD8 (by rw [noEOI_cons_D8]; exact hp)
  have e : jpgFrame p ++ tail = SOI ++ (p ++ EOI ++ tail) := by simp [jpgFrame]
  rw [e, readJPG_stream (p ++ EOI ++ tail) buf size (p.length + 2) hscan (by omega) (by omega)]
  have e1 : (p ++ EOI ++ tail).take (p.length + 2) = p ++ EOI := by
    apply List.take_left'; simp [EOI]
  have e2 : (p ++ EOI ++ tail).drop (p.length + 2) = tail := by
    apply List.drop_left'; simp [EOI]
  rw [e1, e2, hl]
  simp [jpgFrame]

theorem readJPG_empty (buf : List Byte) (size : Nat) (h2 : 2 ≤ buf.length) :
    readJPG ⟨[], size⟩ buf = Outcome.ret ⟨0, some Error.EOF, buf, ⟨[], size⟩⟩ := by
  have hb : ¬ buf.length < 2 := by omega
  simp [readJPG, hb, ReadFull, copyAt]

theorem jpgFrame_length (p : List Byte) : (jpgFrame p).length = p.length + 4 := by
  simp [jpgFrame, SOI, EOI]

/-- Successive calls of `readJPG` on a stream of frames, for every reader whose
internal buffer is at least as large as the scratch buffer. -/
theorem readJPG_decodesAll (payloads : List (List Byte)) (buf : List Byte) (size : Nat)
    (hpay : ∀ p ∈ payloads, noEOI p = true)
    (hfit : ∀ p ∈ payloads, (jpgFrame p).length ≤ buf.length)
    (h2 : payloads = [] → 2 ≤ buf.length)
    (hsz : buf.length ≤ size) :
    DecodesAll readJPG (payloads.map jpgFrame)
      ⟨(payloads.map jpgFrame).flatten, size⟩ buf := by
  induction payloads generalizing buf with
  | nil =>
    refine ⟨rfl, buf, ?_⟩
    exact readJPG_empty buf size (h2 rfl)
  | cons p ps ih =>
    have hp := hpay p (by simp)
    have hf := hfit p (by simp)
    have hlen : (jpgFrame p ++ buf.drop (jpgFrame p).length).length = buf.length := by
      simp only [List.length_append, List.length_drop]; omega
    refine ⟨jpgFrame p ++ buf.drop (jpgFrame p).length, ⟨(ps.map jpgFrame).flatten, size⟩,
      ?_, ?_, ?_⟩
    · simpa using readJPG_frame p (ps.map jpgFrame).flatten buf size hp hf hsz
    · exact List.take_left _ _
    · apply ih
      · intro q hq; exact hpay q (by simp [hq])
      · intro q hq; rw [hlen]; exact hfit q (by simp [hq])
      · intro _; rw [hlen]; have := jpgFrame_length p; omega
      · rw [hlen]; exact hsz

/-- C1. Round trip of the format-A decoder.  The stream is the concatenation of
frames `FF D8 ++ payload ++ FF D9` whose payloads hold no adjacent `FF D9`, every
frame fits in the scratch buffer, and the reader over the stream is created as
`connCam` creates it, with `bufio.NewReaderSize` and the size of the scratch
buffer (only needed for an empty list of frames: the buffer has room for the
marker).  Then successive calls of `readJPG` return the lengths of the frames in
order without error, each call leaves its frame in `buf[:n]`, the stream is used
up after the last frame, and one more call returns `io.EOF`. -/
theorem readJPG_roundtrip (payloads : List (List Byte)) (buf : List Byte)
    (hpay : ∀ p ∈ payloads, noEOI p = true)
    (hfit : ∀ p ∈ payloads, (jpgFrame p).length ≤ buf.length)
    (h2 : payloads = [] → 2 ≤ buf.length) :
    DecodesAll readJPG (payloads.map jpgFrame)
      (NewReaderSize (payloads.map jpgFrame).flatten buf.length) buf :=
  readJPG_decodesAll payloads buf (max buf.length 16) hpay hfit h2 (Nat.le_max_left _ _)

/-- C1 at two back-to-back minimal images `FF D8 FF D9 FF D8 FF D9`: the first
call returns 4 and so does the second. -/
theorem readJPG_roundtrip_witness :
    DecodesAll readJPG [[0xFF, 0xD8, 0xFF, 0xD9], [0xFF, 0xD8, 0xFF, 0xD9]]
        (NewReaderSize [0xFF, 0xD8, 0xFF, 0xD9, 0xFF, 0xD8, 0xFF, 0xD9] 16)
        (List.replicate 16 0)
      ∧ readJPG (NewReaderSize [0xFF, 0xD8, 0xFF, 0xD9, 0xFF, 0xD8, 0xFF, 0xD9] 16)
          (List.replicate 16 0)
        = Outcome.ret ⟨4, none, [0xFF, 0xD8, 0xFF, 0xD9] ++ List.replicate 12 0,
            ⟨[0xFF, 0xD8, 0xFF, 0xD9], 16⟩⟩
      ∧ readJPG ⟨[0xFF, 0xD8, 0xFF, 0xD9], 16⟩ ([0xFF, 0xD8, 0xFF, 0xD9] ++ List.replicate 12 0)
        = Outcome.ret ⟨4, none, [0xFF, 0xD8, 0xFF, 0xD9] ++ List.replicate 12 0, ⟨[], 16⟩⟩ :=
  ⟨readJPG_roundtrip [[], []] (List.replicate 16 0) (by decide) (by decide) (by decide),
    by decide, by decide⟩

/-! ## The chunk walk of `readPNG` -/

theorem be32_length (n : Nat) : (be32 n).length = 4 := rfl

theorem Uint32_be32 (n : Nat) (h : n < 2 ^ 32) : Uint32 (be32 n) = n := by
  have e : ∀ k : Nat, (UInt8.ofNat k).toNat = k % 256 := fun k => rfl
  simp only [Uint32, be32, List.getD_cons_zero, List.getD_cons_succ, e]
  norm_num at h ⊢
  omega

theorem ReadFull_exact (a b : List Byte) (size k : Nat) (h : a.length = k) :
    ReadFull ⟨a ++ b, size⟩ k = (a, none, ⟨b, size⟩) := by
  subst h; exact ReadFull_append a b size

theorem Chunk.encode_length (c : Chunk) (hwf : c.wf) :
    c.encode.length = c.data.length + 12 := by
  obtain ⟨h1, h2, _⟩ := hwf
  simp only [Chunk.encode, List.length_append, be32_length, h1, h2]
  omega

/-- The call `readPNGChunk` on a stream that starts with a chunk record whose
declared length does not wrap: it consumes the record and returns its type. -/
theorem readPNGChunk_chunk (c : Chunk) (tail buf : List Byte) (size : Nat) (hwf : c.wf)
    (hfit : c.data.length + 12 ≤ buf.length) (hnw : c.data.length + 12 < 2 ^ 32) :
    readPNGChunk ⟨c.encode ++ tail, size⟩ buf
      = Outcome.ret ⟨c.data.length + 12, c.typ, none,
          c.encode ++ buf.drop (c.data.length + 12), ⟨tail, size⟩⟩ := by
  obtain ⟨ht, hc, hd⟩ := hwf
  have es : c.encode ++ tail
      = be32 c.data.length ++ (c.typ ++ ((c.data ++ c.crc) ++ tail)) := by
    simp [Chunk.encode]
  have r1 := ReadFull_exact (be32 c.data.length) (c.typ ++ ((c.data ++ c.crc) ++ tail)) size 4 rfl
  have r2 := ReadFull_exact c.typ ((c.data ++ c.crc) ++ tail) size 4 ht
  have r3 := ReadFull_exact (c.data ++ c.crc) tail size (c.data.length + 4)
    (by simp [hc])
  have b1 : copyAt buf 0 (be32 c.data.length) = be32 c.data.length ++ buf.drop 4 :=
    copyAt_zero buf _ (by rw [be32_length]; omega)
  have t1 : (be32 c.data.length ++ buf.drop 4).take 4 = be32 c.data.length :=
    List.take_left' rfl
  have b2 : copyAt (be32 c.data.length ++ buf.drop 4) 4 c.typ
      = be32 c.data.length ++ c.typ ++ buf.drop 8 := by
    have := copyAt_append (be32 c.data.length) (buf.drop 4) c.typ
      (by rw [ht, List.length_drop]; omega)
    rw [be32_length, ht, List.drop_drop] at this
    exact this
  have b3 : copyAt (be32 c.data.length ++ c.typ ++ buf.drop 8) 8 (c.data ++ c.crc)
      = be32 c.data.length ++ c.typ ++ (c.data ++ c.crc) ++ buf.drop (c.data.length + 12) := by
    have hl : (be32 c.data.length ++ c.typ).length = 8 := by
      rw [List.length_append, be32_length, ht]
    have hl2 : (c.data ++ c.crc).length = c.data.length + 4 := by
      rw [List.length_append, hc]
    have := copyAt_append (be32 c.data.length ++ c.typ) (buf.drop 8) (c.data ++ c.crc)
      (by rw [hl2, List.length_drop]; omega)
    rw [hl, hl2, List.drop_drop] at this
    rw [this]
    congr 2
    omega
  have t3 : ((be32 c.data.length ++ c.typ ++ (c.data ++ c.crc)
      ++ buf.drop (c.data.length + 12)).drop 4).take 4 = c.typ := by
    have : be32 c.data.length ++ c.typ ++ (c.data ++ c.crc) ++ buf.drop (c.data.length + 12)
        = be32 c.data.length ++ (c.typ ++ ((c.data ++ c.crc) ++ buf.drop (c.data.length + 12))) := by
      simp
    rw [this, List.drop_left' (be32_length _), List.take_left' ht]
  have hu := Uint32_be32 c.data.length hd
  have n1 : (c.data.length + 4 + 4) % 2 ^ 32 = c.data.length + 8 := by
    rw [Nat.mod_eq_of_lt (by omega)]
  have n2 : (c.data.length + 8 + 4) % 2 ^ 32 = c.data.length + 12 := by
    rw [Nat.mod_eq_of_lt (by omega)]
  have n3 : c.data.length + 12 - (4 + 4) = c.data.length + 4 := by omega
  have l0 : ¬ buf.length < 4 := by omega
  have l1 : ¬ (be32 c.data.length ++ buf.drop 4).length < 4 + 4 := by
    rw [List.length_append, be32_length, List.length_drop]; omega
  have l2 : ¬ (c.data.length + 12 < 4 + 4
      ∨ (be32 c.data.length ++ c.typ ++ buf.drop 8).length < c.data.length + 12) := by
    rw [List.length_append, List.length_append, be32_length, ht, List.length_drop]; omega
  have l3 : (c.data ++ c.crc).length + 8 = c.data.length + 12 := by
    rw [List.length_append, hc]
  have e4 : be32 c.data.length ++ c.typ ++ (c.data ++ c.crc) = c.encode := by
    simp [Chunk.encode]
  rw [es]
  unfold readPNGChunk
  rw [if_neg l0, r1]
  dsimp only
  rw [b1, if_neg l1, r2]
  dsimp only
  rw [t1, hu, n1, n2, b2, if_neg l2, n3, r3]
  dsimp only
  rw [b3, t3, l3, e4]

/-- One iteration of the loop of `readPNG` on a stream that continues with a
chunk record. -/
theorem pngLoop_step (fuel : Nat) (c : Chunk) (rest done junk : List Byte) (size : Nat)
    (hwf : c.wf) (hfit : c.data.length + 12 ≤ junk.length)
    (hnw : c.data.length + 12 < 2 ^ 32) :
    pngLoop (fuel + 1) ⟨c.encode ++ rest, size⟩ (done ++ junk) done.length
      = if c.typ = IEND then
          Outcome.ret ⟨done.length + (c.data.length + 12), none,
            done ++ (c.encode ++ junk.drop (c.data.length + 12)), ⟨rest, size⟩⟩
        else
          pngLoop fuel ⟨rest, size⟩ (done ++ (c.encode ++ junk.drop (c.data.length + 12)))
            (done.length + (c.data.length + 12)) := by
  have l0 : ¬ (done ++ junk).length < done.length := by
    rw [List.length_append]; omega
  rw [pngLoop, if_neg l0, List.drop_left, readPNGChunk_chunk c rest junk size hwf hfit hnw]
  dsimp only
  rw [List.take_left]

theorem chunks_length_le (cs : List Chunk) :
    cs.length ≤ (cs.map Chunk.encode).flatten.length := by
  induction cs with
  | nil => simp
  | cons c cs ih =>
    simp only [List.map_cons, List.flatten_cons, List.length_append, List.length_cons,
      Chunk.encode, be32_length]
    omega

/-- The loop of `readPNG` walks the chunk records of a frame and returns at its
`IEND` record. -/
theorem pngLoop_chunks (size : Nat) (e : Chunk) (tail : List Byte) (he : e.wf)
    (hie : e.typ = IEND) : ∀ (cs : List Chunk) (done junk : List Byte) (fuel : Nat),
    (∀ c ∈ cs, c.wf ∧ c.typ ≠ IEND) →
    ((cs.map Chunk.encode).flatten ++ e.encode).length ≤ junk.length →
    ((cs.map Chunk.encode).flatten ++ e.encode).length < 2 ^ 32 →
    cs.length < fuel →
    pngLoop fuel ⟨((cs.map Chunk.encode).flatten ++ e.encode) ++ tail, size⟩
        (done ++ junk) done.length
      = Outcome.ret ⟨done.length + ((cs.map Chunk.encode).flatten ++ e.encode).length, none,
          done ++ ((cs.map Chunk.encode).flatten ++ e.encode)
            ++ junk.drop ((cs.map Chunk.encode).flatten ++ e.encode).length,
          ⟨tail, size⟩⟩ := by
  intro cs
  induction cs with
  | nil =>
    intro done junk fuel _ hfit hnw hf
    obtain ⟨fuel, rfl⟩ : ∃ k, fuel = k + 1 := ⟨fuel - 1, by omega⟩
    have hl := Chunk.encode_length e he
    simp only [List.map_nil, List.flatten_nil, List.nil_append] at hfit hnw ⊢
    rw [pngLoop_step fuel e tail done junk size he (by omega) (by omega), if_pos hie, hl]
    simp
  | cons c cs ih =>
    intro done junk fuel hcs hfit hnw hf
    obtain ⟨fuel, rfl⟩ : ∃ k, fuel = k + 1 := ⟨fuel - 1, by omega⟩
    obtain ⟨hcw, hct⟩ := hcs c (by simp)
    have hl := Chunk.encode_length c hcw
    simp only [List.map_cons, List.flatten_cons, List.append_assoc, List.length_append]
      at hfit hnw ⊢
    rw [pngLoop_step fuel c _ done junk size hcw (by omega) (by omega), if_neg hct]
    have := ih (done ++ c.encode) (junk.drop (c.data.length + 12)) fuel
      (fun q hq => hcs q (by simp [hq]))
      (by simp only [List.length_append, List.length_drop]; omega)
      (by simp only [List.length_append]; omega)
      (by simp only [List.length_cons] at hf; omega)
    simp only [List.append_assoc, List.length_append, hl, List.drop_drop] at this
    rw [this, hl]
    congr 2
    omega

/-- One call of `readPNG` on a stream that starts with a frame. -/
theorem readPNG_frame (f : PngFrame) (tail buf : List Byte) (size : Nat) (hwf : f.wf)
    (hfit : f.encode.length ≤ buf.length) (hbuf : buf.length < 2 ^ 32) :
    readPNG ⟨f.encode ++ tail, size⟩ buf
      = Outcome.ret ⟨f.encode.length, none, f.encode ++ buf.drop f.encode.length,
          ⟨tail, size⟩⟩ := by
  obtain ⟨hcs, he, hie⟩ := hwf
  have hl : f.encode.length
      = 8 + ((f.chunks.map Chunk.encode).flatten ++ f.last.encode).length := by
    simp only [PngFrame.encode, List.length_append]; rfl
  have es : f.encode ++ tail
      = PNGSIG ++ (((f.chunks.map Chunk.encode).flatten ++ f.last.encode) ++ tail) := by
    simp [PngFrame.encode]
  have l0 : ¬ buf.length < 8 := by omega
  have r1 := ReadFull_exact PNGSIG
    (((f.chunks.map Chunk.encode).flatten ++ f.last.encode) ++ tail) size 8 rfl
  have b1 : copyAt buf 0 PNGSIG = PNGSIG ++ buf.drop 8 :=
    copyAt_zero buf _ (by show 8 ≤ buf.length; omega)
  have t1 : ¬ ((PNGSIG ++ buf.drop 8).take 8 ≠ PNGSIG) := by
    rw [List.take_left' (show PNGSIG.length = 8 from rfl)]; simp
  have hloop := pngLoop_chunks size f.last tail he hie f.chunks PNGSIG (buf.drop 8)
    ((((f.chunks.map Chunk.encode).flatten ++ f.last.encode) ++ tail).length + 1) hcs
    (by rw [List.length_drop]; omega) (by omega)
    (by have := chunks_length_le f.chunks
        simp only [List.length_append] at this ⊢; omega)
  rw [es]
  unfold readPNG
  rw [if_neg l0, r1]
  dsimp only
  rw [b1, if_neg t1]
  have hloop2 : pngLoop ((((f.chunks.map Chunk.encode).flatten ++ f.last.encode)
        ++ tail).length + 1)
      ⟨((f.chunks.map Chunk.encode).flatten ++ f.last.encode) ++ tail, size⟩
      (PNGSIG ++ buf.drop 8) 8
      = Outcome.ret ⟨8 + ((f.chunks.map Chunk.encode).flatten ++ f.last.encode).length, none,
          PNGSIG ++ ((f.chunks.map Chunk.encode).flatten ++ f.last.encode)
            ++ (buf.drop 8).drop ((f.chunks.map Chunk.encode).flatten ++ f.last.encode).length,
          ⟨tail, size⟩⟩ := hloop
  rw [hloop2, List.drop_drop, hl]
  congr 2

theorem readPNG_empty (buf : List Byte) (size : Nat) (h8 : 8 ≤ buf.length) :
    readPNG ⟨[], size⟩ buf = Outcome.ret ⟨0, some Error.EOF, buf, ⟨[], size⟩⟩ := by
  have hb : ¬ buf.length < 8 := by omega
  simp [readPNG, hb, ReadFull, copyAt]

theorem PngFrame.encode_length_ge (f : PngFrame) : 8 ≤ f.encode.length := by
  simp only [PngFrame.encode, List.length_append]
  have : PNGSIG.length = 8 := rfl
  omega

/-- Successive calls of `readPNG` on a stream of frames, for every reader. -/
theorem readPNG_decodesAll (frames : List PngFrame) (buf : List Byte) (size : Nat)
    (hwf : ∀ f ∈ frames, f.wf)
    (hfit : ∀ f ∈ frames, f.encode.length ≤ buf.length)
    (h8 : frames = [] → 8 ≤ buf.length)
    (hbuf : buf.length < 2 ^ 32) :
    DecodesAll readPNG (frames.map PngFrame.encode)
      ⟨(frames.map PngFrame.encode).flatten, size⟩ buf := by
  induction frames generalizing buf with
  | nil =>
    refine ⟨rfl, buf, ?_⟩
    exact readPNG_empty buf size (h8 rfl)
  | cons f fs ih =>
    have hw := hwf f (by simp)
    have hf := hfit f (by simp)
    have hlen : (f.encode ++ buf.drop f.encode.length).length = buf.length := by
      simp only [List.length_append, List.length_drop]; omega
    refine ⟨f.encode ++ buf.drop f.encode.length, ⟨(fs.map PngFrame.encode).flatten, size⟩,
      ?_, ?_, ?_⟩
    · simpa using readPNG_frame f (fs.map PngFrame.encode).flatten buf size hw hf hbuf
    · exact List.take_left _ _
    · apply ih
      · intro q hq; exact hwf q (by simp [hq])
      · intro q hq; rw [hlen]; exact hfit q (by simp [hq])
      · intro _; rw [hlen]; have := f.encode_length_ge; omega
      · rw [hlen]; exact hbuf

/-- C2. Round trip of the format-B decoder.  The stream is the concatenation of
frames, each the 8-byte signature followed by chunk records (4-byte big-endian
length `L`, 4-byte type, `L` data bytes, 4 checksum bytes) of which the last and
only the last has type `IEND`; every frame fits in the scratch buffer, which is
shorter than `2^32` bytes (the buffer of `connCam` has 8 MiB), and the reader
over the stream is created as `connCam` creates it.  Then successive calls of
`readPNG` return the lengths of the frames in order without error, each call
leaves its frame in `buf[:n]`, the stream is used up after the last frame, and
one more call returns `io.EOF`. -/
theorem readPNG_roundtrip (frames : List PngFrame) (buf : List Byte)
    (hwf : ∀ f ∈ frames, f.wf)
    (hfit : ∀ f ∈ frames, f.encode.length ≤ buf.length)
    (h8 : frames = [] → 8 ≤ buf.length)
    (hbuf : buf.length < 2 ^ 32) :
    DecodesAll readPNG (frames.map PngFrame.encode)
      (NewReaderSize (frames.map PngFrame.encode).flatten buf.length) buf :=
  readPNG_decodesAll frames buf (max buf.length 16) hwf hfit h8 hbuf

/-- C2 at a stream of two frames: one with a one-byte `IDAT` record in front of
an empty `IEND` record, and one that is a lone `IEND` record. -/
theorem readPNG_roundtrip_witness :
    DecodesAll readPNG
      [PngFrame.encode ⟨[⟨[0x49, 0x44, 0x41, 0x54], [7], [1, 2, 3, 4]⟩], ⟨IEND, [], [5, 6, 7, 8]⟩⟩,
       PngFrame.encode ⟨[], ⟨IEND, [], [9, 9, 9, 9]⟩⟩]
      (NewReaderSize
        (PngFrame.encode ⟨[⟨[0x49, 0x44, 0x41, 0x54], [7], [1, 2, 3, 4]⟩], ⟨IEND, [], [5, 6, 7, 8]⟩⟩
          ++ (PngFrame.encode ⟨[], ⟨IEND, [], [9, 9, 9, 9]⟩⟩ ++ [])) 64)
      (List.replicate 64 0) :=
  readPNG_roundtrip
    [⟨[⟨[0x49, 0x44, 0x41, 0x54], [7], [1, 2, 3, 4]⟩], ⟨IEND, [], [5, 6, 7, 8]⟩⟩,
     ⟨[], ⟨IEND, [], [9, 9, 9, 9]⟩⟩]
    (List.replicate 64 0) (by decide) (by decide) (by decide) (by norm_num)

/-! ## Which errors the decoders return -/

theorem ReadFull_ok (s : List Byte) (size k : Nat) (h : k ≤ s.length) :
    ReadFull ⟨s, size⟩ k = (s.take k, none, ⟨s.drop k, size⟩) := by
  have : (s.take k).length = k := by rw [List.length_take]; omega
  simp [ReadFull, this]

theorem ReadFull_short (s : List Byte) (size k : Nat) (h : s.length < k) :
    ReadFull ⟨s, size⟩ k
      = (s, some (if s = [] then Error.EOF else Error.ErrUnexpectedEOF), ⟨[], size⟩) := by
  have h1 : s.take k = s := List.take_of_length_le (by omega)
  have h2 : s.drop k = [] := List.drop_eq_nil_of_le (by omega)
  have h3 : ¬ s.length = k := by omega
  by_cases hs : s = []
  · subst hs
    have h5 : ¬ 0 = k := by simp at h; omega
    simp [ReadFull, h5]
  · have h4 : ¬ s.length = 0 := fun h0 => hs (List.length_eq_zero.1 h0)
    simp [ReadFull, h1, h2, h3, h4, hs]

theorem ReadFull_cases (r : Reader) (k : Nat) :
    ∃ p r', ReadFull r k = (p, none, r') ∨ ReadFull r k = (p, some Error.EOF, r')
      ∨ ReadFull r k = (p, some Error.ErrUnexpectedEOF, r') := by
  refine ⟨r.rest.take k, ⟨r.rest.drop k, r.size⟩, ?_⟩
  unfold ReadFull
  dsimp only
  by_cases h1 : (r.rest.take k).length = k
  · left; rw [if_pos h1]
  · by_cases h2 : (r.rest.take k).length = 0
    · right; left; rw [if_neg h1, if_pos h2]
    · right; right; rw [if_neg h1, if_neg h2]

theorem ReadSlice_cases (r : Reader) (d : Byte) :
    ∃ p r', ReadSlice r d = (p, none, r') ∨ ReadSlice r d = (p, some Error.EOF, r')
      ∨ ReadSlice r d = (p, some Error.ErrBufferFull, r') := by
  unfold ReadSlice
  cases IndexByte (r.rest.take r.size) d with
  | some i => exact ⟨_, _, Or.inl rfl⟩
  | none =>
    by_cases h : r.size ≤ r.rest.length
    · exact ⟨r.rest.take r.size, ⟨r.rest.drop r.size, r.size⟩, by simp [h]⟩
    · exact ⟨r.rest, ⟨[], r.size⟩, by simp [h]⟩

/-- The loop of `readJPG` returns no error, `io.EOF` or `bufio.ErrBufferFull`. -/
theorem jpgLoop_err (fuel : Nat) : ∀ (r : Reader) (buf : List Byte) (off : Nat) (x : DecodeRet),
    jpgLoop fuel r buf off = Outcome.ret x →
    x.err = none ∨ x.err = some Error.EOF ∨ x.err = some Error.ErrBufferFull := by
  induction fuel with
  | zero => intro r buf off x h; simp [jpgLoop] at h
  | succ fuel ih =>
    intro r buf off x h
    rw [jpgLoop] at h
    obtain ⟨p, r', hr | hr | hr⟩ := ReadSlice_cases r 0xD9
    · rw [hr] at h
      dsimp only at h
      split_ifs at h with h1 h2 h3
      · cases h; left; rfl
      · exact ih _ _ _ _ h
    · rw [hr] at h
      cases h; right; left; rfl
    · rw [hr] at h
      cases h; right; right; rfl

/-- The function `readPNGChunk` returns no error, `io.EOF` or
`io.ErrUnexpectedEOF`. -/
theorem readPNGChunk_err (r : Reader) (buf : List Byte) (c : ChunkRet)
    (h : readPNGChunk r buf = Outcome.ret c) :
    c.err = none ∨ c.err = some Error.EOF ∨ c.err = some Error.ErrUnexpectedEOF := by
  unfold readPNGChunk at h
  by_cases l0 : buf.length < 4
  · rw [if_pos l0] at h; cases h
  rw [if_neg l0] at h
  obtain ⟨p, r1, hr | hr | hr⟩ := ReadFull_cases r 4
  · rw [hr] at h
    dsimp only at h
    by_cases l1 : (copyAt buf 0 p).length < 4 + 4
    · rw [if_pos l1] at h; cases h
    rw [if_neg l1] at h
    obtain ⟨p2, r2, hr2 | hr2 | hr2⟩ := ReadFull_cases r1 4
    · rw [hr2] at h
      dsimp only at h
      split_ifs at h with l2
      obtain ⟨p3, r3, hr3 | hr3 | hr3⟩ := ReadFull_cases r2
        (((Uint32 ((copyAt buf 0 p).take 4) + 4 + 4) % 2 ^ 32 + 4) % 2 ^ 32 - (4 + 4))
      · rw [hr3] at h; cases h; left; rfl
      · rw [hr3] at h; cases h; right; left; rfl
      · rw [hr3] at h; cases h; right; right; rfl
    · rw [hr2] at h; cases h; right; left; rfl
    · rw [hr2] at h; cases h; right; right; rfl
  · rw [hr] at h; cases h; right; left; rfl
  · rw [hr] at h; cases h; right; right; rfl

/-- The loop of `readPNG` returns no error, `io.EOF` or `io.ErrUnexpectedEOF`. -/
theorem pngLoop_err (fuel : Nat) : ∀ (r : Reader) (buf : List Byte) (off : Nat) (x : DecodeRet),
    pngLoop fuel r buf off = Outcome.ret x →
    x.err = none ∨ x.err = some Error.EOF ∨ x.err = some Error.ErrUnexpectedEOF := by
  induction fuel with
  | zero => intro r buf off x h; simp [pngLoop] at h
  | succ fuel ih =>
    intro r buf off x h
    rw [pngLoop] at h
    split_ifs at h with l0
    cases hc : readPNGChunk r (buf.drop off) with
    | panic => rw [hc] at h; cases h
    | diverge => rw [hc] at h; cases h
    | ret c =>
      rw [hc] at h
      dsimp only at h
      have hce := readPNGChunk_err r _ c hc
      cases he : c.err with
      | some e =>
        rw [he] at h hce
        dsimp only at h
        cases h
        simpa using hce
      | none =>
        rw [he] at h
        dsimp only at h
        split_ifs at h with hi
        · cases h; left; rfl
        · exact ih _ _ _ _ h

/-- The call `readJPG` on a stream with at least two bytes that are not the
start marker. -/
theorem readJPG_mismatch (s buf : List Byte) (size : Nat) (hb : 2 ≤ buf.length)
    (h2 : 2 ≤ s.length) (hs : s.take 2 ≠ SOI) :
    readJPG ⟨s, size⟩ buf
      = Outcome.ret ⟨2, some Error.mayNotJPG, s.take 2 ++ buf.drop 2, ⟨s.drop 2, size⟩⟩ := by
  have l0 : ¬ buf.length < 2 := by omega
  have hl : (s.take 2).length = 2 := by rw [List.length_take]; omega
  have b1 : copyAt buf 0 (s.take 2) = s.take 2 ++ buf.drop 2 := by
    rw [copyAt_zero buf _ (by omega), hl]
  have t1 : (s.take 2 ++ buf.drop 2).take 2 ≠ SOI := by
    rw [List.take_left' hl]; exact hs
  unfold readJPG
  rw [if_neg l0, ReadFull_ok s size 2 h2]
  dsimp only
  rw [b1, if_pos t1]

/-- The call `readJPG` returns `may not JPG image` only on a stream with at least
two bytes that are not the start marker. -/
theorem readJPG_mismatch_only (s buf : List Byte) (size : Nat) (x : DecodeRet)
    (h : readJPG ⟨s, size⟩ buf = Outcome.ret x) (hx : x.err = some Error.mayNotJPG) :
    2 ≤ s.length ∧ s.take 2 ≠ SOI := by
  unfold readJPG at h
  split_ifs at h with l0
  by_cases h2 : 2 ≤ s.length
  · refine ⟨h2, fun hs => ?_⟩
    have hl : (s.take 2).length = 2 := by rw [List.length_take]; omega
    have t1 : ¬ ((copyAt buf 0 (s.take 2)).take 2 ≠ SOI) := by
      rw [copyAt_zero buf _ (by omega), List.take_left' hl]; simpa using hs
    rw [ReadFull_ok s size 2 h2] at h
    dsimp only at h
    rw [if_neg t1] at h
    rcases jpgLoop_err _ _ _ _ _ h with e | e | e <;> rw [hx] at e <;> cases e
  · rw [ReadFull_short s size 2 (by omega)] at h
    cases h
    by_cases hs : s = []
    · rw [if_pos hs] at hx; cases hx
    · rw [if_neg hs] at hx; cases hx

/-- The call `readPNG` on a stream with at least eight bytes that are not the
signature. -/
theorem readPNG_mismatch (s buf : List Byte) (size : Nat) (hb : 8 ≤ buf.length)
    (h8 : 8 ≤ s.length) (hs : s.take 8 ≠ PNGSIG) :
    readPNG ⟨s, size⟩ buf
      = Outcome.ret ⟨8, some Error.mayNotPNG, s.take 8 ++ buf.drop 8, ⟨s.drop 8, size⟩⟩ := by
  have l0 : ¬ buf.length < 8 := by omega
  have hl : (s.take 8).length = 8 := by rw [List.length_take]; omega
  have b1 : copyAt buf 0 (s.take 8) = s.take 8 ++ buf.drop 8 := by
    rw [copyAt_zero buf _ (by omega), hl]
  have t1 : (s.take 8 ++ buf.drop 8).take 8 ≠ PNGSIG := by
    rw [List.take_left' hl]; exact hs
  unfold readPNG
  rw [if_neg l0, ReadFull_ok s size 8 h8]
  dsimp only
  rw [b1, if_pos t1]

/-- The call `readPNG` returns `may not PNG image` only on a stream with at least
eight bytes that are not the signature. -/
theorem readPNG_mismatch_only (s buf : List Byte) (size : Nat) (x : DecodeRet)
    (h : readPNG ⟨s, size⟩ buf = Outcome.ret x) (hx : x.err = some Error.mayNotPNG) :
    8 ≤ s.length ∧ s.take 8 ≠ PNGSIG := by
  unfold readPNG at h
  split_ifs at h with l0
  by_cases h8 : 8 ≤ s.length
  · refine ⟨h8, fun hs => ?_⟩
    have hl : (s.take 8).length = 8 := by rw [List.length_take]; omega
    have t1 : ¬ ((copyAt buf 0 (s.take 8)).take 8 ≠ PNGSIG) := by
      rw [copyAt_zero buf _ (by omega), List.take_left' hl]; simpa using hs
    rw [ReadFull_ok s size 8 h8] at h
    dsimp only at h
    rw [if_neg t1] at h
    rcases pngLoop_err _ _ _ _ _ h with e | e | e <;> rw [hx] at e <;> cases e
  · rw [ReadFull_short s size 8 (by omega)] at h
    cases h
    by_cases hs : s = []
    · rw [if_pos hs] at hx; cases hx
    · rw [if_neg hs] at hx; cases hx

/-- C3 as stated fails on a stream shorter than the signature: the one-byte
stream `00` does not begin with `FF D8` (nor with the PNG signature), yet both
decoders return `io.ErrUnexpectedEOF`, not the format-mismatch error; on the
empty stream they return `io.EOF`. -/
theorem mismatch_short_stream :
    ([0x00] : List Byte).take 2 ≠ SOI
      ∧ readJPG ⟨[0x00], 16⟩ (List.replicate 16 0)
        = Outcome.ret ⟨1, some Error.ErrUnexpectedEOF, 0x00 :: List.replicate 15 0, ⟨[], 16⟩⟩
      ∧ ([0x00] : List Byte).take 8 ≠ PNGSIG
      ∧ readPNG ⟨[0x00], 16⟩ (List.replicate 16 0)
        = Outcome.ret ⟨1, some Error.ErrUnexpectedEOF, 0x00 :: List.replicate 15 0, ⟨[], 16⟩⟩
      ∧ readJPG ⟨[], 16⟩ (List.replicate 16 0)
        = Outcome.ret ⟨0, some Error.EOF, List.replicate 16 0, ⟨[], 16⟩⟩ := by
  decide

/-- C3, amended. With a scratch buffer that can hold the signature: `readJPG`
returns `may not JPG image` if and only if the stream supplies at least two
bytes and the first two differ from `FF D8`, and `readPNG` returns
`may not PNG image` if and only if the stream supplies at least eight bytes and
the first eight differ from the signature; when the mismatch error is returned
the count is 2 (resp. 8) and exactly the 2 (resp. 8) leading bytes have been
consumed. -/
theorem mismatch_iff (s buf : List Byte) (size : Nat) (hb : 8 ≤ buf.length) :
    ((∃ x, readJPG ⟨s, size⟩ buf = Outcome.ret x ∧ x.err = some Error.mayNotJPG)
        ↔ (2 ≤ s.length ∧ s.take 2 ≠ SOI))
      ∧ (∀ x, readJPG ⟨s, size⟩ buf = Outcome.ret x → x.err = some Error.mayNotJPG →
          x.n = 2 ∧ x.r = ⟨s.drop 2, size⟩)
      ∧ ((∃ x, readPNG ⟨s, size⟩ buf = Outcome.ret x ∧ x.err = some Error.mayNotPNG)
        ↔ (8 ≤ s.length ∧ s.take 8 ≠ PNGSIG))
      ∧ (∀ x, readPNG ⟨s, size⟩ buf = Outcome.ret x → x.err = some Error.mayNotPNG →
          x.n = 8 ∧ x.r = ⟨s.drop 8, size⟩) := by
  refine ⟨⟨?_, ?_⟩, ?_, ⟨?_, ?_⟩, ?_⟩
  · rintro ⟨x, h, hx⟩
    exact readJPG_mismatch_only s buf size x h hx
  · rintro ⟨h2, hs⟩
    exact ⟨_, readJPG_mismatch s buf size (by omega) h2 hs, rfl⟩
  · intro x h hx
    obtain ⟨h2, hs⟩ := readJPG_mismatch_only s buf size x h hx
    rw [readJPG_mismatch s buf size (by omega) h2 hs] at h
    cases h
    exact ⟨rfl, rfl⟩
  · rintro ⟨x, h, hx⟩
    exact readPNG_mismatch_only s buf size x h hx
  · rintro ⟨h8, hs⟩
    exact ⟨_, readPNG_mismatch s buf size hb h8 hs, rfl⟩
  · intro x h hx
    obtain ⟨h8, hs⟩ := readPNG_mismatch_only s buf size x h hx
    rw [readPNG_mismatch s buf size hb h8 hs] at h
    cases h
    exact ⟨rfl, rfl⟩

/-- C3, amended, at the stream `FF D9 01 02 03 04 05 06 07` and a 16-byte
scratch buffer: both decoders report the mismatch. -/
theorem mismatch_iff_witness :
    8 ≤ (List.replicate 16 (0 : Byte)).length
      ∧ (∃ x, readJPG ⟨[0xFF, 0xD9, 1, 2, 3, 4, 5, 6, 7], 16⟩ (List.replicate 16 0)
          = Outcome.ret x ∧ x.err = some Error.mayNotJPG)
      ∧ (∃ x, readPNG ⟨[0xFF, 0xD9, 1, 2, 3, 4, 5, 6, 7], 16⟩ (List.replicate 16 0)
          = Outcome.ret x ∧ x.err = some Error.mayNotPNG) :=
  ⟨by decide,
   (mismatch_iff [0xFF, 0xD9, 1, 2, 3, 4, 5, 6, 7] (List.replicate 16 0) 16 (by decide)).1.2
     (by decide),
   (mismatch_iff [0xFF, 0xD9, 1, 2, 3, 4, 5, 6, 7] (List.replicate 16 0) 16
     (by decide)).2.2.1.2 (by decide)⟩

/-! ## Truncated streams -/

theorem scanEOI_none_of_short (q q' : List Byte) : ∀ (prev : Byte) (m : Nat),
    scanEOI prev (q ++ q') = some m → q.length < m → scanEOI prev q = none := by
  induction q with
  | nil => intro prev m _ _; rfl
  | cons x xs ih =>
    intro prev m h hm
    rw [List.cons_append, scanEOI] at h
    by_cases hc : prev = 0xFF ∧ x = 0xD9
    · rw [if_pos hc] at h
      cases h
      simp at hm
    · rw [if_neg hc, Option.map_eq_some'] at h
      obtain ⟨m', hm', rfl⟩ := h
      rw [scanEOI, if_neg hc, ih x m' hm' (by simp only [List.length_cons] at hm; omega)]
      rfl

/-- The call `readJPG` on a stream that starts with the start marker and ends
before an `FF D9` shows up ends with `io.EOF`. -/
theorem readJPG_stream_none (todo buf : List Byte) (size : Nat)
    (hscan : scanEOI 0xD8 todo = none) (hfit : todo.length + 2 ≤ buf.length)
    (hsz : todo.length < size) :
    ∃ k buf', readJPG ⟨SOI ++ todo, size⟩ buf
      = Outcome.ret ⟨k, some Error.EOF, buf', ⟨[], size⟩⟩ := by
  have hb : ¬ buf.length < 2 := by omega
  have hrf : ReadFull ⟨SOI ++ todo, size⟩ 2 = (SOI, none, ⟨todo, size⟩) :=
    ReadFull_append SOI todo size
  have hc : copyAt buf 0 SOI = [0xFF] ++ [0xD8] ++ buf.drop 2 := by
    rw [copyAt_zero buf SOI (by simp [SOI]; omega)]; rfl
  have ht : ¬ (([0xFF] ++ [0xD8] ++ buf.drop 2 : List Byte).take 2 ≠ SOI) := by
    simp [SOI]
  obtain ⟨k, buf', h⟩ := jpgLoop_none (todo.length + 1) todo [0xFF] (buf.drop 2) 0xD8 size
    hscan (by simp only [List.length_drop]; omega) hsz (by omega)
  refine ⟨k, buf', ?_⟩
  unfold readJPG
  rw [if_neg hb, hrf]
  dsimp only
  rw [hc, if_neg ht]
  exact h

/-- The call `readJPG` on a reader that holds a proper prefix of a frame ends
with `io.EOF` or `io.ErrUnexpectedEOF`. -/
theorem readJPG_truncated (pl p p' buf : List Byte) (size : Nat) (hp : noEOI pl = true)
    (hsplit : jpgFrame pl = p ++ p') (hne : p' ≠ [])
    (hfit : (jpgFrame pl).length ≤ buf.length) (hsz : buf.length ≤ size) :
    ∃ n e buf' r', readJPG ⟨p, size⟩ buf = Outcome.ret ⟨n, some e, buf', r'⟩
      ∧ (e = Error.EOF ∨ e = Error.ErrUnexpectedEOF) := by
  have hfl := jpgFrame_length pl
  have hpl : p.length < pl.length + 4 := by
    have := congrArg List.length hsplit
    rw [List.length_append, hfl] at this
    have : 0 < p'.length := List.length_pos.2 hne
    omega
  by_cases h2 : 2 ≤ p.length
  · have hp2 : p = SOI ++ p.drop 2 := by
      have h1 : (jpgFrame pl).take 2 = SOI := by simp [jpgFrame, SOI]
      have h3 : (p ++ p').take 2 = p.take 2 := List.take_append_of_le_length h2
      rw [← hsplit, h1] at h3
      rw [h3, List.take_append_drop]
    have hq : pl ++ EOI = p.drop 2 ++ p' := by
      have := congrArg (List.drop 2) hsplit
      rw [List.drop_append_of_le_length h2] at this
      rw [← this]
      simp [jpgFrame, SOI]
    have hscan := scanEOI_payload pl [] 0xD8 (by rw [noEOI_cons_D8]; exact hp)
    rw [List.append_nil, hq] at hscan
    have hnone := scanEOI_none_of_short (p.drop 2) p' 0xD8 _ hscan
      (by rw [List.length_drop]; omega)
    obtain ⟨k, buf', h⟩ := readJPG_stream_none (p.drop 2) buf size hnone
      (by rw [List.length_drop]; omega) (by rw [List.length_drop]; omega)
    rw [← hp2] at h
    exact ⟨k, Error.EOF, buf', ⟨[], size⟩, h, Or.inl rfl⟩
  · have hb : ¬ buf.length < 2 := by omega
    refine ⟨p.length, if p = [] then Error.EOF else Error.ErrUnexpectedEOF, copyAt buf 0 p,
      ⟨[], size⟩, ?_, ?_⟩
    · unfold readJPG
      rw [if_neg hb, ReadFull_short p size 2 (by omega)]
    · by_cases hs : p = []
      · left; rw [if_pos hs]
      · right; rw [if_neg hs]

theorem take_of_split (full q q' : List Byte) (k : Nat) (hsplit : full = q ++ q')
    (hk : k ≤ q.length) : q = full.take k ++ q.drop k := by
  rw [hsplit, List.take_append_of_le_length hk, List.take_append_drop]

/-- The call `readPNGChunk` on a reader that holds a proper prefix of a chunk
record ends with `io.EOF` or `io.ErrUnexpectedEOF`. -/
theorem readPNGChunk_truncated (c : Chunk) (q q' buf : List Byte) (size : Nat) (hwf : c.wf)
    (hsplit : c.encode = q ++ q') (hne : q' ≠ [])
    (hfit : c.data.length + 12 ≤ buf.length) (hnw : c.data.length + 12 < 2 ^ 32) :
    ∃ n t e buf' r', readPNGChunk ⟨q, size⟩ buf = Outcome.ret ⟨n, t, some e, buf', r'⟩
      ∧ (e = Error.EOF ∨ e = Error.ErrUnexpectedEOF) := by
  have hel := Chunk.encode_length c hwf
  obtain ⟨ht, hc, hd⟩ := hwf
  have hql : q.length < c.data.length + 12 := by
    have := congrArg List.length hsplit
    rw [List.length_append, hel] at this
    have : 0 < q'.length := List.length_pos.2 hne
    omega
  have hor : ∀ s : List Byte, (if s = [] then Error.EOF else Error.ErrUnexpectedEOF) = Error.EOF
      ∨ (if s = [] then Error.EOF else Error.ErrUnexpectedEOF) = Error.ErrUnexpectedEOF := by
    intro s
    by_cases hs : s = []
    · left; rw [if_pos hs]
    · right; rw [if_neg hs]
  have l0 : ¬ buf.length < 4 := by omega
  have b1 : copyAt buf 0 (be32 c.data.length) = be32 c.data.length ++ buf.drop 4 :=
    copyAt_zero buf _ (by rw [be32_length]; omega)
  have l1 : ¬ (be32 c.data.length ++ buf.drop 4).length < 4 + 4 := by
    rw [List.length_append, be32_length, List.length_drop]; omega
  by_cases h4 : 4 ≤ q.length
  · have e4 : c.encode.take 4 = be32 c.data.length := by
      have : c.encode = be32 c.data.length ++ (c.typ ++ (c.data ++ c.crc)) := by
        simp [Chunk.encode]
      rw [this, List.take_left' (be32_length _)]
    have hq4 := take_of_split c.encode q q' 4 hsplit h4
    rw [e4] at hq4
    by_cases h8 : 8 ≤ q.length
    · have e8 : c.encode.take 8 = be32 c.data.length ++ c.typ := by
        have : c.encode = (be32 c.data.length ++ c.typ) ++ (c.data ++ c.crc) := by
          simp [Chunk.encode]
        rw [this, List.take_left' (by rw [List.length_append, be32_length, ht])]
      have hq8 := take_of_split c.encode q q' 8 hsplit h8
      rw [e8, List.append_assoc] at hq8
      have hq3l : (q.drop 8).length < c.data.length + 4 := by
        rw [List.length_drop]; omega
      generalize q.drop 8 = q3 at hq8 hq3l
      subst hq8
      have r1 := ReadFull_exact (be32 c.data.length) (c.typ ++ q3) size 4 rfl
      have r2 := ReadFull_exact c.typ q3 size 4 ht
      have t1 : (be32 c.data.length ++ buf.drop 4).take 4 = be32 c.data.length :=
        List.take_left' rfl
      have b2 : copyAt (be32 c.data.length ++ buf.drop 4) 4 c.typ
          = be32 c.data.length ++ c.typ ++ buf.drop 8 := by
        have := copyAt_append (be32 c.data.length) (buf.drop 4) c.typ
          (by rw [ht, List.length_drop]; omega)
        rw [be32_length, ht, List.drop_drop] at this
        exact this
      have hu := Uint32_be32 c.data.length hd
      have n1 : (c.data.length + 4 + 4) % 2 ^ 32 = c.data.length + 8 := by
        rw [Nat.mod_eq_of_lt (by omega)]
      have n2 : (c.data.length + 8 + 4) % 2 ^ 32 = c.data.length + 12 := by
        rw [Nat.mod_eq_of_lt (by omega)]
      have n3 : c.data.length + 12 - (4 + 4) = c.data.length + 4 := by omega
      have l2 : ¬ (c.data.length + 12 < 4 + 4
          ∨ (be32 c.data.length ++ c.typ ++ buf.drop 8).length < c.data.length + 12) := by
        rw [List.length_append, List.length_append, be32_length, ht, List.length_drop]; omega
      have r3 := ReadFull_short q3 size (c.data.length + 4) hq3l
      have key : readPNGChunk ⟨be32 c.data.length ++ (c.typ ++ q3), size⟩ buf
          = Outcome.ret ⟨q3.length + 8,
              ((copyAt (be32 c.data.length ++ c.typ ++ buf.drop 8) (4 + 4) q3).drop 4).take 4,
              some (if q3 = [] then Error.EOF else Error.ErrUnexpectedEOF),
              copyAt (be32 c.data.length ++ c.typ ++ buf.drop 8) (4 + 4) q3, ⟨[], size⟩⟩ := by
        unfold readPNGChunk
        rw [if_neg l0, r1]
        dsimp only
        rw [b1, if_neg l1, r2]
        dsimp only
        rw [t1, hu, n1, n2, b2, if_neg l2, n3, r3]
      exact ⟨_, _, _, _, _, key, hor q3⟩
    · have hq2l : (q.drop 4).length < 4 := by
        rw [List.length_drop]; omega
      generalize q.drop 4 = q2 at hq4 hq2l
      subst hq4
      have r1 := ReadFull_exact (be32 c.data.length) q2 size 4 rfl
      have r2 := ReadFull_short q2 size 4 hq2l
      have key : readPNGChunk ⟨be32 c.data.length ++ q2, size⟩ buf
          = Outcome.ret ⟨q2.length + 4, [],
              some (if q2 = [] then Error.EOF else Error.ErrUnexpectedEOF),
              copyAt (be32 c.data.length ++ buf.drop 4) 4 q2, ⟨[], size⟩⟩ := by
        unfold readPNGChunk
        rw [if_neg l0, r1]
        dsimp only
        rw [b1, if_neg l1, r2]
      exact ⟨_, _, _, _, _, key, hor q2⟩
  · have key : readPNGChunk ⟨q, size⟩ buf
        = Outcome.ret ⟨q.length, [],
            some (if q = [] then Error.EOF else Error.ErrUnexpectedEOF),
            copyAt buf 0 q, ⟨[], size⟩⟩ := by
      unfold readPNGChunk
      rw [if_neg l0, ReadFull_short q size 4 (by omega)]
    exact ⟨_, _, _, _, _, key, hor q⟩

theorem pngLoop_step_err (fuel : Nat) (r r' : Reader) (done junk t b' : List Byte)
    (n : Nat) (e : Error)
    (h : readPNGChunk r junk = Outcome.ret ⟨n, t, some e, b', r'⟩) :
    pngLoop (fuel + 1) r (done ++ junk) done.length
      = Outcome.ret ⟨done.length + n, some e, done ++ b', r'⟩ := by
  have l0 : ¬ (done ++ junk).length < done.length := by
    rw [List.length_append]; omega
  rw [pngLoop, if_neg l0, List.drop_left, h]
  dsimp only
  rw [List.take_left]

/-- The loop of `readPNG` on a reader that holds a proper prefix of the chunk
records of a frame ends with `io.EOF` or `io.ErrUnexpectedEOF`. -/
theorem pngLoop_truncated (size : Nat) (e : Chunk) (he : e.wf) :
    ∀ (cs : List Chunk) (q q' done junk : List Byte) (fuel : Nat),
    (∀ c ∈ cs, c.wf ∧ c.typ ≠ IEND) →
    (cs.map Chunk.encode).flatten ++ e.encode = q ++ q' → q' ≠ [] →
    ((cs.map Chunk.encode).flatten ++ e.encode).length ≤ junk.length →
    ((cs.map Chunk.encode).flatten ++ e.encode).length < 2 ^ 32 →
    q.length < fuel →
    ∃ n er buf' r', pngLoop fuel ⟨q, size⟩ (done ++ junk) done.length
        = Outcome.ret ⟨n, some er, buf', r'⟩
      ∧ (er = Error.EOF ∨ er = Error.ErrUnexpectedEOF) := by
  intro cs
  induction cs with
  | nil =>
    intro q q' done junk fuel _ hsplit hne hfit hnw hf
    obtain ⟨fuel, rfl⟩ : ∃ k, fuel = k + 1 := ⟨fuel - 1, by omega⟩
    have hl := Chunk.encode_length e he
    simp only [List.map_nil, List.flatten_nil, List.nil_append] at hsplit hfit hnw
    obtain ⟨n, t, er, b', r', h, hor⟩ := readPNGChunk_truncated e q q' junk size he hsplit hne
      (by omega) (by omega)
    exact ⟨_, er, _, r', pngLoop_step_err fuel _ r' done junk t b' n er h, hor⟩
  | cons c cs ih =>
    intro q q' done junk fuel hcs hsplit hne hfit hnw hf
    obtain ⟨fuel, rfl⟩ : ∃ k, fuel = k + 1 := ⟨fuel - 1, by omega⟩
    obtain ⟨hcw, hct⟩ := hcs c (by simp)
    have hl := Chunk.encode_length c hcw
    simp only [List.map_cons, List.flatten_cons, List.append_assoc, List.length_append]
      at hsplit hfit hnw
    have key : ∀ a' : List Byte, q = c.encode ++ a' →
        (cs.map Chunk.encode).flatten ++ e.encode = a' ++ q' →
        ∃ n er buf' r', pngLoop (fuel + 1) ⟨q, size⟩ (done ++ junk) done.length
            = Outcome.ret ⟨n, some er, buf', r'⟩
          ∧ (er = Error.EOF ∨ er = Error.ErrUnexpectedEOF) := by
      intro a' hq hb
      subst hq
      rw [pngLoop_step fuel c a' done junk size hcw (by omega) (by omega), if_neg hct]
      have := ih a' q' (done ++ c.encode) (junk.drop (c.data.length + 12)) fuel
        (fun x hx => hcs x (by simp [hx])) hb hne
        (by simp only [List.length_append, List.length_drop]; omega)
        (by simp only [List.length_append]; omega)
        (by simp only [List.length_append] at hf; omega)
      simp only [List.append_assoc, List.length_append, hl] at this
      exact this
    rcases List.append_eq_append_iff.1 hsplit with ⟨a', hq, hb⟩ | ⟨c', hc, hq'⟩
    · exact key a' hq hb
    · by_cases hc' : c' = []
      · subst hc'
        rw [List.append_nil] at hc
        rw [List.nil_append] at hq'
        exact key [] (by rw [List.append_nil, hc]) (by rw [List.nil_append, hq'])
      · obtain ⟨n, t, er, b', r', h, hor⟩ := readPNGChunk_truncated c q c' junk size hcw hc hc'
          (by omega) (by omega)
        exact ⟨_, er, _, r', pngLoop_step_err fuel _ r' done junk t b' n er h, hor⟩

/-- The call `readPNG` on a reader that holds a proper prefix of a frame ends
with `io.EOF` or `io.ErrUnexpectedEOF`. -/
theorem readPNG_truncated (f : PngFrame) (q q' buf : List Byte) (size : Nat) (hwf : f.wf)
    (hsplit : f.encode = q ++ q') (hne : q' ≠ [])
    (hfit : f.encode.length ≤ buf.length) (hbuf : buf.length < 2 ^ 32) :
    ∃ n e buf' r', readPNG ⟨q, size⟩ buf = Outcome.ret ⟨n, some e, buf', r'⟩
      ∧ (e = Error.EOF ∨ e = Error.ErrUnexpectedEOF) := by
  obtain ⟨hcs, he, hie⟩ := hwf
  have hl : f.encode.length
      = 8 + ((f.chunks.map Chunk.encode).flatten ++ f.last.encode).length := by
    simp only [PngFrame.encode, List.length_append]; rfl
  have l0 : ¬ buf.length < 8 := by omega
  by_cases h8 : 8 ≤ q.length
  · have e8 : f.encode.take 8 = PNGSIG := by
      rw [PngFrame.encode, List.take_left' (show PNGSIG.length = 8 from rfl)]
    have hq8 := take_of_split f.encode q q' 8 hsplit h8
    rw [e8] at hq8
    have hbody : (f.chunks.map Chunk.encode).flatten ++ f.last.encode = q.drop 8 ++ q' := by
      have := congrArg (List.drop 8) hsplit
      rw [List.drop_append_of_le_length h8, PngFrame.encode,
        List.drop_left' (show PNGSIG.length = 8 from rfl)] at this
      exact this
    have r1 := ReadFull_exact PNGSIG (q.drop 8) size 8 rfl
    have b1 : copyAt buf 0 PNGSIG = PNGSIG ++ buf.drop 8 :=
      copyAt_zero buf _ (by show 8 ≤ buf.length; omega)
    have t1 : ¬ ((PNGSIG ++ buf.drop 8).take 8 ≠ PNGSIG) := by
      rw [List.take_left' (show PNGSIG.length = 8 from rfl)]; simp
    obtain ⟨n, er, buf', r', h, hor⟩ := pngLoop_truncated size f.last he f.chunks (q.drop 8) q'
      PNGSIG (buf.drop 8) ((q.drop 8).length + 1) hcs hbody hne
      (by rw [List.length_drop]; omega) (by omega) (by omega)
    refine ⟨n, er, buf', r', ?_, hor⟩
    rw [hq8]
    unfold readPNG
    rw [if_neg l0, r1]
    dsimp only
    rw [b1, if_neg t1]
    exact h
  · refine ⟨q.length, if q = [] then Error.EOF else Error.ErrUnexpectedEOF, copyAt buf 0 q,
      ⟨[], size⟩, ?_, ?_⟩
    · unfold readPNG
      rw [if_neg l0, ReadFull_short q size 8 (by omega)]
    · by_cases hs : q = []
      · left; rw [if_pos hs]
      · right; rw [if_neg hs]

/-- C4. A reader that holds exactly a proper prefix of a valid frame (either
format, the frame fitting in the scratch buffer; reader and scratch buffer as
in C1 and C2): `readJPG`, resp. `readPNG`, returns an error and that error is
`io.EOF` or `io.ErrUnexpectedEOF`, so it neither succeeds nor reports a format
mismatch; and on a stream that starts with the complete frame both return the
length of the frame without error. -/
theorem truncated_frame (pl p p' : List Byte) (f : PngFrame) (q q' tail buf : List Byte)
    (hp : noEOI pl = true) (hsplitA : jpgFrame pl = p ++ p') (hneA : p' ≠ [])
    (hfitA : (jpgFrame pl).length ≤ buf.length)
    (hwf : f.wf) (hsplitB : f.encode = q ++ q') (hneB : q' ≠ [])
    (hfitB : f.encode.length ≤ buf.length) (hbuf : buf.length < 2 ^ 32) :
    (∃ n e buf' r', readJPG (NewReaderSize p buf.length) buf
          = Outcome.ret ⟨n, some e, buf', r'⟩
        ∧ (e = Error.EOF ∨ e = Error.ErrUnexpectedEOF))
      ∧ (∃ n e buf' r', readPNG (NewReaderSize q buf.length) buf
          = Outcome.ret ⟨n, some e, buf', r'⟩
        ∧ (e = Error.EOF ∨ e = Error.ErrUnexpectedEOF))
      ∧ (∃ buf' r', readJPG (NewReaderSize (jpgFrame pl ++ tail) buf.length) buf
          = Outcome.ret ⟨(jpgFrame pl).length, none, buf', r'⟩)
      ∧ (∃ buf' r', readPNG (NewReaderSize (f.encode ++ tail) buf.length) buf
          = Outcome.ret ⟨f.encode.length, none, buf', r'⟩) :=
  ⟨readJPG_truncated pl p p' buf _ hp hsplitA hneA hfitA (Nat.le_max_left _ _),
   readPNG_truncated f q q' buf _ hwf hsplitB hneB hfitB hbuf,
   ⟨_, _, readJPG_frame pl tail buf _ hp hfitA (Nat.le_max_left _ _)⟩,
   ⟨_, _, readPNG_frame f tail buf _ hwf hfitB hbuf⟩⟩

/-- C4 at the frame `FF D8 01 FF D9` cut after its third byte and at a frame of
one empty `IEND` record cut inside the length field. -/
theorem truncated_frame_witness :
    (∃ n e buf' r', readJPG (NewReaderSize [0xFF, 0xD8, 0x01] 32) (List.replicate 32 0)
        = Outcome.ret ⟨n, some e, buf', r'⟩
        ∧ (e = Error.EOF ∨ e = Error.ErrUnexpectedEOF))
      ∧ (∃ n e buf' r',
          readPNG (NewReaderSize [0x89, 0x50, 0x4E, 0x47, 0x0D, 0x0A, 0x1A, 0x0A, 0, 0] 32)
            (List.replicate 32 0) = Outcome.ret ⟨n, some e, buf', r'⟩
        ∧ (e = Error.EOF ∨ e = Error.ErrUnexpectedEOF))
      ∧ readJPG (NewReaderSize [0xFF, 0xD8, 0x01] 32) (List.replicate 32 0)
        = Outcome.ret ⟨2, some Error.EOF, [0xFF, 0xD8] ++ List.replicate 30 0, ⟨[], 32⟩⟩
      ∧ readPNG (NewReaderSize [0x89, 0x50, 0x4E, 0x47, 0x0D, 0x0A, 0x1A, 0x0A, 0, 0] 32)
            (List.replicate 32 0)
        = Outcome.ret ⟨10, some Error.ErrUnexpectedEOF,
            [0x89, 0x50, 0x4E, 0x47, 0x0D, 0x0A, 0x1A, 0x0A] ++ List.replicate 24 0,
            ⟨[], 32⟩⟩ :=
  have h := truncated_frame [0x01] [0xFF, 0xD8, 0x01] [0xFF, 0xD9]
    ⟨[], ⟨IEND, [], [1, 2, 3, 4]⟩⟩ [0x89, 0x50, 0x4E, 0x47, 0x0D, 0x0A, 0x1A, 0x0A, 0, 0]
    [0, 0, 0x49, 0x45, 0x4E, 0x44, 1, 2, 3, 4] [] (List.replicate 32 0)
    (by decide) (by decide) (by decide) (by decide) (by decide) (by decide)
    (by decide) (by decide) (by norm_num)
  ⟨h.1, h.2.1, by decide, by decide⟩

/-! ## Frames longer than the scratch buffer -/

theorem ReadSlice_full (d : Byte) (a rest : List Byte) (size : Nat) (ha : d ∉ a)
    (hsz : size ≤ a.length) :
    ReadSlice ⟨a ++ rest, size⟩ d
      = ((a ++ rest).take size, some Error.ErrBufferFull, ⟨(a ++ rest).drop size, size⟩) := by
  have h1 : (a ++ rest).take size = a.take size := List.take_append_of_le_length hsz
  have h2 : IndexByte (a.take size) d = none :=
    IndexByte_none d _ (fun h => ha (List.mem_of_mem_take h))
  have h3 : size ≤ (a ++ rest).length := by rw [List.length_append]; omega
  unfold ReadSlice
  dsimp only
  rw [h1, h2]
  dsimp only
  rw [if_pos h3]

/-- One iteration of the loop of `readJPG` panics when the segment read does
not fit in what is left of the scratch buffer. -/
theorem jpgLoop_step_panic (fuel : Nat) (d0 a b junk : List Byte) (prev : Byte) (size : Nat)
    (ha : (0xD9 : Byte) ∉ a) (hsz : a.length < size) (hj : junk.length < a.length + 1) :
    jpgLoop (fuel + 1) ⟨a ++ 0xD9 :: b, size⟩ (d0 ++ [prev] ++ junk) (d0.length + 1)
      = Outcome.panic := by
  have hl : (d0 ++ [prev] ++ junk).length = d0.length + 1 + junk.length := by
    simp only [List.length_append, List.length_cons, List.length_nil]
  have l1 : ¬ (d0 ++ [prev] ++ junk).length < d0.length + 1 := by omega
  have l2 : (copyAt (d0 ++ [prev] ++ junk) (d0.length + 1) (a ++ [0xD9])).length
      < d0.length + 1 + (a ++ [0xD9]).length := by
    rw [copyAt_length _ _ _ (by omega), hl, List.length_append]
    simp only [List.length_cons, List.length_nil]
    omega
  rw [jpgLoop, ReadSlice_split 0xD9 a b size ha hsz]
  dsimp only
  rw [if_neg l1, if_pos l2]

/-- The loop of `readJPG` does not return success when the first `FF D9` lies
beyond the end of the scratch buffer: it panics or returns `ErrBufferFull`. -/
theorem jpgLoop_too_large (fuel : Nat) : ∀ (rest d0 junk : List Byte) (prev : Byte)
    (size m : Nat),
    scanEOI prev rest = some m → junk.length < m → rest.length < fuel →
    jpgLoop fuel ⟨rest, size⟩ (d0 ++ [prev] ++ junk) (d0.length + 1) = Outcome.panic
      ∨ ∃ n buf' r', jpgLoop fuel ⟨rest, size⟩ (d0 ++ [prev] ++ junk) (d0.length + 1)
          = Outcome.ret ⟨n, some Error.ErrBufferFull, buf', r'⟩ := by
  induction fuel with
  | zero => intro rest d0 junk prev size m _ _ hf; omega
  | succ fuel ih =>
    intro rest d0 junk prev size m hscan hj hf
    obtain ⟨a, b, rfl, ha⟩ := List.eq_append_cons_of_mem (scanEOI_mem prev rest m hscan)
    by_cases hsz : a.length < size
    · by_cases hfit : a.length + 1 ≤ junk.length
      · rw [scanEOI_split prev a b ha] at hscan
        by_cases h : lastOr prev a = 0xFF
        · simp only [h, if_true, Option.some.injEq] at hscan
          omega
        · simp only [h, if_false, Option.map_eq_some'] at hscan
          obtain ⟨m', hm', rfl⟩ := hscan
          rw [jpgLoop_step fuel d0 a b junk prev size ha hsz hfit]
          simp only [h, if_false]
          exact ih b (d0 ++ [prev] ++ a) (junk.drop (a.length + 1)) 0xD9 size m' hm'
            (by simp only [List.length_drop]; omega)
            (by simp only [List.length_append, List.length_cons] at hf; omega)
      · left
        exact jpgLoop_step_panic fuel d0 a b junk prev size ha hsz (by omega)
    · right
      refine ⟨d0.length + 1, d0 ++ [prev] ++ junk, ⟨(a ++ 0xD9 :: b).drop size, size⟩, ?_⟩
      rw [jpgLoop, ReadSlice_full 0xD9 a (0xD9 :: b) size ha (by omega)]

/-- The call `readJPG` on a stream that starts with a frame longer than the
scratch buffer panics or returns `ErrBufferFull`. -/
theorem readJPG_too_large (pl tail buf : List Byte) (size : Nat) (hp : noEOI pl = true)
    (hlong : buf.length < (jpgFrame pl).length) :
    readJPG ⟨jpgFrame pl ++ tail, size⟩ buf = Outcome.panic
      ∨ ∃ n buf' r', readJPG ⟨jpgFrame pl ++ tail, size⟩ buf
          = Outcome.ret ⟨n, some Error.ErrBufferFull, buf', r'⟩ := by
  have hfl := jpgFrame_length pl
  by_cases hb : buf.length < 2
  · left; unfold readJPG; rw [if_pos hb]
  · have hscan := scanEOI_payload pl tail 0xD8 (by rw [noEOI_cons_D8]; exact hp)
    have e : jpgFrame pl ++ tail = SOI ++ (pl ++ EOI ++ tail) := by simp [jpgFrame]
    have hrf : ReadFull ⟨SOI ++ (pl ++ EOI ++ tail), size⟩ 2
        = (SOI, none, ⟨pl ++ EOI ++ tail, size⟩) := ReadFull_append SOI _ size
    have hc : copyAt buf 0 SOI = [0xFF] ++ [0xD8] ++ buf.drop 2 := by
      rw [copyAt_zero buf SOI (by simp [SOI]; omega)]; rfl
    have ht : ¬ (([0xFF] ++ [0xD8] ++ buf.drop 2 : List Byte).take 2 ≠ SOI) := by
      simp [SOI]
    have := jpgLoop_too_large ((pl ++ EOI ++ tail).length + 1) (pl ++ EOI ++ tail) [0xFF]
      (buf.drop 2) 0xD8 size (pl.length + 2) hscan
      (by simp only [List.length_drop]; omega) (by omega)
    rw [e]
    unfold readJPG
    rw [if_neg hb, hrf]
    dsimp only
    rw [hc, if_neg ht]
    exact this

/-- The call `readPNGChunk` panics on a chunk record longer than its buffer. -/
theorem readPNGChunk_too_large (c : Chunk) (tail buf : List Byte) (size : Nat) (hwf : c.wf)
    (hlong : buf.length < c.data.length + 12) (hnw : c.data.length + 12 < 2 ^ 32) :
    readPNGChunk ⟨c.encode ++ tail, size⟩ buf = Outcome.panic := by
  obtain ⟨ht, hc, hd⟩ := hwf
  by_cases l0 : buf.length < 4
  · unfold readPNGChunk; rw [if_pos l0]
  have es : c.encode ++ tail
      = be32 c.data.length ++ (c.typ ++ ((c.data ++ c.crc) ++ tail)) := by
    simp [Chunk.encode]
  have r1 := ReadFull_exact (be32 c.data.length) (c.typ ++ ((c.data ++ c.crc) ++ tail)) size 4 rfl
  have b1 : copyAt buf 0 (be32 c.data.length) = be32 c.data.length ++ buf.drop 4 :=
    copyAt_zero buf _ (by rw [be32_length]; omega)
  have hl1 : (be32 c.data.length ++ buf.drop 4).length = buf.length := by
    rw [List.length_append, be32_length, List.length_drop]; omega
  by_cases l1 : (be32 c.data.length ++ buf.drop 4).length < 4 + 4
  · rw [es]
    unfold readPNGChunk
    rw [if_neg l0, r1]
    dsimp only
    rw [b1, if_pos l1]
  have r2 := ReadFull_exact c.typ ((c.data ++ c.crc) ++ tail) size 4 ht
  have t1 : (be32 c.data.length ++ buf.drop 4).take 4 = be32 c.data.length :=
    List.take_left' rfl
  have hu := Uint32_be32 c.data.length hd
  have n1 : (c.data.length + 4 + 4) % 2 ^ 32 = c.data.length + 8 := by
    rw [Nat.mod_eq_of_lt (by omega)]
  have n2 : (c.data.length + 8 + 4) % 2 ^ 32 = c.data.length + 12 := by
    rw [Nat.mod_eq_of_lt (by omega)]
  have l2 : c.data.length + 12 < 4 + 4
      ∨ (copyAt (be32 c.data.length ++ buf.drop 4) 4 c.typ).length < c.data.length + 12 := by
    right
    rw [copyAt_length _ _ _ (by omega), hl1]
    exact hlong
  rw [es]
  unfold readPNGChunk
  rw [if_neg l0, r1]
  dsimp only
  rw [b1, if_neg l1, r2]
  dsimp only
  rw [t1, hu, n1, n2, if_pos l2]

/-- The loop of `readPNG` panics when the chunk records of the frame do not fit
in what is left of the scratch buffer. -/
theorem pngLoop_too_large (size : Nat) (e : Chunk) (tail : List Byte) (he : e.wf) :
    ∀ (cs : List Chunk) (done junk : List Byte) (fuel : Nat),
    (∀ c ∈ cs, c.wf ∧ c.typ ≠ IEND) →
    junk.length < ((cs.map Chunk.encode).flatten ++ e.encode).length →
    ((cs.map Chunk.encode).flatten ++ e.encode).length < 2 ^ 32 →
    cs.length < fuel →
    pngLoop fuel ⟨((cs.map Chunk.encode).flatten ++ e.encode) ++ tail, size⟩
        (done ++ junk) done.length = Outcome.panic := by
  have hpanic : ∀ (fuel : Nat) (c : Chunk) (rest done junk : List Byte), c.wf →
      junk.length < c.data.length + 12 → c.data.length + 12 < 2 ^ 32 →
      pngLoop (fuel + 1) ⟨c.encode ++ rest, size⟩ (done ++ junk) done.length
        = Outcome.panic := by
    intro fuel c rest done junk hcw hlong hnw
    have l0 : ¬ (done ++ junk).length < done.length := by
      rw [List.length_append]; omega
    rw [pngLoop, if_neg l0, List.drop_left,
      readPNGChunk_too_large c rest junk size hcw hlong hnw]
  intro cs
  induction cs with
  | nil =>
    intro done junk fuel _ hlong hnw hf
    obtain ⟨fuel, rfl⟩ : ∃ k, fuel = k + 1 := ⟨fuel - 1, by omega⟩
    have hl := Chunk.encode_length e he
    simp only [List.map_nil, List.flatten_nil, List.nil_append] at hlong hnw ⊢
    exact hpanic fuel e tail done junk he (by omega) (by omega)
  | cons c cs ih =>
    intro done junk fuel hcs hlong hnw hf
    obtain ⟨fuel, rfl⟩ : ∃ k, fuel = k + 1 := ⟨fuel - 1, by omega⟩
    obtain ⟨hcw, hct⟩ := hcs c (by simp)
    have hl := Chunk.encode_length c hcw
    simp only [List.map_cons, List.flatten_cons, List.append_assoc, List.length_append]
      at hlong hnw ⊢
    by_cases hfit : c.data.length + 12 ≤ junk.length
    · rw [pngLoop_step fuel c _ done junk size hcw hfit (by omega), if_neg hct]
      have := ih (done ++ c.encode) (junk.drop (c.data.length + 12)) fuel
        (fun q hq => hcs q (by simp [hq]))
        (by simp only [List.length_append, List.length_drop]; omega)
        (by simp only [List.length_append]; omega)
        (by simp only [List.length_cons] at hf; omega)
      simp only [List.append_assoc, List.length_append, hl] at this
      exact this
    · exact hpanic fuel c _ done junk hcw (by omega) (by omega)

/-- The call `readPNG` on a stream that starts with a frame longer than the
scratch buffer (and shorter than `2^32` bytes) panics. -/
theorem readPNG_too_large (f : PngFrame) (tail buf : List Byte) (size : Nat) (hwf : f.wf)
    (hlong : buf.length < f.encode.length) (hnw : f.encode.length < 2 ^ 32) :
    readPNG ⟨f.encode ++ tail, size⟩ buf = Outcome.panic := by
  obtain ⟨hcs, he, hie⟩ := hwf
  have hl : f.encode.length
      = 8 + ((f.chunks.map Chunk.encode).flatten ++ f.last.encode).length := by
    simp only [PngFrame.encode, List.length_append]; rfl
  by_cases l0 : buf.length < 8
  · unfold readPNG; rw [if_pos l0]
  have es : f.encode ++ tail
      = PNGSIG ++ (((f.chunks.map Chunk.encode).flatten ++ f.last.encode) ++ tail) := by
    simp [PngFrame.encode]
  have r1 := ReadFull_exact PNGSIG
    (((f.chunks.map Chunk.encode).flatten ++ f.last.encode) ++ tail) size 8 rfl
  have b1 : copyAt buf 0 PNGSIG = PNGSIG ++ buf.drop 8 :=
    copyAt_zero buf _ (by show 8 ≤ buf.length; omega)
  have t1 : ¬ ((PNGSIG ++ buf.drop 8).take 8 ≠ PNGSIG) := by
    rw [List.take_left' (show PNGSIG.length = 8 from rfl)]; simp
  have hloop := pngLoop_too_large size f.last tail he f.chunks PNGSIG (buf.drop 8)
    ((((f.chunks.map Chunk.encode).flatten ++ f.last.encode) ++ tail).length + 1) hcs
    (by rw [List.length_drop]; omega) (by omega)
    (by have := chunks_length_le f.chunks
        simp only [List.length_append] at this ⊢; omega)
  rw [es]
  unfold readPNG
  rw [if_neg l0, r1]
  dsimp only
  rw [b1, if_neg t1]
  exact hloop

theorem ReadFull_none_length (r r' : Reader) (k : Nat) (p : List Byte)
    (h : ReadFull r k = (p, none, r')) : p.length = k := by
  unfold ReadFull at h
  dsimp only at h
  split_ifs at h with h1 h2
  · cases h
    exact h1
  · cases h
  · cases h

/-- A successful return of the loop of `readJPG` reports a length within the
scratch buffer. -/
theorem jpgLoop_success_le (fuel : Nat) : ∀ (r : Reader) (buf : List Byte) (off : Nat)
    (x : DecodeRet), jpgLoop fuel r buf off = Outcome.ret x → x.err = none →
    x.n ≤ buf.length := by
  induction fuel with
  | zero => intro r buf off x h; simp [jpgLoop] at h
  | succ fuel ih =>
    intro r buf off x h hx
    rw [jpgLoop] at h
    obtain ⟨p, r', hr | hr | hr⟩ := ReadSlice_cases r 0xD9
    · rw [hr] at h
      dsimp only at h
      split_ifs at h with h1 h2 h3
      · cases h
        rw [copyAt_length _ _ _ (by omega)] at h2
        exact Nat.le_of_not_lt h2
      · have := ih _ _ _ _ h hx
        rw [copyAt_length _ _ _ (by omega)] at this
        exact this
    · rw [hr] at h; cases h; cases hx
    · rw [hr] at h; cases h; cases hx

/-- A successful return of `readJPG` reports a length within the scratch
buffer. -/
theorem readJPG_success_le (r : Reader) (buf : List Byte) (x : DecodeRet)
    (h : readJPG r buf = Outcome.ret x) (hx : x.err = none) : x.n ≤ buf.length := by
  unfold readJPG at h
  split_ifs at h with l0
  obtain ⟨p, r', hr | hr | hr⟩ := ReadFull_cases r 2
  · rw [hr] at h
    dsimp only at h
    split_ifs at h with h1
    · cases h; cases hx
    · have := jpgLoop_success_le _ _ _ _ _ h hx
      rw [copyAt_length _ _ _ (by omega)] at this
      exact this
  · rw [hr] at h; cases h; cases hx
  · rw [hr] at h; cases h; cases hx

/-- A successful return of `readPNGChunk` reports a length within its buffer
and leaves the buffer's length as it was. -/
theorem readPNGChunk_success_le (r : Reader) (buf : List Byte) (c : ChunkRet)
    (h : readPNGChunk r buf = Outcome.ret c) (hc : c.err = none) :
    c.n ≤ buf.length ∧ c.buf.length = buf.length := by
  unfold readPNGChunk at h
  by_cases l0 : buf.length < 4
  · rw [if_pos l0] at h; cases h
  rw [if_neg l0] at h
  obtain ⟨p, r1, hr | hr | hr⟩ := ReadFull_cases r 4
  · rw [hr] at h
    dsimp only at h
    have hb1 : (copyAt buf 0 p).length = buf.length := copyAt_length _ _ _ (by omega)
    by_cases l1 : (copyAt buf 0 p).length < 4 + 4
    · rw [if_pos l1] at h; cases h
    rw [if_neg l1] at h
    obtain ⟨p2, r2, hr2 | hr2 | hr2⟩ := ReadFull_cases r1 4
    · rw [hr2] at h
      dsimp only at h
      have hb2 : (copyAt (copyAt buf 0 p) 4 p2).length = buf.length := by
        rw [copyAt_length _ _ _ (by omega), hb1]
      split_ifs at h with l2
      obtain ⟨p3, r3, hr3 | hr3 | hr3⟩ := ReadFull_cases r2
        (((Uint32 ((copyAt buf 0 p).take 4) + 4 + 4) % 2 ^ 32 + 4) % 2 ^ 32 - (4 + 4))
      · have hp3 := ReadFull_none_length _ _ _ _ hr3
        rw [hr3] at h
        cases h
        dsimp only
        rw [copyAt_length _ _ _ (by omega), hb2]
        omega
      · rw [hr3] at h; cases h; cases hc
      · rw [hr3] at h; cases h; cases hc
    · rw [hr2] at h; cases h; cases hc
    · rw [hr2] at h; cases h; cases hc
  · rw [hr] at h; cases h; cases hc
  · rw [hr] at h; cases h; cases hc

/-- A successful return of the loop of `readPNG` reports a length within the
scratch buffer. -/
theorem pngLoop_success_le (fuel : Nat) : ∀ (r : Reader) (buf : List Byte) (off : Nat)
    (x : DecodeRet), pngLoop fuel r buf off = Outcome.ret x → x.err = none →
    x.n ≤ buf.length := by
  induction fuel with
  | zero => intro r buf off x h; simp [pngLoop] at h
  | succ fuel ih =>
    intro r buf off x h hx
    rw [pngLoop] at h
    split_ifs at h with l0
    cases hc : readPNGChunk r (buf.drop off) with
    | panic => rw [hc] at h; cases h
    | diverge => rw [hc] at h; cases h
    | ret c =>
      rw [hc] at h
      dsimp only at h
      cases he : c.err with
      | some e =>
        rw [he] at h
        dsimp only at h
        cases h
        cases hx
      | none =>
        obtain ⟨hn, hb⟩ := readPNGChunk_success_le r _ c hc he
        rw [List.length_drop] at hn hb
        rw [he] at h
        dsimp only at h
        split_ifs at h with hi
        · cases h
          dsimp only
          omega
        · have := ih _ _ _ _ h hx
          rw [List.length_append, List.length_take, hb] at this
          omega

/-- A successful return of `readPNG` reports a length within the scratch
buffer. -/
theorem readPNG_success_le (r : Reader) (buf : List Byte) (x : DecodeRet)
    (h : readPNG r buf = Outcome.ret x) (hx : x.err = none) : x.n ≤ buf.length := by
  unfold readPNG at h
  split_ifs at h with l0
  obtain ⟨p, r', hr | hr | hr⟩ := ReadFull_cases r 8
  · rw [hr] at h
    dsimp only at h
    split_ifs at h with h1
    · cases h; cases hx
    · have := pngLoop_success_le _ _ _ _ _ h hx
      rw [copyAt_length _ _ _ (by omega)] at this
      exact this
  · rw [hr] at h; cases h; cases hx
  · rw [hr] at h; cases h; cases hx

/-- C5 as stated fails: on the valid frame `FF D8 00 FF D9` and a 4-byte scratch
buffer `readJPG` panics on the out-of-range slice `buf[:5]`, and on a valid
20-byte frame (signature and an empty `IEND` record) and a 16-byte scratch
buffer `readPNG` panics on the out-of-range slice `buf[8:12]` of the 8 bytes
left; neither returns an error. -/
theorem frame_too_large_panics :
    [0xFF, 0xD8, 0x00, 0xFF, 0xD9] = jpgFrame [0x00] ∧ noEOI [0x00] = true
      ∧ (List.replicate 4 (0 : Byte)).length < (jpgFrame [0x00]).length
      ∧ readJPG ⟨[0xFF, 0xD8, 0x00, 0xFF, 0xD9], 16⟩ (List.replicate 4 0) = Outcome.panic
      ∧ PngFrame.wf ⟨[], ⟨IEND, [], [1, 2, 3, 4]⟩⟩
      ∧ (List.replicate 16 (0 : Byte)).length
          < (PngFrame.encode ⟨[], ⟨IEND, [], [1, 2, 3, 4]⟩⟩).length
      ∧ readPNG ⟨PngFrame.encode ⟨[], ⟨IEND, [], [1, 2, 3, 4]⟩⟩, 16⟩ (List.replicate 16 0)
          = Outcome.panic := by
  decide

/-- C5, amended. There is no frame-too-large error.  On a stream whose next
frame is valid and longer than the scratch buffer, `readJPG` panics on an
out-of-range slice or returns `bufio.ErrBufferFull`, and `readPNG` (the frame
shorter than `2^32` bytes, so that no declared length wraps) panics on an
out-of-range slice; neither returns success.  On every input, a successful
return of either decoder reports a length within the scratch buffer. -/
theorem frame_too_large (pl : List Byte) (f : PngFrame) (tail buf : List Byte) (size : Nat)
    (hp : noEOI pl = true) (hlongA : buf.length < (jpgFrame pl).length)
    (hwf : f.wf) (hlongB : buf.length < f.encode.length) (hnw : f.encode.length < 2 ^ 32) :
    (readJPG ⟨jpgFrame pl ++ tail, size⟩ buf = Outcome.panic
        ∨ ∃ n buf' r', readJPG ⟨jpgFrame pl ++ tail, size⟩ buf
            = Outcome.ret ⟨n, some Error.ErrBufferFull, buf', r'⟩)
      ∧ readPNG ⟨f.encode ++ tail, size⟩ buf = Outcome.panic
      ∧ (∀ (r : Reader) (b : List Byte) (x : DecodeRet),
          readJPG r b = Outcome.ret x → x.err = none → x.n ≤ b.length)
      ∧ (∀ (r : Reader) (b : List Byte) (x : DecodeRet),
          readPNG r b = Outcome.ret x → x.err = none → x.n ≤ b.length) :=
  ⟨readJPG_too_large pl tail buf size hp hlongA,
   readPNG_too_large f tail buf size hwf hlongB hnw,
   readJPG_success_le, readPNG_success_le⟩

/-- C5, amended, at a frame with twenty `00` payload bytes, a 16-byte scratch
buffer and a reader with a 16-byte buffer (`readJPG` returns `ErrBufferFull`),
and at a 20-byte format-B frame (`readPNG` panics). -/
theorem frame_too_large_witness :
    (readJPG ⟨jpgFrame (List.replicate 20 0) ++ [], 16⟩ (List.replicate 16 0) = Outcome.panic
        ∨ ∃ n buf' r', readJPG ⟨jpgFrame (List.replicate 20 0) ++ [], 16⟩ (List.replicate 16 0)
            = Outcome.ret ⟨n, some Error.ErrBufferFull, buf', r'⟩)
      ∧ readPNG ⟨PngFrame.encode ⟨[], ⟨IEND, [], [1, 2, 3, 4]⟩⟩ ++ [], 16⟩ (List.replicate 16 0)
          = Outcome.panic
      ∧ readJPG ⟨jpgFrame (List.replicate 20 0) ++ [], 16⟩ (List.replicate 16 0)
          = Outcome.ret ⟨2, some Error.ErrBufferFull,
              0xFF :: 0xD8 :: List.replicate 14 0, ⟨[0, 0, 0, 0, 0xFF, 0xD9], 16⟩⟩ :=
  have h := frame_too_large (List.replicate 20 0) ⟨[], ⟨IEND, [], [1, 2, 3, 4]⟩⟩ []
    (List.replicate 16 0) 16 (by decide) (by decide) (by decide) (by decide)
    (by rw [show (PngFrame.encode ⟨[], ⟨IEND, [], [1, 2, 3, 4]⟩⟩).length = 20 from rfl]
        norm_num)
  ⟨h.1, h.2.1, by decide⟩

/-! ## The mailbox -/

theorem Chan.drain_buf {α : Type} (ch : Chan α) : ch.drain.buf = ch.buf.tail := by
  rcases ch with ⟨_ | ⟨x, xs⟩, cap, h⟩ <;> rfl

theorem Chan.drain_cap {α : Type} (ch : Chan α) : ch.drain.cap = ch.cap := by
  rcases ch with ⟨_ | ⟨x, xs⟩, cap, h⟩ <;> rfl

theorem Chan.send_some {α : Type} (ch : Chan α) (x : α) (h : ch.buf.length < ch.cap) :
    ∃ ch', ch.send x = some ch' ∧ ch'.buf = ch.buf ++ [x] ∧ ch'.cap = ch.cap := by
  unfold Chan.send
  rw [dif_pos h]
  exact ⟨_, rfl, rfl, rfl⟩

theorem Chan.send_eq_some {α : Type} (ch ch' : Chan α) (x : α) (h : ch.send x = some ch') :
    ch.buf.length < ch.cap ∧ ch'.buf = ch.buf ++ [x] ∧ ch'.cap = ch.cap := by
  unfold Chan.send at h
  split_ifs at h with hlt
  cases h
  exact ⟨hlt, rfl, rfl⟩

theorem Chan.recv_eq_some {α : Type} (ch ch' : Chan α) (x : α) (h : ch.recv = some (x, ch')) :
    ch.buf = x :: ch'.buf ∧ ch'.cap = ch.cap := by
  rcases ch with ⟨_ | ⟨y, ys⟩, cap, hc⟩
  · cases h
  · simp only [Chan.recv, Option.some.injEq, Prod.mk.injEq] at h
    obtain ⟨rfl, rfl⟩ := h
    exact ⟨rfl, rfl⟩

theorem Chan.recv_cons {α : Type} (ch : Chan α) (x : α) (xs : List α) (h : ch.buf = x :: xs) :
    ∃ ch', ch.recv = some (x, ch') ∧ ch'.buf = xs ∧ ch'.cap = ch.cap := by
  rcases ch with ⟨b, cap, hc⟩
  dsimp only at h
  subst h
  exact ⟨_, rfl, rfl, rfl⟩

theorem Chan.recv_nil {α : Type} (ch : Chan α) (h : ch.buf = []) : ch.recv = none := by
  rcases ch with ⟨b, cap, hc⟩
  dsimp only at h
  subst h
  rfl

/-- The deposit of `Send` after its `select` never blocks on a channel of
capacity at least 1. -/
theorem Chan.drain_send {α : Type} (ch : Chan α) (x : α) (h : 1 ≤ ch.cap) :
    ∃ ch', ch.drain.send x = some ch' ∧ ch'.buf = ch.buf.tail ++ [x] ∧ ch'.cap = ch.cap := by
  have hl : ch.drain.buf.length < ch.drain.cap := by
    rw [Chan.drain_buf, Chan.drain_cap, List.length_tail]
    have := ch.le_cap
    omega
  obtain ⟨ch', h1, h2, h3⟩ := Chan.send_some ch.drain x hl
  exact ⟨ch', h1, by rw [h2, Chan.drain_buf], by rw [h3, Chan.drain_cap]⟩

/-- The call `Send` on a subscriber that is not dead and has a mailbox of
capacity at least 1: it returns nil, and the mailbox holds what it held without
its oldest frame, followed by the new frame. -/
theorem Send_live (c : WsClient) (x : Frame) (hd : c.die = false) (hq : 1 ≤ c.data.cap) :
    ∃ c', c.Send x = SendResult.ret none c' ∧ c'.data.buf = c.data.buf.tail ++ [x]
      ∧ c'.data.cap = c.data.cap ∧ c'.die = false ∧ c'.conn = c.conn := by
  obtain ⟨ch', h1, h2, h3⟩ := Chan.drain_send c.data x hq
  refine ⟨{ c with data := ch' }, ?_, h2, h3, hd, rfl⟩
  unfold WsClient.Send
  simp only [hd, Bool.false_eq_true, if_false, h1]

/-- The call `Send` on a dead subscriber returns the error and changes
nothing. -/
theorem Send_die (c : WsClient) (x : Frame) (hd : c.die = true) :
    c.Send x = SendResult.ret (some Error.connDie) c := by
  unfold WsClient.Send
  simp only [hd, if_true]

/-- The call `Send` with a mailbox of capacity 1 leaves exactly the new frame
in the mailbox. -/
theorem Send_cap_one (c : WsClient) (x : Frame) (hd : c.die = false) (hq : c.data.cap = 1) :
    ∃ c', c.Send x = SendResult.ret none c' ∧ c'.data.buf = [x]
      ∧ c'.data.cap = 1 ∧ c'.die = false ∧ c'.conn = c.conn := by
  obtain ⟨c', h1, h2, h3, h4, h5⟩ := Send_live c x hd (by omega)
  refine ⟨c', h1, ?_, by rw [h3, hq], h4, h5⟩
  have hl := c.data.le_cap
  rw [hq] at hl
  have : c.data.buf.tail = [] := by
    cases hb : c.data.buf with
    | nil => rfl
    | cons y ys =>
      rw [hb] at hl
      simp only [List.length_cons] at hl
      have : ys = [] := List.length_eq_zero.1 (by omega)
      simp [this]
  rw [h2, this]
  rfl

theorem workerRecv_cons (c : WsClient) (x : Frame) (xs : List Frame)
    (h : c.data.buf = x :: xs) :
    ∃ c', c.workerRecv = some (x, c') ∧ c'.data.buf = xs ∧ c'.data.cap = c.data.cap
      ∧ c'.die = c.die ∧ c'.conn = c.conn := by
  obtain ⟨ch', h1, h2, h3⟩ := Chan.recv_cons c.data x xs h
  refine ⟨{ c with data := ch' }, ?_, h2, h3, rfl, rfl⟩
  unfold WsClient.workerRecv
  simp only [h1]

theorem workerRecv_nil (c : WsClient) (h : c.data.buf = []) : c.workerRecv = none := by
  unfold WsClient.workerRecv
  simp only [Chan.recv_nil c.data h]

/-- The worker on a mailbox that holds exactly one frame: with a successful
write it writes that frame and then blocks at the receive; with a failing
write it writes nothing, closes the connection and returns. -/
theorem worker_single (c : WsClient) (x : Frame) (oks : List Bool) (h : c.data.buf = [x]) :
    (c.worker (true :: oks)).1.conn.written = c.conn.written ++ [x]
      ∧ (c.worker (true :: oks)).1.data.buf = []
      ∧ (c.worker (true :: oks)).2 = WorkerPC.recv
      ∧ (c.worker (false :: oks)).1.conn.written = c.conn.written
      ∧ (c.worker (false :: oks)).1.die = true
      ∧ (c.worker (false :: oks)).2 = WorkerPC.exited := by
  obtain ⟨c', h1, h2, h3, h4, h5⟩ := workerRecv_cons c x [] h
  have hn : (c'.workerWrite x true).1.workerRecv = none :=
    workerRecv_nil _ (by simp only [WsClient.workerWrite, if_true, h2])
  have hw : c.worker (true :: oks) = ((c'.workerWrite x true).1, WorkerPC.recv) := by
    cases oks with
    | nil => simp [WsClient.worker, h1, WsClient.workerWrite, hn] ; simp [WsClient.workerWrite] at hn; rw [hn]
    | cons o os => simp [WsClient.worker, h1, WsClient.workerWrite] ; simp [WsClient.workerWrite] at hn; rw [hn]
  have hf : c.worker (false :: oks) = ((c'.workerWrite x false).1, WorkerPC.exited) := by
    simp [WsClient.worker, h1, WsClient.workerWrite]
  rw [hw, hf]
  simp [WsClient.workerWrite, h5, h2]

/-- C6. Mailbox overwrite law. For a live subscriber with mailbox capacity 1:
`Send(A)` and then `Send(B)` with no receive in between leave exactly `B` in
the mailbox, so the next receive of the writer yields `B` and empties the
mailbox, and the writer writes `B` and never `A`; after `Send(F1)`, `Send(F2)`,
`Send(F3)` the mailbox holds exactly `F3`, and the writer then writes `F3` and
nothing else before it blocks at the receive (or, with a failing write, writes
nothing and returns). -/
theorem mailbox_overwrite (c : WsClient) (A B F1 F2 F3 : Frame) (hd : c.die = false)
    (hcap : c.data.cap = 1) :
    (∃ c1 c2 c2', c.Send A = SendResult.ret none c1 ∧ c1.Send B = SendResult.ret none c2
        ∧ c2.data.buf = [B] ∧ c2.workerRecv = some (B, c2') ∧ c2'.data.buf = []
        ∧ ∀ oks : List Bool,
            (c2.worker (true :: oks)).1.conn.written = c.conn.written ++ [B]
            ∧ (c2.worker (true :: oks)).2 = WorkerPC.recv
            ∧ (c2.worker (false :: oks)).1.conn.written = c.conn.written)
      ∧ (∃ c1 c2 c3, c.Send F1 = SendResult.ret none c1 ∧ c1.Send F2 = SendResult.ret none c2
        ∧ c2.Send F3 = SendResult.ret none c3 ∧ c3.data.buf = [F3]
        ∧ ∀ oks : List Bool,
            (c3.worker (true :: oks)).1.conn.written = c.conn.written ++ [F3]
            ∧ (c3.worker (true :: oks)).1.data.buf = []
            ∧ (c3.worker (true :: oks)).2 = WorkerPC.recv
            ∧ (c3.worker (false :: oks)).1.conn.written = c.conn.written
            ∧ (c3.worker (false :: oks)).2 = WorkerPC.exited) := by
  constructor
  · obtain ⟨c1, s1, _, k1, d1, n1⟩ := Send_cap_one c A hd hcap
    obtain ⟨c2, s2, b2, _, _, n2⟩ := Send_cap_one c1 B d1 k1
    obtain ⟨c2', r2, e2, _⟩ := workerRecv_cons c2 B [] b2
    refine ⟨c1, c2, c2', s1, s2, b2, r2, e2, fun oks => ?_⟩
    obtain ⟨w1, _, w3, w4, _, _⟩ := worker_single c2 B oks b2
    rw [n2, n1] at w1 w4
    exact ⟨w1, w3, w4⟩
  · obtain ⟨c1, s1, _, k1, d1, n1⟩ := Send_cap_one c F1 hd hcap
    obtain ⟨c2, s2, _, k2, d2, n2⟩ := Send_cap_one c1 F2 d1 k1
    obtain ⟨c3, s3, b3, _, _, n3⟩ := Send_cap_one c2 F3 d2 k2
    refine ⟨c1, c2, c3, s1, s2, s3, b3, fun oks => ?_⟩
    obtain ⟨w1, w2, w3, w4, _, w6⟩ := worker_single c3 F3 oks b3
    rw [n3, n2, n1] at w1 w4
    exact ⟨w1, w2, w3, w4, w6⟩

/-- C6 at a new subscriber with mailbox capacity 1 and the frames `[1]`, `[2]`,
`[3]`. -/
theorem mailbox_overwrite_witness :
    ∃ c1 c2 c3, (NewWsClient ⟨[], 0⟩ 1).Send [1] = SendResult.ret none c1
      ∧ c1.Send [2] = SendResult.ret none c2
      ∧ c2.Send [3] = SendResult.ret none c3 ∧ c3.data.buf = [[3]]
      ∧ ∀ oks : List Bool,
          (c3.worker (true :: oks)).1.conn.written = [] ++ [[3]]
          ∧ (c3.worker (true :: oks)).1.data.buf = []
          ∧ (c3.worker (true :: oks)).2 = WorkerPC.recv
          ∧ (c3.worker (false :: oks)).1.conn.written = []
          ∧ (c3.worker (false :: oks)).2 = WorkerPC.exited :=
  (mailbox_overwrite (NewWsClient ⟨[], 0⟩ 1) [1] [2] [1] [2] [3] rfl rfl).2

/-- What holds of one subscriber after every sequence of steps from a new
subscriber: the capacity of the mailbox stays `q`, the mailbox holds at most
one frame, and it is empty while `Send` stands between its `select` and its
deposit. -/
theorem ClientSys.client_step_inv (q : Nat) (s s' : ClientSys) (a : ClientAct)
    (hinv : s.c.data.cap = q ∧ s.c.data.buf.length ≤ 1
      ∧ (s.sender ≠ none → s.c.data.buf = []))
    (h : s.step a = some s') :
    s'.c.data.cap = q ∧ s'.c.data.buf.length ≤ 1
      ∧ (s'.sender ≠ none → s'.c.data.buf = []) := by
  obtain ⟨hc, hl, he⟩ := hinv
  have htail : s.c.data.buf.tail = [] := by
    cases hb : s.c.data.buf with
    | nil => rfl
    | cons y ys =>
      rw [hb] at hl
      simp only [List.length_cons] at hl
      have : ys = [] := List.length_eq_zero.1 (by omega)
      simp [this]
  cases a with
  | sendEnter buf =>
    unfold ClientSys.step at h
    cases hs : s.sender with
    | some b => simp [hs] at h
    | none =>
      simp only [hs] at h
      split_ifs at h with hdie
      · cases h
        exact ⟨hc, hl, he⟩
      · cases h
        refine ⟨by simp only [Chan.drain_cap]; exact hc, ?_, fun _ => ?_⟩
        · simp only [Chan.drain_buf, htail, List.length_nil]; omega
        · simp only [Chan.drain_buf, htail]
  | sendDeposit =>
    unfold ClientSys.step at h
    cases hs : s.sender with
    | none => simp [hs] at h
    | some b =>
      simp only [hs] at h
      cases hsend : s.c.data.send b with
      | none => simp [hsend] at h
      | some ch =>
        simp only [hsend, Option.some.injEq] at h
        subst h
        obtain ⟨_, h2, h3⟩ := Chan.send_eq_some _ _ _ hsend
        have hemp := he (by rw [hs]; simp)
        refine ⟨by simp only [h3]; exact hc, ?_, fun hne => absurd rfl hne⟩
        simp only [h2, hemp, List.nil_append, List.length_cons, List.length_nil]
        omega
  | workerRecv =>
    unfold ClientSys.step at h
    cases hw : s.worker with
    | recv =>
      simp only [hw] at h
      cases hr : s.c.workerRecv with
      | none => simp [hr] at h
      | some bc =>
        obtain ⟨b, c'⟩ := bc
        simp only [hr, Option.some.injEq] at h
        subst h
        unfold WsClient.workerRecv at hr
        cases hrc : s.c.data.recv with
        | none => simp [hrc] at hr
        | some bch =>
          obtain ⟨b', ch⟩ := bch
          simp only [hrc, Option.some.injEq, Prod.mk.injEq] at hr
          obtain ⟨_, rfl⟩ := hr
          obtain ⟨h1, h2⟩ := Chan.recv_eq_some _ _ _ hrc
          have hch : ch.buf = [] := by
            rw [h1] at htail
            simpa using htail
          refine ⟨by simp only [h2]; exact hc, ?_, fun _ => ?_⟩
          · simp only [hch, List.length_nil]; omega
          · simp only [hch]
    | write b => simp [hw] at h
    | exited => simp [hw] at h
    | done => simp [hw] at h
  | workerWrite ok =>
    unfold ClientSys.step at h
    cases hw : s.worker with
    | write b =>
      simp only [hw, Option.some.injEq] at h
      subst h
      have hdata : (s.c.workerWrite b ok).1.data = s.c.data := by
        unfold WsClient.workerWrite
        split_ifs <;> rfl
      simp only [hdata]
      exact ⟨hc, hl, he⟩
    | recv => simp [hw] at h
    | exited => simp [hw] at h
    | done => simp [hw] at h

theorem ClientSys.client_run_inv (q : Nat) (acts : List ClientAct) : ∀ (s s' : ClientSys),
    (s.c.data.cap = q ∧ s.c.data.buf.length ≤ 1 ∧ (s.sender ≠ none → s.c.data.buf = [])) →
    s.run acts = some s' →
    s'.c.data.cap = q ∧ s'.c.data.buf.length ≤ 1
      ∧ (s'.sender ≠ none → s'.c.data.buf = []) := by
  induction acts with
  | nil =>
    intro s s' hinv h
    simp only [ClientSys.run, Option.some.injEq] at h
    subst h
    exact hinv
  | cons a as ih =>
    intro s s' hinv h
    unfold ClientSys.run at h
    cases hs : s.step a with
    | none => simp [hs] at h
    | some s1 =>
      simp only [hs] at h
      exact ih s1 s' (ClientSys.client_step_inv q s s1 a hinv hs) h

/-- A call of `Send` that returns nil is the step of its `select` followed by
the step of its deposit. -/
theorem Send_steps (s : ClientSys) (buf : Frame) (c' : WsClient) (hs : s.sender = none)
    (h : s.c.Send buf = SendResult.ret none c') :
    s.run [ClientAct.sendEnter buf, ClientAct.sendDeposit] = some { s with c := c' } := by
  obtain ⟨c, sender, worker⟩ := s
  dsimp only at hs h
  subst hs
  unfold WsClient.Send at h
  split_ifs at h with hd
  · cases h
  · dsimp only at h
    cases hsend : c.data.drain.send buf with
    | none => rw [hsend] at h; cases h
    | some ch =>
      rw [hsend] at h
      cases h
      simp [ClientSys.run, ClientSys.step, hd, hsend]

/-- C7. `Send` never blocks the dispatcher. For every mailbox capacity `q ≥ 1`
and every state reached from a new subscriber by an interleaving of steps of
`Send` and of the worker: when `Send` stands at its deposit `c.data <- buf`, the
mailbox holds fewer than `q` frames, and the deposit step can be taken at once
and puts `buf` into the mailbox. -/
theorem send_never_blocks (q : Nat) (hq : 1 ≤ q) (conn : Conn) (acts : List ClientAct)
    (s : ClientSys) (buf : Frame)
    (hrun : (ClientSys.init conn q).run acts = some s) (hs : s.sender = some buf) :
    s.c.data.buf.length < q
      ∧ ∃ s', s.step ClientAct.sendDeposit = some s' ∧ s'.sender = none
          ∧ s'.c.data.buf = s.c.data.buf ++ [buf] := by
  obtain ⟨hc, hl, he⟩ := ClientSys.client_run_inv q acts (ClientSys.init conn q) s
    ⟨rfl, by simp [ClientSys.init, NewWsClient, Chan.make], fun _ => rfl⟩ hrun
  have hemp := he (by rw [hs]; simp)
  have hlt : s.c.data.buf.length < s.c.data.cap := by
    rw [hemp, hc]; simp only [List.length_nil]; omega
  obtain ⟨ch', h1, h2, _⟩ := Chan.send_some s.c.data buf hlt
  refine ⟨by rw [← hc]; exact hlt, ⟨{ s with c := { s.c with data := ch' }, sender := none },
    ?_, rfl, h2⟩⟩
  unfold ClientSys.step
  simp only [hs, h1]

/-- C7 at capacity 2 after `Send [1]`, `Send [2]` up to its deposit, a receive
of the worker in between. -/
theorem send_never_blocks_witness :
    ∃ s, (ClientSys.init ⟨[], 0⟩ 2).run
        [ClientAct.sendEnter [1], ClientAct.sendDeposit, ClientAct.workerRecv,
         ClientAct.sendEnter [2]] = some s
      ∧ s.sender = some [2] ∧ s.c.data.buf.length < 2
      ∧ ∃ s', s.step ClientAct.sendDeposit = some s' ∧ s'.sender = none
          ∧ s'.c.data.buf = s.c.data.buf ++ [[2]] :=
  ⟨_, rfl, rfl,
    send_never_blocks 2 (by decide) ⟨[], 0⟩
      [ClientAct.sendEnter [1], ClientAct.sendDeposit, ClientAct.workerRecv,
       ClientAct.sendEnter [2]] _ [2] rfl rfl⟩

/-- C8. On a subscriber already marked dead `Send` returns the error
`ws connection die` and leaves the subscriber (mailbox and flag) as it was;
on a subscriber not marked dead `Send` never returns an error, and with a
mailbox of capacity at least 1 it returns nil. -/
theorem Send_dead_indication (c : WsClient) (buf : Frame) :
    (c.die = true → c.Send buf = SendResult.ret (some Error.connDie) c)
      ∧ (c.die = false →
          (∀ e c', c.Send buf ≠ SendResult.ret (some e) c')
          ∧ (1 ≤ c.data.cap → ∃ c', c.Send buf = SendResult.ret none c'
              ∧ c'.die = false)) := by
  refine ⟨Send_die c buf, fun hd => ⟨fun e c' h => ?_, fun hq => ?_⟩⟩
  · unfold WsClient.Send at h
    simp only [hd, Bool.false_eq_true, if_false] at h
    split at h <;> cases h
  · obtain ⟨c', h1, _, _, h4, _⟩ := Send_live c buf hd hq
    exact ⟨c', h1, h4⟩

/-! ## The broadcast cycle -/

theorem Send_err_iff (c : WsClient) (data : Frame) :
    (∃ e c', c.Send data = SendResult.ret (some e) c') ↔ c.die = true := by
  constructor
  · rintro ⟨e, c', h⟩
    cases hd : c.die with
    | true => rfl
    | false =>
      unfold WsClient.Send at h
      simp only [hd, Bool.false_eq_true, if_false] at h
      split at h <;> cases h
  · intro hd
    exact ⟨_, _, Send_die c data hd⟩

/-- The loop over the live clients: it ends, it keeps exactly the clients that
are outside the keys it visits or not dead, it leaves the clients outside those
keys untouched, and for a key it visits the client is afterwards what `Send`
made of it. -/
theorem rangeSend_spec (data : Frame) : ∀ (ps clients : List Nat) (heap : Nat → WsClient),
    ps.Nodup → (∀ p ∈ ps, 1 ≤ (heap p).data.cap) →
    ∃ clients' heap', rangeSend data ps clients heap = some (clients', heap')
      ∧ (∀ x, x ∈ clients' ↔ x ∈ clients ∧ (x ∈ ps → (heap x).die = false))
      ∧ clients'.Sublist clients
      ∧ (∀ x, x ∉ ps → heap' x = heap x)
      ∧ (∀ x ∈ ps, (heap x).die = true → heap' x = heap x)
      ∧ (∀ x ∈ ps, (heap x).die = false → (heap x).Send data = SendResult.ret none (heap' x)) := by
  intro ps
  induction ps with
  | nil =>
    intro clients heap _ _
    exact ⟨clients, heap, rfl, by simp, List.Sublist.refl _, fun _ _ => rfl,
      fun x hx => absurd hx (List.not_mem_nil x), fun x hx => absurd hx (List.not_mem_nil x)⟩
  | cons p ps ih =>
    intro clients heap hnd hcap
    have hp : p ∉ ps := (List.nodup_cons.1 hnd).1
    have hps : ps.Nodup := (List.nodup_cons.1 hnd).2
    have hupd : ∀ (c' : WsClient) (x : Nat), x ∈ ps → Function.update heap p c' x = heap x := by
      intro c' x hx
      have hne : x ≠ p := by
        rintro rfl
        exact hp hx
      exact Function.update_noteq hne _ _
    cases hd : (heap p).die with
    | true =>
      obtain ⟨cl, hp', hrun, hmem, hsub, hout, hdead, hlive⟩ :=
        ih (clients.filter (· ≠ p)) (Function.update heap p (heap p)) hps
          (fun x hx => by rw [hupd _ x hx]; exact hcap x (by simp [hx]))
      have hself : Function.update heap p (heap p) = heap := Function.update_eq_self p heap
      rw [hself] at hrun hout hdead hlive hmem
      refine ⟨cl, hp', ?_, ?_, ?_, ?_, ?_, ?_⟩
      · rw [rangeSend, Send_die (heap p) data hd]
        dsimp only
        rw [hself]
        exact hrun
      · intro x
        rw [hmem x, List.mem_filter]
        constructor
        · rintro ⟨⟨hx, hne⟩, himp⟩
          refine ⟨hx, fun hxin => ?_⟩
          rcases List.mem_cons.1 hxin with rfl | h
          · simp at hne
          · exact himp h
        · rintro ⟨hx, himp⟩
          have hne : x ≠ p := by
            rintro rfl
            have := himp (by simp)
            rw [hd] at this
            cases this
          exact ⟨⟨hx, by simpa using hne⟩, fun h => himp (by simp [h])⟩
      · exact hsub.trans (List.filter_sublist _)
      · intro x hx
        exact hout x (fun h => hx (by simp [h]))
      · intro x hx hxd
        rcases List.mem_cons.1 hx with rfl | h
        · exact hout x hp
        · exact hdead x h hxd
      · intro x hx hxd
        rcases List.mem_cons.1 hx with rfl | h
        · rw [hd] at hxd; cases hxd
        · exact hlive x h hxd
    | false =>
      obtain ⟨c', hsend, _, hc'cap, _, _⟩ := Send_live (heap p) data hd (hcap p (by simp))
      obtain ⟨cl, hp', hrun, hmem, hsub, hout, hdead, hlive⟩ :=
        ih clients (Function.update heap p c') hps
          (fun x hx => by rw [hupd _ x hx]; exact hcap x (by simp [hx]))
      refine ⟨cl, hp', ?_, ?_, hsub, ?_, ?_, ?_⟩
      · rw [rangeSend, hsend]
        exact hrun
      · intro x
        rw [hmem x]
        constructor
        · rintro ⟨hx, himp⟩
          refine ⟨hx, fun hxin => ?_⟩
          rcases List.mem_cons.1 hxin with rfl | h
          · exact hd
          · have := himp h
            rwa [hupd _ x h] at this
        · rintro ⟨hx, himp⟩
          refine ⟨hx, fun h => ?_⟩
          rw [hupd _ x h]
          exact himp (by simp [h])
      · intro x hx
        have hxp : x ≠ p := fun h => hx (by simp [h])
        rw [hout x (fun h => hx (by simp [h])), Function.update_noteq hxp]
      · intro x hx hxd
        rcases List.mem_cons.1 hx with rfl | h
        · rw [hd] at hxd; cases hxd
        · have := hdead x h (by rw [hupd _ x h]; exact hxd)
          rw [this, hupd _ x h]
      · intro x hx hxd
        rcases List.mem_cons.1 hx with rfl | h
        · rw [hout x hp, Function.update_same]
          exact hsend
        · have := hlive x h (by rw [hupd _ x h]; exact hxd)
          rw [hupd _ x h] at this
          exact this

theorem drainNew_spec : ∀ (ps clients : List Nat),
    (∀ x, x ∈ drainNew ps clients ↔ x ∈ clients ∨ x ∈ ps)
      ∧ (clients.Nodup → (drainNew ps clients).Nodup) := by
  intro ps
  induction ps with
  | nil => intro clients; simp [drainNew]
  | cons p ps ih =>
    intro clients
    by_cases hp : p ∈ clients
    · obtain ⟨h1, h2⟩ := ih clients
      simp only [drainNew, hp, if_true]
      refine ⟨fun x => ?_, h2⟩
      rw [h1 x]
      constructor
      · rintro (h | h)
        · exact Or.inl h
        · exact Or.inr (by simp [h])
      · rintro (h | h)
        · exact Or.inl h
        · rcases List.mem_cons.1 h with rfl | h
          · exact Or.inl hp
          · exact Or.inr h
    · obtain ⟨h1, h2⟩ := ih (clients ++ [p])
      simp only [drainNew, hp, if_false]
      refine ⟨fun x => ?_, fun hnd => h2 ?_⟩
      · rw [h1 x]
        simp only [List.mem_append, List.mem_singleton, List.mem_cons]
        tauto
      · rw [List.nodup_append]
        refine ⟨hnd, List.nodup_singleton p, ?_⟩
        intro a ha hb
        rw [List.mem_singleton] at hb
        exact hp (hb ▸ ha)

/-- One iteration of `broacast` from a state that satisfies the invariant, with
mailbox capacity at least 1: it ends, and the live set, the registration queue
and the clients are as stated. -/
theorem broacast_spec (q : Nat) (hq : 1 ≤ q) (s : Sys) (hinv : s.Inv q) (data : Frame) :
    ∃ s', s.broacast data = some s'
      ∧ (∀ x, x ∈ s'.clients ↔ (x ∈ s.clients ∧ (s.heap x).die = false) ∨ x ∈ s.newclients.buf)
      ∧ s'.clients.Nodup ∧ s'.newclients.buf = [] ∧ s'.newclients.cap = s.newclients.cap
      ∧ s'.next = s.next ∧ s'.wpc = s.wpc
      ∧ (∀ x, x ∉ s.clients → s'.heap x = s.heap x)
      ∧ (∀ x ∈ s.clients, (s.heap x).die = true → s'.heap x = s.heap x)
      ∧ (∀ x ∈ s.clients, (s.heap x).die = false →
          (s.heap x).Send data = SendResult.ret none (s'.heap x)) := by
  obtain ⟨hnd, _, hlt, _, hcap, _⟩ := hinv
  obtain ⟨cl, hp, hrun, hmem, hsub, hout, hdead, hlive⟩ :=
    rangeSend_spec data s.clients s.clients s.heap hnd
      (fun p hpm => by rw [hcap p (hlt p hpm)]; exact hq)
  obtain ⟨hdm, hdn⟩ := drainNew_spec s.newclients.buf cl
  refine ⟨{ s with clients := drainNew s.newclients.buf cl,
                   newclients := Chan.make s.newclients.cap, heap := hp },
    ?_, ?_, hdn (hsub.nodup hnd), rfl, rfl, rfl, rfl, hout, hdead, hlive⟩
  · unfold Sys.broacast
    rw [hrun]
  · intro x
    show x ∈ drainNew s.newclients.buf cl ↔ _
    rw [hdm x, hmem x]
    constructor
    · rintro (⟨h1, h2⟩ | h)
      · exact Or.inl ⟨h1, h2 h1⟩
      · exact Or.inr h
    · rintro (⟨h1, h2⟩ | h)
      · exact Or.inl ⟨h1, fun _ => h2⟩
      · exact Or.inr h

theorem Send_ret_cap (c c' : WsClient) (data : Frame)
    (h : c.Send data = SendResult.ret none c') : c'.data.cap = c.data.cap := by
  unfold WsClient.Send at h
  split_ifs at h with hd
  · cases h
  · dsimp only at h
    cases hsend : c.data.drain.send data with
    | none => rw [hsend] at h; cases h
    | some ch =>
      rw [hsend] at h
      cases h
      obtain ⟨_, _, h3⟩ := Chan.send_eq_some _ _ _ hsend
      show ch.cap = c.data.cap
      rw [h3, Chan.drain_cap]

/-- An iteration of `broacast` keeps the invariant. -/
theorem broacast_inv (q : Nat) (hq : 1 ≤ q) (s s' : Sys) (hinv : s.Inv q) (data : Frame)
    (h : s.broacast data = some s') : s'.Inv q := by
  obtain ⟨s1, h1, hmem, hnd, hemp, _, hnext, _, hout, hdead, hlive⟩ :=
    broacast_spec q hq s hinv data
  rw [h] at h1
  cases h1
  obtain ⟨_, _, hlt, hltn, hcap, _⟩ := hinv
  refine ⟨hnd, by rw [hemp]; exact List.nodup_nil, ?_, ?_, ?_, ?_⟩
  · intro p hp
    rw [hnext]
    rcases (hmem p).1 hp with ⟨h1, _⟩ | h1
    · exact hlt p h1
    · exact hltn p h1
  · intro p hp
    rw [hemp] at hp
    cases hp
  · intro p hp
    rw [hnext] at hp
    by_cases hin : p ∈ s.clients
    · cases hd : (s.heap p).die with
      | true => rw [hdead p hin hd]; exact hcap p hp
      | false => rw [Send_ret_cap _ _ _ (hlive p hin hd)]; exact hcap p hp
    · rw [hout p hin]; exact hcap p hp
  · intro p hp
    rw [hemp] at hp
    cases hp

/-- A connection keeps the invariant. -/
theorem connect_inv (q : Nat) (s s' : Sys) (hinv : s.Inv q) (conn : Conn)
    (h : s.connect q conn = some s') : s'.Inv q := by
  obtain ⟨hnd, hndn, hlt, hltn, hcap, hpend⟩ := hinv
  unfold Sys.connect at h
  cases hsend : s.newclients.send s.next with
  | none => simp [hsend] at h
  | some ch =>
    simp only [hsend, Option.some.injEq] at h
    subst h
    obtain ⟨_, hbuf, _⟩ := Chan.send_eq_some _ _ _ hsend
    have hfresh : s.next ∉ s.newclients.buf := fun hm => Nat.lt_irrefl _ (hltn _ hm)
    have hfreshc : s.next ∉ s.clients := fun hm => Nat.lt_irrefl _ (hlt _ hm)
    refine ⟨hnd, ?_, ?_, ?_, ?_, ?_⟩
    · show ch.buf.Nodup
      rw [hbuf, List.nodup_append]
      refine ⟨hndn, List.nodup_singleton _, ?_⟩
      intro a ha hb
      rw [List.mem_singleton] at hb
      exact hfresh (hb ▸ ha)
    · intro p hp
      exact Nat.lt_succ_of_lt (hlt p hp)
    · intro p hp
      show p < s.next + 1
      have hp' : p ∈ ch.buf := hp
      rw [hbuf, List.mem_append, List.mem_singleton] at hp'
      rcases hp' with h1 | h1
      · exact Nat.lt_succ_of_lt (hltn p h1)
      · omega
    · intro p hp
      show (Function.update s.heap s.next (NewWsClient conn q) p).data.cap = q
      by_cases hpe : p = s.next
      · subst hpe
        rw [Function.update_same]
        rfl
      · rw [Function.update_noteq hpe]
        exact hcap p (by have : p < s.next + 1 := hp; omega)
    · intro p hp
      have hp' : p ∈ ch.buf := hp
      rw [hbuf, List.mem_append, List.mem_singleton] at hp'
      show p ∉ s.clients
        ∧ (Function.update s.heap s.next (NewWsClient conn q) p).die = false
        ∧ (Function.update s.heap s.next (NewWsClient conn q) p).data.buf = []
        ∧ Function.update s.wpc s.next WorkerPC.recv p = WorkerPC.recv
      rcases hp' with h1 | h1
      · have hpe : p ≠ s.next := fun he => hfresh (he ▸ h1)
        rw [Function.update_noteq hpe, Function.update_noteq hpe]
        exact hpend p h1
      · subst h1
        rw [Function.update_same, Function.update_same]
        exact ⟨hfreshc, rfl, rfl, rfl⟩

/-- A step of the goroutine of client `p` that keeps the capacity of its mailbox
keeps the invariant, provided `p` is not waiting in `newclients`. -/
theorem update_inv (q : Nat) (s : Sys) (hinv : s.Inv q) (p : Nat) (c' : WsClient)
    (pc' : WorkerPC) (hcap : c'.data.cap = (s.heap p).data.cap)
    (hnp : p ∉ s.newclients.buf) :
    Sys.Inv q { s with heap := Function.update s.heap p c',
                       wpc := Function.update s.wpc p pc' } := by
  obtain ⟨hnd, hndn, hlt, hltn, hc, hpend⟩ := hinv
  refine ⟨hnd, hndn, hlt, hltn, ?_, ?_⟩
  · intro x hx
    show (Function.update s.heap p c' x).data.cap = q
    by_cases hxp : x = p
    · subst hxp
      rw [Function.update_same, hcap]
      exact hc x hx
    · rw [Function.update_noteq hxp]
      exact hc x hx
  · intro x hx
    have hxp : x ≠ p := by
      rintro rfl
      exact hnp hx
    show x ∉ s.clients ∧ (Function.update s.heap p c' x).die = false
      ∧ (Function.update s.heap p c' x).data.buf = []
      ∧ Function.update s.wpc p pc' x = WorkerPC.recv
    rw [Function.update_noteq hxp, Function.update_noteq hxp]
    exact hpend x hx

theorem workerRecv_eq_some (c c' : WsClient) (b : Frame) (h : c.workerRecv = some (b, c')) :
    c.data.buf = b :: c'.data.buf ∧ c'.data.cap = c.data.cap ∧ c'.die = c.die
      ∧ c'.conn = c.conn := by
  unfold WsClient.workerRecv at h
  cases hr : c.data.recv with
  | none => rw [hr] at h; cases h
  | some bch =>
    obtain ⟨b', ch⟩ := bch
    rw [hr] at h
    cases h
    obtain ⟨h1, h2⟩ := Chan.recv_eq_some _ _ _ hr
    exact ⟨h1, h2, rfl, rfl⟩

theorem workerWrite_data (c : WsClient) (b : Frame) (ok : Bool) :
    (c.workerWrite b ok).1.data = c.data := by
  unfold WsClient.workerWrite
  split_ifs <;> rfl

/-- Every step of the relay keeps the invariant. -/
theorem Sys.step_inv (q : Nat) (hq : 1 ≤ q) (s s' : Sys) (a : Action) (hinv : s.Inv q)
    (h : s.step q a = some s') : s'.Inv q := by
  have hpend := hinv.2.2.2.2.2
  cases a with
  | connect conn => exact connect_inv q s s' hinv conn h
  | frame data => exact broacast_inv q hq s s' hinv data h
  | workerRecv p =>
    simp only [Sys.step] at h
    split_ifs at h with hp
    cases hw : s.wpc p with
    | recv =>
      simp only [hw] at h
      cases hr : (s.heap p).workerRecv with
      | none => simp [hr] at h
      | some bc =>
        obtain ⟨b, c'⟩ := bc
        simp only [hr, Option.some.injEq] at h
        subst h
        obtain ⟨h1, h2, _, _⟩ := workerRecv_eq_some _ _ _ hr
        refine update_inv q s hinv p c' _ h2 (fun hin => ?_)
        have := (hpend p hin).2.2.1
        rw [this] at h1
        cases h1
    | write b => simp [hw] at h
    | exited => simp [hw] at h
    | done => simp [hw] at h
  | workerWrite p ok =>
    simp only [Sys.step] at h
    split_ifs at h with hp
    cases hw : s.wpc p with
    | write b =>
      simp only [hw, Option.some.injEq] at h
      subst h
      refine update_inv q s hinv p _ _ (by rw [workerWrite_data]) (fun hin => ?_)
      have := (hpend p hin).2.2.2
      rw [hw] at this
      cases this
    | recv => simp [hw] at h
    | exited => simp [hw] at h
    | done => simp [hw] at h
  | handlerReturn p =>
    simp only [Sys.step] at h
    split_ifs at h with hp
    cases hw : s.wpc p with
    | exited =>
      simp only [hw, Option.some.injEq] at h
      subst h
      refine update_inv q s hinv p _ _ rfl (fun hin => ?_)
      have := (hpend p hin).2.2.2
      rw [hw] at this
      cases this
    | recv => simp [hw] at h
    | write b => simp [hw] at h
    | done => simp [hw] at h

theorem Sys.init_inv (q : Nat) : Sys.init.Inv q := by
  refine ⟨List.nodup_nil, List.nodup_nil, ?_, ?_, ?_, ?_⟩
  · intro p hp; cases hp
  · intro p hp; cases hp
  · intro p hp; exact absurd hp (Nat.not_lt_zero p)
  · intro p hp; cases hp

/-- Every state the relay reaches satisfies the invariant. -/
theorem Sys.run_inv (q : Nat) (hq : 1 ≤ q) (acts : List Action) : ∀ (s s' : Sys),
    s.Inv q → Sys.run q s acts = some s' → s'.Inv q := by
  induction acts with
  | nil =>
    intro s s' hinv h
    simp only [Sys.run, Option.some.injEq] at h
    subst h
    exact hinv
  | cons a as ih =>
    intro s s' hinv h
    unfold Sys.run at h
    cases hs : s.step q a with
    | none => rw [hs] at h; cases h
    | some s1 =>
      rw [hs] at h
      exact ih s1 s' (Sys.step_inv q hq s s1 a hinv hs) h

/-- A live client that is not dead, has an empty mailbox and a worker at its
receive stays so under every step that is not an iteration of `broacast`. -/
theorem Sys.step_idle (q : Nat) (s s' : Sys) (a : Action) (hinv : s.Inv q)
    (hnf : a.isFrame = false) (h : s.step q a = some s') (p : Nat)
    (hf : p ∈ s.clients ∧ (s.heap p).die = false ∧ (s.heap p).data.buf = []
      ∧ s.wpc p = WorkerPC.recv) :
    p ∈ s'.clients ∧ (s'.heap p).die = false ∧ (s'.heap p).data.buf = []
      ∧ s'.wpc p = WorkerPC.recv := by
  obtain ⟨hin, hdie, hbuf, hwpc⟩ := hf
  have hlt : p < s.next := hinv.2.2.1 p hin
  cases a with
  | frame data => cases hnf
  | connect conn =>
    simp only [Sys.step, Sys.connect] at h
    cases hsend : s.newclients.send s.next with
    | none => simp [hsend] at h
    | some ch =>
      simp only [hsend, Option.some.injEq] at h
      subst h
      have hne : p ≠ s.next := by omega
      show p ∈ s.clients ∧ (Function.update s.heap s.next (NewWsClient conn q) p).die = false
        ∧ (Function.update s.heap s.next (NewWsClient conn q) p).data.buf = []
        ∧ Function.update s.wpc s.next WorkerPC.recv p = WorkerPC.recv
      rw [Function.update_noteq hne, Function.update_noteq hne]
      exact ⟨hin, hdie, hbuf, hwpc⟩
  | workerRecv p' =>
    simp only [Sys.step] at h
    split_ifs at h with hp
    cases hw : s.wpc p' with
    | recv =>
      simp only [hw] at h
      cases hr : (s.heap p').workerRecv with
      | none => simp [hr] at h
      | some bc =>
        obtain ⟨b, c'⟩ := bc
        simp only [hr, Option.some.injEq] at h
        subst h
        have hne : p ≠ p' := by
          rintro rfl
          rw [workerRecv_nil _ hbuf] at hr
          cases hr
        show p ∈ s.clients ∧ (Function.update s.heap p' c' p).die = false
          ∧ (Function.update s.heap p' c' p).data.buf = []
          ∧ Function.update s.wpc p' (WorkerPC.write b) p = WorkerPC.recv
        rw [Function.update_noteq hne, Function.update_noteq hne]
        exact ⟨hin, hdie, hbuf, hwpc⟩
    | write b => simp [hw] at h
    | exited => simp [hw] at h
    | done => simp [hw] at h
  | workerWrite p' ok =>
    simp only [Sys.step] at h
    split_ifs at h with hp
    cases hw : s.wpc p' with
    | write b =>
      simp only [hw, Option.some.injEq] at h
      subst h
      have hne : p ≠ p' := by
        rintro rfl
        rw [hwpc] at hw
        cases hw
      show p ∈ s.clients ∧ (Function.update s.heap p' _ p).die = false
        ∧ (Function.update s.heap p' _ p).data.buf = []
        ∧ Function.update s.wpc p' _ p = WorkerPC.recv
      rw [Function.update_noteq hne, Function.update_noteq hne]
      exact ⟨hin, hdie, hbuf, hwpc⟩
    | recv => simp [hw] at h
    | exited => simp [hw] at h
    | done => simp [hw] at h
  | handlerReturn p' =>
    simp only [Sys.step] at h
    split_ifs at h with hp
    cases hw : s.wpc p' with
    | exited =>
      simp only [hw, Option.some.injEq] at h
      subst h
      have hne : p ≠ p' := by
        rintro rfl
        rw [hwpc] at hw
        cases hw
      show p ∈ s.clients ∧ (Function.update s.heap p' _ p).die = false
        ∧ (Function.update s.heap p' _ p).data.buf = []
        ∧ Function.update s.wpc p' _ p = WorkerPC.recv
      rw [Function.update_noteq hne, Function.update_noteq hne]
      exact ⟨hin, hdie, hbuf, hwpc⟩
    | recv => simp [hw] at h
    | write b => simp [hw] at h
    | done => simp [hw] at h

theorem Sys.run_idle (q : Nat) (hq : 1 ≤ q) (mid : List Action) : ∀ (s s' : Sys) (p : Nat),
    s.Inv q → (∀ a ∈ mid, a.isFrame = false) → Sys.run q s mid = some s' →
    (p ∈ s.clients ∧ (s.heap p).die = false ∧ (s.heap p).data.buf = []
      ∧ s.wpc p = WorkerPC.recv) →
    s'.Inv q ∧ p ∈ s'.clients ∧ (s'.heap p).die = false ∧ (s'.heap p).data.buf = []
      ∧ s'.wpc p = WorkerPC.recv := by
  induction mid with
  | nil =>
    intro s s' p hinv _ h hf
    simp only [Sys.run, Option.some.injEq] at h
    subst h
    exact ⟨hinv, hf⟩
  | cons a as ih =>
    intro s s' p hinv hmid h hf
    unfold Sys.run at h
    cases hs : s.step q a with
    | none => rw [hs] at h; cases h
    | some s1 =>
      rw [hs] at h
      exact ih s1 s' p (Sys.step_inv q hq s s1 a hinv hs)
        (fun b hb => hmid b (by simp [hb])) h
        (Sys.step_idle q s s1 a hinv (hmid a (by simp)) hs p hf)

/-- C9. In every state the relay reaches (mailbox capacity `q ≥ 1`) and for
every incoming frame, one iteration of `broacast` ends, and afterwards the live
set holds exactly the clients that were live and whose `Send` returned no
error, together with the clients that were waiting in `newclients`, each once;
`newclients` is empty. -/
theorem broadcast_cycle_live_set (q : Nat) (hq : 1 ≤ q) (acts : List Action) (s : Sys)
    (hrun : Sys.run q Sys.init acts = some s) (data : Frame) :
    ∃ s', s.broacast data = some s'
      ∧ (∀ p, p ∈ s'.clients ↔
          (p ∈ s.clients ∧ ¬ ∃ e c', (s.heap p).Send data = SendResult.ret (some e) c')
            ∨ p ∈ s.newclients.buf)
      ∧ s'.clients.Nodup ∧ s'.newclients.buf = [] := by
  have hinv := Sys.run_inv q hq acts Sys.init s (Sys.init_inv q) hrun
  obtain ⟨s', h1, hmem, hnd, hemp, _⟩ := broacast_spec q hq s hinv data
  refine ⟨s', h1, fun p => ?_, hnd, hemp⟩
  rw [hmem p, Send_err_iff]
  simp only [Bool.not_eq_true]

/-- C9 in the state after two connections, two frames, a failed write of the
worker of client 0 and a third connection: the live set is `[0, 1]`, client 0 is dead
and client 2 waits; the next iteration leaves the live set `[1, 2]`. -/
theorem broadcast_cycle_live_set_witness :
    (∃ s, Sys.run 1 Sys.init
        [Action.connect ⟨[], 0⟩, Action.connect ⟨[], 0⟩, Action.frame [0], Action.frame [1],
         Action.workerRecv 0, Action.workerWrite 0 false, Action.connect ⟨[], 0⟩] = some s
      ∧ s.clients = [0, 1] ∧ s.newclients.buf = [2] ∧ (s.heap 0).die = true
      ∧ ∃ s', s.broacast [2] = some s'
        ∧ (∀ p, p ∈ s'.clients ↔
            (p ∈ s.clients ∧ ¬ ∃ e c', (s.heap p).Send [2] = SendResult.ret (some e) c')
              ∨ p ∈ s.newclients.buf)
        ∧ s'.clients.Nodup ∧ s'.newclients.buf = [])
      ∧ (Sys.run 1 Sys.init
          [Action.connect ⟨[], 0⟩, Action.connect ⟨[], 0⟩, Action.frame [0], Action.frame [1],
           Action.workerRecv 0, Action.workerWrite 0 false, Action.connect ⟨[], 0⟩,
           Action.frame [2]]).map (fun s => s.clients) = some [1, 2] :=
  ⟨⟨_, rfl, rfl, rfl, rfl,
    broadcast_cycle_live_set 1 (by decide)
      [Action.connect ⟨[], 0⟩, Action.connect ⟨[], 0⟩, Action.frame [0], Action.frame [1],
       Action.workerRecv 0, Action.workerWrite 0 false, Action.connect ⟨[], 0⟩] _ rfl [2]⟩,
   by decide⟩

/-- C10. In every state the relay reaches (mailbox capacity `q ≥ 1`), the
iteration of `broacast` that processes `data` leaves every client outside the
live set as it was; a client `p` that waits in `newclients` is outside the live
set, so its (empty) mailbox is unchanged, and it is in the live set when the
iteration ends; and after any steps other than iterations of `broacast`, the
following iteration, processing `data'`, leaves `data'` in the mailbox of
`p`. -/
theorem pending_subscriber (q : Nat) (hq : 1 ≤ q) (acts : List Action) (s : Sys)
    (hrun : Sys.run q Sys.init acts = some s) (p : Nat) (hp : p ∈ s.newclients.buf)
    (data data' : Frame) (mid : List Action) (hmid : ∀ a ∈ mid, a.isFrame = false) :
    ∃ s1, s.broacast data = some s1
      ∧ (∀ x, x ∉ s.clients → s1.heap x = s.heap x)
      ∧ p ∉ s.clients ∧ s1.heap p = s.heap p ∧ (s1.heap p).data.buf = []
      ∧ p ∈ s1.clients
      ∧ ∀ s2, Sys.run q s1 mid = some s2 →
          ∃ s3, s2.broacast data' = some s3 ∧ (s3.heap p).data.buf = [data'] := by
  have hinv := Sys.run_inv q hq acts Sys.init s (Sys.init_inv q) hrun
  obtain ⟨s1, h1, hmem, _, _, _, _, hwpc, hout, _, _⟩ := broacast_spec q hq s hinv data
  have hinv1 := broacast_inv q hq s s1 hinv data h1
  obtain ⟨hpn, hpd, hpb, hpw⟩ := hinv.2.2.2.2.2 p hp
  have hsame := hout p hpn
  have hin1 : p ∈ s1.clients := (hmem p).2 (Or.inr hp)
  refine ⟨s1, h1, hout, hpn, hsame, by rw [hsame]; exact hpb, hin1, fun s2 h2 => ?_⟩
  obtain ⟨hinv2, hin2, hd2, hb2, _⟩ := Sys.run_idle q hq mid s1 s2 p hinv1 hmid h2
    ⟨hin1, by rw [hsame]; exact hpd, by rw [hsame]; exact hpb, by rw [hwpc]; exact hpw⟩
  obtain ⟨s3, h3, _, _, _, _, _, _, _, _, hlive⟩ := broacast_spec q hq s2 hinv2 data'
  refine ⟨s3, h3, ?_⟩
  have hsend := hlive p hin2 hd2
  obtain ⟨c', hc', hbuf, _⟩ := Send_live (s2.heap p) data' hd2
    (by rw [hinv2.2.2.2.2.1 p (hinv2.2.2.1 p hin2)]; exact hq)
  rw [hc'] at hsend
  cases hsend
  rw [hbuf, hb2]
  rfl

/-- C10 in the state after a connection, a frame and a second connection:
client 1 waits in `newclients` while the frame `[2]` is processed and receives
the frame `[3]` of the following iteration. -/
theorem pending_subscriber_witness :
    (∃ s, Sys.run 1 Sys.init
        [Action.connect ⟨[], 0⟩, Action.frame [1], Action.connect ⟨[], 0⟩] = some s
      ∧ 1 ∈ s.newclients.buf
      ∧ ∃ s1, s.broacast [2] = some s1
        ∧ (∀ x, x ∉ s.clients → s1.heap x = s.heap x)
        ∧ 1 ∉ s.clients ∧ s1.heap 1 = s.heap 1 ∧ (s1.heap 1).data.buf = []
        ∧ 1 ∈ s1.clients
        ∧ ∀ s2, Sys.run 1 s1 [Action.workerRecv 0] = some s2 →
            ∃ s3, s2.broacast [3] = some s3 ∧ (s3.heap 1).data.buf = [[3]])
      ∧ (Sys.run 1 Sys.init
          [Action.connect ⟨[], 0⟩, Action.frame [1], Action.connect ⟨[], 0⟩,
           Action.frame [2], Action.workerRecv 0, Action.frame [3]]).map
            (fun s => ((s.heap 0).data.buf, (s.heap 1).data.buf, s.clients))
          = some ([[3]], [[3]], [0, 1]) :=
  ⟨⟨_, rfl, by decide,
    pending_subscriber 1 (by decide)
      [Action.connect ⟨[], 0⟩, Action.frame [1], Action.connect ⟨[], 0⟩] _ rfl 1
      (by decide) [2] [3] [Action.workerRecv 0] (by decide)⟩,
   by decide⟩

/-- C8 on a dead subscriber whose mailbox holds the frame `[9]`: `Send` returns
the error and the mailbox still holds `[9]`. -/
theorem Send_dead_indication_witness :
    (⟨⟨[], 1⟩, ⟨[[9]], 1, by decide⟩, true⟩ : WsClient).Send [7]
      = SendResult.ret (some Error.connDie) ⟨⟨[], 1⟩, ⟨[[9]], 1, by decide⟩, true⟩ :=
  (Send_dead_indication ⟨⟨[], 1⟩, ⟨[[9]], 1, by decide⟩, true⟩ [7]).1 rfl

/-! ## The loops return -/

theorem IndexByte_lt (c : Byte) : ∀ (l : List Byte) (i : Nat), IndexByte l c = some i →
    i < l.length := by
  intro l
  induction l with
  | nil => intro i h; cases h
  | cons x xs ih =>
    intro i h
    unfold IndexByte at h
    split_ifs at h with hx
    · cases h
      simp
    · rw [Option.map_eq_some'] at h
      obtain ⟨j, hj, rfl⟩ := h
      have := ih j hj
      simp only [List.length_cons]
      omega

/-- A successful `ReadSlice` consumes at least one byte. -/
theorem ReadSlice_progress (r r' : Reader) (d : Byte) (s : List Byte)
    (h : ReadSlice r d = (s, none, r')) : r'.rest.length < r.rest.length := by
  unfold ReadSlice at h
  cases hi : IndexByte (r.rest.take r.size) d with
  | none =>
    rw [hi] at h
    dsimp only at h
    split_ifs at h <;> cases h
  | some i =>
    rw [hi] at h
    cases h
    have h1 := IndexByte_lt d _ i hi
    rw [List.length_take] at h1
    show (r.rest.drop (i + 1)).length < r.rest.length
    rw [List.length_drop]
    omega

/-- The loop of `readJPG` returns or panics: the fuel `readJPG` gives it
suffices. -/
theorem jpgLoop_total (fuel : Nat) : ∀ (r : Reader) (buf : List Byte) (off : Nat),
    r.rest.length < fuel → jpgLoop fuel r buf off ≠ Outcome.diverge := by
  induction fuel with
  | zero => intro r buf off hf; omega
  | succ fuel ih =>
    intro r buf off hf
    rw [jpgLoop]
    obtain ⟨p, r', hr | hr | hr⟩ := ReadSlice_cases r 0xD9
    · have hprog := ReadSlice_progress r r' 0xD9 p hr
      rw [hr]
      dsimp only
      split_ifs
      · intro h; cases h
      · intro h; cases h
      · intro h; cases h
      · exact ih _ _ _ (by omega)
    · rw [hr]; intro h; cases h
    · rw [hr]; intro h; cases h

/-- The call `readJPG` returns or panics. -/
theorem readJPG_total (r : Reader) (buf : List Byte) : readJPG r buf ≠ Outcome.diverge := by
  unfold readJPG
  split_ifs with l0
  · intro h; cases h
  · obtain ⟨p, r', hr | hr | hr⟩ := ReadFull_cases r 2
    · rw [hr]
      dsimp only
      split_ifs
      · intro h; cases h
      · exact jpgLoop_total _ _ _ _ (by omega)
    · rw [hr]; intro h; cases h
    · rw [hr]; intro h; cases h

theorem ReadFull_rest (r r' : Reader) (k : Nat) (p : List Byte) (e : Option Error)
    (h : ReadFull r k = (p, e, r')) :
    r'.rest.length ≤ r.rest.length ∧ (e = none → r'.rest.length + k ≤ r.rest.length) := by
  unfold ReadFull at h
  dsimp only at h
  have hl : (r.rest.drop k).length ≤ r.rest.length := by
    rw [List.length_drop]; omega
  split_ifs at h with h1 h2
  · cases h
    refine ⟨hl, fun _ => ?_⟩
    rw [List.length_take] at h1
    show (r.rest.drop k).length + k ≤ r.rest.length
    rw [List.length_drop]
    omega
  · cases h
    exact ⟨hl, fun he => by cases he⟩
  · cases h
    exact ⟨hl, fun he => by cases he⟩

/-- The function `readPNGChunk` returns or panics, and a return without error
has consumed at least the eight bytes of length and type. -/
theorem readPNGChunk_total (r : Reader) (buf : List Byte) :
    readPNGChunk r buf ≠ Outcome.diverge
      ∧ ∀ c, readPNGChunk r buf = Outcome.ret c → c.err = none →
          c.r.rest.length + 8 ≤ r.rest.length := by
  unfold readPNGChunk
  by_cases l0 : buf.length < 4
  · rw [if_pos l0]
    exact ⟨fun h => (by cases h), fun c h => (by cases h)⟩
  rw [if_neg l0]
  cases hr : ReadFull r 4 with
  | mk p er1 =>
    obtain ⟨e1, r1⟩ := er1
    have hr1 := ReadFull_rest r r1 4 p e1 hr
    cases e1 with
    | some e =>
      exact ⟨fun h => (by cases h), fun c h hc => (by cases h; cases hc)⟩
    | none =>
      dsimp only
      by_cases l1 : (copyAt buf 0 p).length < 4 + 4
      · rw [if_pos l1]
        exact ⟨fun h => (by cases h), fun c h => (by cases h)⟩
      rw [if_neg l1]
      cases hr2 : ReadFull r1 4 with
      | mk p2 er2 =>
        obtain ⟨e2, r2⟩ := er2
        have hr2' := ReadFull_rest r1 r2 4 p2 e2 hr2
        cases e2 with
        | some e =>
          exact ⟨fun h => (by cases h), fun c h hc => (by cases h; cases hc)⟩
        | none =>
          dsimp only
          split_ifs with l2
          · exact ⟨fun h => (by cases h), fun c h => (by cases h)⟩
          · cases hr3 : ReadFull r2
                (((Uint32 ((copyAt buf 0 p).take 4) + 4 + 4) % 2 ^ 32 + 4) % 2 ^ 32 - (4 + 4)) with
            | mk p3 er3 =>
              obtain ⟨e3, r3⟩ := er3
              have hr3' := ReadFull_rest r2 r3 _ p3 e3 hr3
              refine ⟨fun h => (by cases h), fun c h hc => ?_⟩
              cases h
              have h1 := hr1.2 rfl
              have h2 := hr2'.2 rfl
              have h3 := hr3'.1
              show r3.rest.length + 8 ≤ r.rest.length
              omega

/-- The loop of `readPNG` returns or panics: the fuel `readPNG` gives it
suffices. -/
theorem pngLoop_total (fuel : Nat) : ∀ (r : Reader) (buf : List Byte) (off : Nat),
    r.rest.length < fuel → pngLoop fuel r buf off ≠ Outcome.diverge := by
  induction fuel with
  | zero => intro r buf off hf; omega
  | succ fuel ih =>
    intro r buf off hf
    rw [pngLoop]
    split_ifs with l0
    · intro h; cases h
    · obtain ⟨hnd, hprog⟩ := readPNGChunk_total r (buf.drop off)
      cases hc : readPNGChunk r (buf.drop off) with
      | panic => intro h; cases h
      | diverge => exact absurd hc hnd
      | ret c =>
        dsimp only
        cases he : c.err with
        | some e => intro h; cases h
        | none =>
          dsimp only
          have := hprog c hc he
          split_ifs
          · intro h; cases h
          · exact ih _ _ _ (by omega)

/-- The call `readPNG` returns or panics. -/
theorem readPNG_total (r : Reader) (buf : List Byte) : readPNG r buf ≠ Outcome.diverge := by
  unfold readPNG
  split_ifs with l0
  · intro h; cases h
  · obtain ⟨p, r', hr | hr | hr⟩ := ReadFull_cases r 8
    · rw [hr]
      dsimp only
      split_ifs
      · intro h; cases h
      · exact pngLoop_total _ _ _ _ (by omega)
    · rw [hr]; intro h; cases h
    · rw [hr]; intro h; cases h

/-- A successful return of the loop of `readJPG` has consumed at least one
byte. -/
theorem jpgLoop_progress (fuel : Nat) : ∀ (r : Reader) (buf : List Byte) (off : Nat)
    (x : DecodeRet), jpgLoop fuel r buf off = Outcome.ret x → x.err = none →
    x.r.rest.length < r.rest.length := by
  induction fuel with
  | zero => intro r buf off x h; simp [jpgLoop] at h
  | succ fuel ih =>
    intro r buf off x h hx
    rw [jpgLoop] at h
    obtain ⟨p, r', hr | hr | hr⟩ := ReadSlice_cases r 0xD9
    · have hprog := ReadSlice_progress r r' 0xD9 p hr
      rw [hr] at h
      dsimp only at h
      split_ifs at h with h1 h2 h3
      · cases h
        exact hprog
      · have := ih _ _ _ _ h hx
        omega
    · rw [hr] at h; cases h; cases hx
    · rw [hr] at h; cases h; cases hx

/-- A successful return of `readJPG` has consumed at least one byte. -/
theorem readJPG_progress (r : Reader) (buf : List Byte) (x : DecodeRet)
    (h : readJPG r buf = Outcome.ret x) (hx : x.err = none) :
    x.r.rest.length < r.rest.length := by
  unfold readJPG at h
  split_ifs at h with l0
  cases hr : ReadFull r 2 with
  | mk p er =>
    obtain ⟨e, r'⟩ := er
    have hrest := ReadFull_rest r r' 2 p e hr
    rw [hr] at h
    cases e with
    | some e => cases h; cases hx
    | none =>
      dsimp only at h
      split_ifs at h with h1
      · cases h; cases hx
      · have := jpgLoop_progress _ _ _ _ _ h hx
        omega

/-- A successful return of the loop of `readPNG` has consumed at least one
byte. -/
theorem pngLoop_progress (fuel : Nat) : ∀ (r : Reader) (buf : List Byte) (off : Nat)
    (x : DecodeRet), pngLoop fuel r buf off = Outcome.ret x → x.err = none →
    x.r.rest.length < r.rest.length := by
  induction fuel with
  | zero => intro r buf off x h; simp [pngLoop] at h
  | succ fuel ih =>
    intro r buf off x h hx
    rw [pngLoop] at h
    split_ifs at h with l0
    obtain ⟨_, hprog⟩ := readPNGChunk_total r (buf.drop off)
    cases hc : readPNGChunk r (buf.drop off) with
    | panic => rw [hc] at h; cases h
    | diverge => rw [hc] at h; cases h
    | ret c =>
      rw [hc] at h
      dsimp only at h
      cases he : c.err with
      | some e =>
        rw [he] at h
        dsimp only at h
        cases h
        cases hx
      | none =>
        have hp := hprog c hc he
        rw [he] at h
        dsimp only at h
        split_ifs at h with hi
        · cases h
          show c.r.rest.length < r.rest.length
          omega
        · have := ih _ _ _ _ h hx
          omega

/-- A successful return of `readPNG` has consumed at least one byte. -/
theorem readPNG_progress (r : Reader) (buf : List Byte) (x : DecodeRet)
    (h : readPNG r buf = Outcome.ret x) (hx : x.err = none) :
    x.r.rest.length < r.rest.length := by
  unfold readPNG at h
  split_ifs at h with l0
  cases hr : ReadFull r 8 with
  | mk p er =>
    obtain ⟨e, r'⟩ := er
    have hrest := ReadFull_rest r r' 8 p e hr
    rw [hr] at h
    cases e with
    | some e => cases h; cases hx
    | none =>
      dsimp only at h
      split_ifs at h with h1
      · cases h; cases hx
      · have := pngLoop_progress _ _ _ _ _ h hx
        omega

/-- The loop of `connCam` returns or panics when the decoder does and every
successful call of the decoder consumes input. -/
theorem connCamLoop_total (dec : Reader → List Byte → Outcome DecodeRet)
    (hdec : ∀ r buf, dec r buf ≠ Outcome.diverge)
    (hprog : ∀ r buf x, dec r buf = Outcome.ret x → x.err = none →
      x.r.rest.length < r.rest.length) (fuel : Nat) :
    ∀ (r : Reader) (buf : List Byte), r.rest.length < fuel →
      (connCamLoop dec fuel r buf).out ≠ Outcome.diverge := by
  induction fuel with
  | zero => intro r buf hf; omega
  | succ fuel ih =>
    intro r buf hf
    rw [connCamLoop]
    cases hd : dec r buf with
    | panic => intro h; cases h
    | diverge => exact absurd hd (hdec r buf)
    | ret x =>
      dsimp only
      cases he : x.err with
      | some e => intro h; cases h
      | none =>
        dsimp only
        have := hprog r buf x hd he
        split_ifs
        · intro h; cases h
        · intro h; cases h
        · exact ih _ _ (by omega)

/-- The function `connCam` returns or panics. -/
theorem connCam_total (size : Nat) (split : String) (stdin : List Byte) :
    (connCam size split stdin).out ≠ Outcome.diverge := by
  unfold connCam markMap
  split_ifs
  · exact connCamLoop_total readJPG readJPG_total readJPG_progress _ _ _
      (by simp [NewReaderSize])
  · exact connCamLoop_total readPNG readPNG_total readPNG_progress _ _ _
      (by simp [NewReaderSize])
  · intro h; cases h

/-- The reader and the scratch buffer of `connCam` meet what the round-trip
theorems ask of them. -/
theorem connCam_sizes (stdin : List Byte) :
    (List.replicate (8 * 1024 * 1024) (0 : Byte)).length
        ≤ (NewReaderSize stdin (8 * 1024 * 1024)).size
      ∧ (List.replicate (8 * 1024 * 1024) (0 : Byte)).length < 2 ^ 32 := by
  simp only [List.length_replicate, NewReaderSize]
  constructor
  · exact Nat.le_max_left _ _
  · norm_num

/-! ## A subscriber whose writes fail -/

/-- A client that has left the relay stays so under every step. -/
theorem Sys.step_gone (q : Nat) (hq : 1 ≤ q) (s s' : Sys) (a : Action) (hinv : s.Inv q)
    (h : s.step q a = some s') (p : Nat) (hg : s.Gone p) : s'.Gone p := by
  obtain ⟨hlt, hnc, hnn, hdie, hbuf, hwpc⟩ := hg
  cases a with
  | frame data =>
    obtain ⟨s1, h1, hmem, _, hemp, _, hnext, hw, hout, _, _⟩ := broacast_spec q hq s hinv data
    simp only [Sys.step] at h
    rw [h] at h1
    cases h1
    refine ⟨by rw [hnext]; exact hlt, ?_, by rw [hemp]; exact List.not_mem_nil p, ?_, ?_, ?_⟩
    · rw [hmem p]
      rintro (⟨h1, _⟩ | h1)
      · exact hnc h1
      · exact hnn h1
    · rw [hout p hnc]; exact hdie
    · rw [hout p hnc]; exact hbuf
    · rw [hw]; exact hwpc
  | connect conn =>
    simp only [Sys.step, Sys.connect] at h
    cases hsend : s.newclients.send s.next with
    | none => simp [hsend] at h
    | some ch =>
      simp only [hsend, Option.some.injEq] at h
      subst h
      have hne : p ≠ s.next := by omega
      obtain ⟨_, hb, _⟩ := Chan.send_eq_some _ _ _ hsend
      show p < s.next + 1 ∧ p ∉ s.clients ∧ p ∉ ch.buf
        ∧ (Function.update s.heap s.next (NewWsClient conn q) p).die = true
        ∧ (Function.update s.heap s.next (NewWsClient conn q) p).data.buf = []
        ∧ (Function.update s.wpc s.next WorkerPC.recv p = WorkerPC.exited
          ∨ Function.update s.wpc s.next WorkerPC.recv p = WorkerPC.done)
      rw [Function.update_noteq hne, Function.update_noteq hne, hb]
      refine ⟨by omega, hnc, ?_, hdie, hbuf, hwpc⟩
      simp only [List.mem_append, List.mem_singleton, not_or]
      exact ⟨hnn, hne⟩
  | workerRecv p' =>
    simp only [Sys.step] at h
    split_ifs at h with hp
    cases hw : s.wpc p' with
    | recv =>
      simp only [hw] at h
      cases hr : (s.heap p').workerRecv with
      | none => simp [hr] at h
      | some bc =>
        obtain ⟨b, c'⟩ := bc
        simp only [hr, Option.some.injEq] at h
        subst h
        have hne : p ≠ p' := by
          rintro rfl
          rw [hw] at hwpc
          rcases hwpc with h1 | h1 <;> cases h1
        show p < s.next ∧ p ∉ s.clients ∧ p ∉ s.newclients.buf
          ∧ (Function.update s.heap p' c' p).die = true
          ∧ (Function.update s.heap p' c' p).data.buf = []
          ∧ (Function.update s.wpc p' (WorkerPC.write b) p = WorkerPC.exited
            ∨ Function.update s.wpc p' (WorkerPC.write b) p = WorkerPC.done)
        rw [Function.update_noteq hne, Function.update_noteq hne]
        exact ⟨hlt, hnc, hnn, hdie, hbuf, hwpc⟩
    | write b => simp [hw] at h
    | exited => simp [hw] at h
    | done => simp [hw] at h
  | workerWrite p' ok =>
    simp only [Sys.step] at h
    split_ifs at h with hp
    cases hw : s.wpc p' with
    | write b =>
      simp only [hw, Option.some.injEq] at h
      subst h
      have hne : p ≠ p' := by
        rintro rfl
        rw [hw] at hwpc
        rcases hwpc with h1 | h1 <;> cases h1
      show p < s.next ∧ p ∉ s.clients ∧ p ∉ s.newclients.buf
        ∧ (Function.update s.heap p' _ p).die = true
        ∧ (Function.update s.heap p' _ p).data.buf = []
        ∧ (Function.update s.wpc p' _ p = WorkerPC.exited
          ∨ Function.update s.wpc p' _ p = WorkerPC.done)
      rw [Function.update_noteq hne, Function.update_noteq hne]
      exact ⟨hlt, hnc, hnn, hdie, hbuf, hwpc⟩
    | recv => simp [hw] at h
    | exited => simp [hw] at h
    | done => simp [hw] at h
  | handlerReturn p' =>
    simp only [Sys.step] at h
    split_ifs at h with hp
    cases hw : s.wpc p' with
    | exited =>
      simp only [hw, Option.some.injEq] at h
      subst h
      by_cases hne : p = p'
      · subst hne
        show p < s.next ∧ p ∉ s.clients ∧ p ∉ s.newclients.buf
          ∧ (Function.update s.heap p (s.heap p).handlerClose p).die = true
          ∧ (Function.update s.heap p (s.heap p).handlerClose p).data.buf = []
          ∧ (Function.update s.wpc p WorkerPC.done p = WorkerPC.exited
            ∨ Function.update s.wpc p WorkerPC.done p = WorkerPC.done)
        rw [Function.update_same, Function.update_same]
        exact ⟨hlt, hnc, hnn, hdie, hbuf, Or.inr rfl⟩
      · show p < s.next ∧ p ∉ s.clients ∧ p ∉ s.newclients.buf
          ∧ (Function.update s.heap p' _ p).die = true
          ∧ (Function.update s.heap p' _ p).data.buf = []
          ∧ (Function.update s.wpc p' _ p = WorkerPC.exited
            ∨ Function.update s.wpc p' _ p = WorkerPC.done)
        rw [Function.update_noteq hne, Function.update_noteq hne]
        exact ⟨hlt, hnc, hnn, hdie, hbuf, hwpc⟩
    | recv => simp [hw] at h
    | write b => simp [hw] at h
    | done => simp [hw] at h

theorem Sys.deposits_cons (q p : Nat) (s : Sys) (a : Action) (as : List Action) :
    Sys.deposits q p s (a :: as) =
      (match a with
       | Action.frame data =>
         if p ∈ s.clients then
           match (s.heap p).Send data with
           | SendResult.ret none _ => 1
           | _ => 0
         else 0
       | _ => 0)
      + (match s.step q a with
         | some s' => Sys.deposits q p s' as
         | none => 0) := rfl

/-- A step that is not an iteration of `broacast`, or an iteration while `p`
is not a key of `clients`, deposits nothing for `p`. -/
theorem Sys.deposits_skip (q p : Nat) (s s' : Sys) (a : Action) (as : List Action)
    (h : s.step q a = some s') (hna : a.isFrame = false ∨ p ∉ s.clients) :
    Sys.deposits q p s (a :: as) = Sys.deposits q p s' as := by
  rw [Sys.deposits_cons, h]
  cases a with
  | frame data =>
    rcases hna with h1 | h1
    · cases h1
    · simp only [h1, if_false, Nat.zero_add]
  | connect conn => simp only [Nat.zero_add]
  | workerRecv p' => simp only [Nat.zero_add]
  | workerWrite p' ok => simp only [Nat.zero_add]
  | handlerReturn p' => simp only [Nat.zero_add]

/-- The deposits of a run in two parts add up. -/
theorem Sys.deposits_append (q p : Nat) (a1 a2 : List Action) : ∀ (s s' : Sys),
    Sys.run q s a1 = some s' →
    Sys.deposits q p s (a1 ++ a2) = Sys.deposits q p s a1 + Sys.deposits q p s' a2 := by
  induction a1 with
  | nil =>
    intro s s' h
    simp only [Sys.run, Option.some.injEq] at h
    subst h
    simp [Sys.deposits]
  | cons a as ih =>
    intro s s' h
    unfold Sys.run at h
    cases hs : s.step q a with
    | none => rw [hs] at h; cases h
    | some s1 =>
      rw [hs] at h
      rw [List.cons_append, Sys.deposits_cons, Sys.deposits_cons, hs]
      dsimp only
      rw [ih s1 s' h]
      omega

/-- Once a client has left the relay, it stays out of `clients`, its mailbox
stays empty and no iteration of `broacast` deposits into it. -/
theorem Sys.run_gone (q : Nat) (hq : 1 ≤ q) (p : Nat) (acts : List Action) :
    ∀ (s : Sys), s.Inv q → s.Gone p →
      Sys.deposits q p s acts = 0
        ∧ ∀ s', Sys.run q s acts = some s' → s'.Inv q ∧ s'.Gone p := by
  induction acts with
  | nil =>
    intro s hinv hg
    refine ⟨rfl, fun s' h => ?_⟩
    simp only [Sys.run, Option.some.injEq] at h
    subst h
    exact ⟨hinv, hg⟩
  | cons a as ih =>
    intro s hinv hg
    cases hs : s.step q a with
    | none =>
      refine ⟨?_, fun s' h => ?_⟩
      · rw [Sys.deposits_cons, hs]
        cases a with
        | frame data => simp only [hg.2.1, if_false]
        | connect conn => rfl
        | workerRecv p' => rfl
        | workerWrite p' ok => rfl
        | handlerReturn p' => rfl
      · unfold Sys.run at h
        rw [hs] at h
        cases h
    | some s1 =>
      obtain ⟨h0, hall⟩ := ih s1 (Sys.step_inv q hq s s1 a hinv hs)
        (Sys.step_gone q hq s s1 a hinv hs p hg)
      refine ⟨?_, fun s' h => ?_⟩
      · rw [Sys.deposits_skip q p s s1 a as hs (Or.inr hg.2.1)]
        exact h0
      · unfold Sys.run at h
        rw [hs] at h
        exact hall s' h

/-- The receive of the worker of `p` when the mailbox of `p` holds a frame. -/
theorem Sys.step_workerRecv (q : Nat) (s : Sys) (p : Nat) (b : Frame) (bs : List Frame)
    (hlt : p < s.next) (hw : s.wpc p = WorkerPC.recv) (hb : (s.heap p).data.buf = b :: bs) :
    ∃ s', s.step q (Action.workerRecv p) = some s' ∧ s'.clients = s.clients
      ∧ s'.newclients = s.newclients ∧ s'.next = s.next
      ∧ (s'.heap p).data.buf = bs ∧ (s'.heap p).die = (s.heap p).die
      ∧ (s'.heap p).conn = (s.heap p).conn ∧ s'.wpc p = WorkerPC.write b := by
  obtain ⟨c2, hr2, hb2, _, hd2, hconn2⟩ := workerRecv_cons (s.heap p) b bs hb
  refine ⟨{ s with heap := Function.update s.heap p c2,
                   wpc := Function.update s.wpc p (WorkerPC.write b) },
    ?_, rfl, rfl, rfl, ?_, ?_, ?_, ?_⟩
  · simp only [Sys.step, if_pos hlt, hw, hr2]
  · show (Function.update s.heap p c2 p).data.buf = bs
    rw [Function.update_same]; exact hb2
  · show (Function.update s.heap p c2 p).die = _
    rw [Function.update_same]; exact hd2
  · show (Function.update s.heap p c2 p).conn = _
    rw [Function.update_same]; exact hconn2
  · exact Function.update_same _ _ _

/-- The write of the worker of `p` when it fails: nothing is written, the
connection is closed once, the client is marked dead and the worker returns. -/
theorem Sys.step_workerWrite_fail (q : Nat) (s : Sys) (p : Nat) (b : Frame)
    (hlt : p < s.next) (hw : s.wpc p = WorkerPC.write b) :
    ∃ s', s.step q (Action.workerWrite p false) = some s' ∧ s'.clients = s.clients
      ∧ s'.newclients = s.newclients ∧ s'.next = s.next
      ∧ (s'.heap p).data = (s.heap p).data ∧ (s'.heap p).die = true
      ∧ (s'.heap p).conn.written = (s.heap p).conn.written
      ∧ (s'.heap p).conn.closes = (s.heap p).conn.closes + 1
      ∧ s'.wpc p = WorkerPC.exited := by
  refine ⟨{ s with heap := Function.update s.heap p ((s.heap p).workerWrite b false).1,
                   wpc := Function.update s.wpc p WorkerPC.exited },
    ?_, rfl, rfl, rfl, ?_, ?_, ?_, ?_, ?_⟩
  · simp only [Sys.step, if_pos hlt, hw, WsClient.workerWrite, Bool.false_eq_true, if_false,
      if_true]
  · show (Function.update s.heap p _ p).data = _
    rw [Function.update_same]; rfl
  · show (Function.update s.heap p _ p).die = _
    rw [Function.update_same]; rfl
  · show (Function.update s.heap p _ p).conn.written = _
    rw [Function.update_same]; rfl
  · show (Function.update s.heap p _ p).conn.closes = _
    rw [Function.update_same]; rfl
  · exact Function.update_same _ _ _

/-- C11. A live subscriber `p` (in any state the relay reaches with mailbox
capacity `q ≥ 1`) that is not dead, has an empty mailbox and a worker at its
receive, and whose write fails: the iteration of `broacast` for `F1` deposits
`F1` in its mailbox; the worker receives it, the write fails and marks the
subscriber dead without writing anything; the iteration for `F2` gets the error
from `Send`, removes `p` from the live set and leaves its mailbox empty; after
every further run `p` is outside the live set with an empty mailbox, and the
whole run has deposited into the mailbox of `p` exactly once more than the run
up to the first of these iterations. -/
theorem failing_writer_one_deposit (q : Nat) (hq : 1 ≤ q) (acts : List Action) (s : Sys)
    (hrun : Sys.run q Sys.init acts = some s) (p : Nat) (hin : p ∈ s.clients)
    (hdie : (s.heap p).die = false) (hbuf : (s.heap p).data.buf = [])
    (hwpc : s.wpc p = WorkerPC.recv) (F1 F2 : Frame) (rest : List Action) :
    ∃ s1 s2 s3 s4, s.broacast F1 = some s1 ∧ (s1.heap p).data.buf = [F1]
      ∧ s1.step q (Action.workerRecv p) = some s2
      ∧ s2.step q (Action.workerWrite p false) = some s3
      ∧ (s3.heap p).die = true ∧ (s3.heap p).conn.written = (s.heap p).conn.written
      ∧ (s3.heap p).Send F2 = SendResult.ret (some Error.connDie) (s3.heap p)
      ∧ s3.broacast F2 = some s4 ∧ p ∉ s4.clients ∧ (s4.heap p).data.buf = []
      ∧ (∀ s5, Sys.run q s4 rest = some s5 → p ∉ s5.clients ∧ (s5.heap p).data.buf = [])
      ∧ Sys.deposits q p Sys.init
          (acts ++ ([Action.frame F1, Action.workerRecv p, Action.workerWrite p false,
            Action.frame F2] ++ rest))
          = Sys.deposits q p Sys.init acts + 1 := by
  have hinv := Sys.run_inv q hq acts Sys.init s (Sys.init_inv q) hrun
  have hlt : p < s.next := hinv.2.2.1 p hin
  -- the iteration for F1
  obtain ⟨s1, h1, hmem1, _, hemp1, _, hnext1, hw1, _, _, hlive1⟩ :=
    broacast_spec q hq s hinv F1
  have hinv1 := broacast_inv q hq s s1 hinv F1 h1
  have hsend1 := hlive1 p hin hdie
  obtain ⟨c1, hc1, hb1, _, hd1, hconn1⟩ := Send_live (s.heap p) F1 hdie
    (by rw [hinv.2.2.2.2.1 p hlt]; exact hq)
  rw [hc1] at hsend1
  have hc1eq : c1 = s1.heap p := by cases hsend1; rfl
  subst hc1eq
  rw [hbuf] at hb1
  have hb1 : (s1.heap p).data.buf = [F1] := hb1
  have hin1 : p ∈ s1.clients := (hmem1 p).2 (Or.inl ⟨hin, hdie⟩)
  have hlt1 : p < s1.next := by rw [hnext1]; exact hlt
  -- the worker receives F1 and the write fails
  obtain ⟨s2, h2, hcl2, hnc2, hnext2, hb2, hd2, hconn2, hw2⟩ :=
    Sys.step_workerRecv q s1 p F1 [] hlt1 (by rw [hw1]; exact hwpc) hb1
  have hinv2 := Sys.step_inv q hq s1 s2 _ hinv1 h2
  obtain ⟨s3, h3, hcl3, hnc3, hnext3, hdata3, hd3, hwr3, _, hw3⟩ :=
    Sys.step_workerWrite_fail q s2 p F1 (by rw [hnext2]; exact hlt1) hw2
  have hinv3 := Sys.step_inv q hq s2 s3 _ hinv2 h3
  have hin3 : p ∈ s3.clients := by rw [hcl3, hcl2]; exact hin1
  have hbuf3 : (s3.heap p).data.buf = [] := by rw [hdata3]; exact hb2
  -- the iteration for F2
  obtain ⟨s4, h4, hmem4, _, hemp4, _, hnext4, hw4, _, hdead4, _⟩ :=
    broacast_spec q hq s3 hinv3 F2
  have hinv4 := broacast_inv q hq s3 s4 hinv3 F2 h4
  have hsame4 := hdead4 p hin3 hd3
  have hnin4 : p ∉ s4.clients := by
    rw [hmem4 p]
    rintro (⟨_, hd⟩ | hn)
    · rw [hd3] at hd; cases hd
    · rw [hnc3, hnc2, hemp1] at hn
      cases hn
  have hgone : s4.Gone p := by
    refine ⟨by rw [hnext4, hnext3, hnext2]; exact hlt1, hnin4,
      by rw [hemp4]; exact List.not_mem_nil p,
      by rw [hsame4]; exact hd3, by rw [hsame4]; exact hbuf3, Or.inl ?_⟩
    rw [hw4]
    exact hw3
  obtain ⟨hdep, hall⟩ := Sys.run_gone q hq p rest s4 hinv4 hgone
  refine ⟨s1, s2, s3, s4, h1, hb1, h2, h3, hd3, ?_, Send_die _ F2 hd3, h4, hnin4,
    by rw [hsame4]; exact hbuf3, fun s5 h5 => ?_, ?_⟩
  · rw [hwr3, hconn2, hconn1]
  · obtain ⟨_, hg5⟩ := hall s5 h5
    exact ⟨hg5.2.1, hg5.2.2.2.2.1⟩
  · rw [Sys.deposits_append q p acts _ Sys.init s hrun]
    have hs1 : s.step q (Action.frame F1) = some s1 := h1
    have hs4 : s3.step q (Action.frame F2) = some s4 := h4
    simp only [List.cons_append, List.nil_append]
    rw [Sys.deposits_cons, hs1]
    simp only [hin, if_true, hc1]
    rw [Sys.deposits_skip q p _ _ _ _ h2 (Or.inl rfl),
      Sys.deposits_skip q p _ _ _ _ h3 (Or.inl rfl), Sys.deposits_cons, hs4]
    simp only [hin3, if_true, Send_die _ F2 hd3, hdep]

/-- C11 for client 0 after a connection and the iteration that admits it: the
iterations for `[1]` and `[2]` with the failing write in between, then two more
iterations, the return of the handler and another connection; one deposit in
the whole run. -/
theorem failing_writer_one_deposit_witness :
    (∃ s, Sys.run 1 Sys.init [Action.connect ⟨[], 0⟩, Action.frame [0]] = some s
      ∧ 0 ∈ s.clients
      ∧ ∃ s1 s2 s3 s4, s.broacast [1] = some s1 ∧ (s1.heap 0).data.buf = [[1]]
        ∧ s1.step 1 (Action.workerRecv 0) = some s2
        ∧ s2.step 1 (Action.workerWrite 0 false) = some s3
        ∧ (s3.heap 0).die = true ∧ (s3.heap 0).conn.written = (s.heap 0).conn.written
        ∧ (s3.heap 0).Send [2] = SendResult.ret (some Error.connDie) (s3.heap 0)
        ∧ s3.broacast [2] = some s4 ∧ 0 ∉ s4.clients ∧ (s4.heap 0).data.buf = []
        ∧ (∀ s5, Sys.run 1 s4 [Action.frame [3], Action.handlerReturn 0,
              Action.connect ⟨[], 0⟩, Action.frame [4]] = some s5 →
            0 ∉ s5.clients ∧ (s5.heap 0).data.buf = [])
        ∧ Sys.deposits 1 0 Sys.init
            ([Action.connect ⟨[], 0⟩, Action.frame [0]]
              ++ ([Action.frame [1], Action.workerRecv 0, Action.workerWrite 0 false,
                Action.frame [2]] ++ [Action.frame [3], Action.handlerReturn 0,
                Action.connect ⟨[], 0⟩, Action.frame [4]]))
            = Sys.deposits 1 0 Sys.init [Action.connect ⟨[], 0⟩, Action.frame [0]] + 1)
      ∧ Sys.deposits 1 0 Sys.init
          [Action.connect ⟨[], 0⟩, Action.frame [0], Action.frame [1], Action.workerRecv 0,
           Action.workerWrite 0 false, Action.frame [2], Action.frame [3],
           Action.handlerReturn 0, Action.connect ⟨[], 0⟩, Action.frame [4]] = 1
      ∧ (Sys.run 1 Sys.init
          [Action.connect ⟨[], 0⟩, Action.frame [0], Action.frame [1], Action.workerRecv 0,
           Action.workerWrite 0 false, Action.frame [2], Action.frame [3],
           Action.handlerReturn 0, Action.connect ⟨[], 0⟩, Action.frame [4]]).map
            (fun s => (s.clients, (s.heap 0).data.buf, (s.heap 0).conn.written))
          = some ([1], [], []) :=
  ⟨⟨_, rfl, by decide,
    failing_writer_one_deposit 1 (by decide) [Action.connect ⟨[], 0⟩, Action.frame [0]] _ rfl
      0 (by decide) rfl rfl rfl [1] [2]
      [Action.frame [3], Action.handlerReturn 0, Action.connect ⟨[], 0⟩, Action.frame [4]]⟩,
   by decide, by decide⟩

/-! ## What the worker writes is a subsequence of what `Send` was offered -/

theorem offered_cons (a : ClientAct) (as : List ClientAct) :
    offered (a :: as) = offered [a] ++ offered as := by
  cases a <;> rfl

/-- One step keeps the frames written since the start, the frame the worker
holds, the mailbox and the frame `Send` is about to deposit, in this order, a
subsequence of the frames offered so far. -/
theorem ClientSys.step_sublist (base : List Frame) (s s' : ClientSys) (a : ClientAct)
    (off : List Frame)
    (hinv : ∃ w, s.c.conn.written = base ++ w
      ∧ (w ++ s.worker.held ++ s.c.data.buf ++ s.sender.toList).Sublist off)
    (h : s.step a = some s') :
    ∃ w, s'.c.conn.written = base ++ w
      ∧ (w ++ s'.worker.held ++ s'.c.data.buf ++ s'.sender.toList).Sublist
          (off ++ offered [a]) := by
  obtain ⟨w, hw, hsub⟩ := hinv
  cases a with
  | sendEnter buf =>
    unfold ClientSys.step at h
    cases hs : s.sender with
    | some b => simp [hs] at h
    | none =>
      simp only [hs] at h
      rw [hs] at hsub
      split_ifs at h with hdie
      · cases h
        refine ⟨w, hw, ?_⟩
        rw [hs]
        exact hsub.trans (List.sublist_append_left _ _)
      · cases h
        refine ⟨w, hw, ?_⟩
        show (w ++ s.worker.held ++ s.c.data.drain.buf ++ [buf]).Sublist (off ++ [buf])
        rw [Chan.drain_buf]
        refine List.Sublist.append ?_ (List.Sublist.refl _)
        refine List.Sublist.trans ?_ hsub
        simp only [Option.toList, List.append_nil]
        exact List.Sublist.append (List.Sublist.refl _) (List.tail_sublist _)
  | sendDeposit =>
    unfold ClientSys.step at h
    cases hs : s.sender with
    | none => simp [hs] at h
    | some b =>
      simp only [hs] at h
      rw [hs] at hsub
      cases hsend : s.c.data.send b with
      | none => simp [hsend] at h
      | some ch =>
        simp only [hsend, Option.some.injEq] at h
        subst h
        obtain ⟨_, h2, _⟩ := Chan.send_eq_some _ _ _ hsend
        refine ⟨w, hw, ?_⟩
        show (w ++ s.worker.held ++ ch.buf ++ []).Sublist (off ++ offered [ClientAct.sendDeposit])
        rw [h2]
        simp only [offered, List.append_nil, ← List.append_assoc]
        simpa only [Option.toList, List.append_assoc] using hsub
  | workerRecv =>
    unfold ClientSys.step at h
    cases hwk : s.worker with
    | recv =>
      simp only [hwk] at h
      rw [hwk] at hsub
      cases hr : s.c.workerRecv with
      | none => simp [hr] at h
      | some bc =>
        obtain ⟨b, c'⟩ := bc
        simp only [hr, Option.some.injEq] at h
        subst h
        obtain ⟨h1, _, _, h4⟩ := workerRecv_eq_some _ _ _ hr
        refine ⟨w, by rw [h4]; exact hw, ?_⟩
        show (w ++ [b] ++ c'.data.buf ++ s.sender.toList).Sublist
          (off ++ offered [ClientAct.workerRecv])
        rw [h1] at hsub
        simp only [offered, List.append_nil]
        simpa only [WorkerPC.held, List.append_nil, List.append_assoc, List.singleton_append]
          using hsub
    | write b => simp [hwk] at h
    | exited => simp [hwk] at h
    | done => simp [hwk] at h
  | workerWrite ok =>
    unfold ClientSys.step at h
    cases hwk : s.worker with
    | write b =>
      simp only [hwk, Option.some.injEq] at h
      subst h
      rw [hwk] at hsub
      simp only [WorkerPC.held] at hsub
      cases ok with
      | true =>
        refine ⟨w ++ [b], ?_, ?_⟩
        · simp only [WsClient.workerWrite, if_true, hw, List.append_assoc]
        · simp only [WsClient.workerWrite, if_true, Bool.false_eq_true, if_false, WorkerPC.held,
            offered, List.append_nil]
          exact hsub
      | false =>
        refine ⟨w, ?_, ?_⟩
        · simp only [WsClient.workerWrite, Bool.false_eq_true, if_false, hw]
        · simp only [WsClient.workerWrite, Bool.false_eq_true, if_false, if_true, WorkerPC.held,
            offered, List.append_nil]
          refine List.Sublist.trans ?_ hsub
          simp only [List.append_assoc]
          exact List.Sublist.append (List.Sublist.refl _) (List.sublist_append_right _ _)
    | recv => simp [hwk] at h
    | exited => simp [hwk] at h
    | done => simp [hwk] at h

theorem ClientSys.run_sublist (base : List Frame) (acts : List ClientAct) :
    ∀ (s s' : ClientSys) (off : List Frame),
    (∃ w, s.c.conn.written = base ++ w
      ∧ (w ++ s.worker.held ++ s.c.data.buf ++ s.sender.toList).Sublist off) →
    s.run acts = some s' →
    ∃ w, s'.c.conn.written = base ++ w
      ∧ (w ++ s'.worker.held ++ s'.c.data.buf ++ s'.sender.toList).Sublist
          (off ++ offered acts) := by
  induction acts with
  | nil =>
    intro s s' off hinv h
    simp only [ClientSys.run, Option.some.injEq] at h
    subst h
    simpa only [offered, List.append_nil] using hinv
  | cons a as ih =>
    intro s s' off hinv h
    unfold ClientSys.run at h
    cases hs : s.step a with
    | none => simp [hs] at h
    | some s1 =>
      simp only [hs] at h
      rw [offered_cons, ← List.append_assoc]
      exact ih s1 s' _ (ClientSys.step_sublist base s s1 a off hinv hs) h

/-- C12. For every subscriber (every connection and mailbox capacity) and every
interleaving of steps of `Send` and of the worker from a new subscriber, the
frames the worker has written to the connection, in the order of the writes,
are a subsequence of the frames passed to `Send`, in the order of the calls: a
frame is written at most once per call that offered it, and never after a frame
offered later. -/
theorem written_subsequence (q : Nat) (conn : Conn) (acts : List ClientAct) (s : ClientSys)
    (hrun : (ClientSys.init conn q).run acts = some s) :
    ∃ w, s.c.conn.written = conn.written ++ w ∧ w.Sublist (offered acts) := by
  obtain ⟨w, hw, hsub⟩ := ClientSys.run_sublist conn.written acts (ClientSys.init conn q) s []
    ⟨[], by simp [ClientSys.init, NewWsClient],
      by simp [ClientSys.init, NewWsClient, Chan.make, WorkerPC.held]⟩ hrun
  have h2 : (w ++ (s.worker.held ++ (s.c.data.buf ++ s.sender.toList))).Sublist
      (offered acts) := by
    simpa only [List.append_assoc, List.nil_append] using hsub
  exact ⟨w, hw, (List.sublist_append_left _ _).trans h2⟩

/-- C12 at capacity 1: `Send [1]`, `Send [2]` before the worker receives, then
the worker writes, `Send [3]` and the worker writes again; the frames written
are `[2]`, `[3]` of the frames `[1]`, `[2]`, `[3]` offered. -/
theorem written_subsequence_witness :
    ∃ s, (ClientSys.init ⟨[], 0⟩ 1).run
        [ClientAct.sendEnter [1], ClientAct.sendDeposit, ClientAct.sendEnter [2],
         ClientAct.sendDeposit, ClientAct.workerRecv, ClientAct.workerWrite true,
         ClientAct.sendEnter [3], ClientAct.sendDeposit, ClientAct.workerRecv,
         ClientAct.workerWrite true] = some s
      ∧ s.c.conn.written = [[2], [3]]
      ∧ offered [ClientAct.sendEnter [1], ClientAct.sendDeposit, ClientAct.sendEnter [2],
         ClientAct.sendDeposit, ClientAct.workerRecv, ClientAct.workerWrite true,
         ClientAct.sendEnter [3], ClientAct.sendDeposit, ClientAct.workerRecv,
         ClientAct.workerWrite true] = [[1], [2], [3]]
      ∧ ∃ w, s.c.conn.written = [] ++ w
        ∧ w.Sublist (offered [ClientAct.sendEnter [1], ClientAct.sendDeposit,
            ClientAct.sendEnter [2], ClientAct.sendDeposit, ClientAct.workerRecv,
            ClientAct.workerWrite true, ClientAct.sendEnter [3], ClientAct.sendDeposit,
            ClientAct.workerRecv, ClientAct.workerWrite true]) :=
  ⟨_, rfl, rfl, rfl,
    written_subsequence 1 ⟨[], 0⟩
      [ClientAct.sendEnter [1], ClientAct.sendDeposit, ClientAct.sendEnter [2],
       ClientAct.sendDeposit, ClientAct.workerRecv, ClientAct.workerWrite true,
       ClientAct.sendEnter [3], ClientAct.sendDeposit, ClientAct.workerRecv,
       ClientAct.workerWrite true] _ rfl⟩

/-! ## How often the connection is closed -/

/-- Every step keeps the count of `Close` calls on the connection of an
allocated client in line with the place where its handler stands. -/
theorem Sys.step_closes (q : Nat) (hq : 1 ≤ q) (s s' : Sys) (a : Action) (hinv : s.Inv q)
    (h : s.step q a = some s') (p c0 : Nat) (hlt : p < s.next)
    (hk : (s.heap p).conn.closes = c0 + (s.wpc p).closeCalls) :
    p < s'.next ∧ (s'.heap p).conn.closes = c0 + (s'.wpc p).closeCalls := by
  cases a with
  | frame data =>
    obtain ⟨s1, h1, _, _, _, _, hnext, hw, hout, hdead, hlive⟩ := broacast_spec q hq s hinv data
    simp only [Sys.step] at h
    rw [h] at h1
    cases h1
    refine ⟨by rw [hnext]; exact hlt, ?_⟩
    rw [hw]
    by_cases hin : p ∈ s.clients
    · cases hd : (s.heap p).die with
      | true => rw [hdead p hin hd]; exact hk
      | false =>
        obtain ⟨c', hc', _, _, _, hconn⟩ := Send_live (s.heap p) data hd
          (by rw [hinv.2.2.2.2.1 p hlt]; exact hq)
        have hs := hlive p hin hd
        rw [hc'] at hs
        have : c' = s'.heap p := by cases hs; rfl
        subst this
        rw [hconn]
        exact hk
    · rw [hout p hin]; exact hk
  | connect conn =>
    simp only [Sys.step, Sys.connect] at h
    cases hsend : s.newclients.send s.next with
    | none => simp [hsend] at h
    | some ch =>
      simp only [hsend, Option.some.injEq] at h
      subst h
      have hne : p ≠ s.next := by omega
      show p < s.next + 1
        ∧ (Function.update s.heap s.next (NewWsClient conn q) p).conn.closes
          = c0 + (Function.update s.wpc s.next WorkerPC.recv p).closeCalls
      rw [Function.update_noteq hne, Function.update_noteq hne]
      exact ⟨by omega, hk⟩
  | workerRecv p' =>
    simp only [Sys.step] at h
    split_ifs at h with hp
    cases hw : s.wpc p' with
    | recv =>
      simp only [hw] at h
      cases hr : (s.heap p').workerRecv with
      | none => simp [hr] at h
      | some bc =>
        obtain ⟨b, c'⟩ := bc
        simp only [hr, Option.some.injEq] at h
        subst h
        obtain ⟨_, _, _, hconn⟩ := workerRecv_eq_some _ _ _ hr
        show p < s.next ∧ (Function.update s.heap p' c' p).conn.closes
          = c0 + (Function.update s.wpc p' (WorkerPC.write b) p).closeCalls
        by_cases hne : p = p'
        · subst hne
          rw [Function.update_same, Function.update_same, hconn, hk, hw]
          exact ⟨hlt, rfl⟩
        · rw [Function.update_noteq hne, Function.update_noteq hne]
          exact ⟨hlt, hk⟩
    | write b => simp [hw] at h
    | exited => simp [hw] at h
    | done => simp [hw] at h
  | workerWrite p' ok =>
    simp only [Sys.step] at h
    split_ifs at h with hp
    cases hw : s.wpc p' with
    | write b =>
      simp only [hw, Option.some.injEq] at h
      subst h
      show p < s.next ∧ (Function.update s.heap p' _ p).conn.closes
        = c0 + (Function.update s.wpc p' _ p).closeCalls
      by_cases hne : p = p'
      · subst hne
        rw [Function.update_same, Function.update_same]
        rw [hw] at hk
        cases ok with
        | true =>
          simp only [WsClient.workerWrite, if_true, Bool.false_eq_true, if_false]
          exact ⟨hlt, hk⟩
        | false =>
          simp only [WsClient.workerWrite, Bool.false_eq_true, if_false, if_true, hk]
          exact ⟨hlt, rfl⟩
      · rw [Function.update_noteq hne, Function.update_noteq hne]
        exact ⟨hlt, hk⟩
    | recv => simp [hw] at h
    | exited => simp [hw] at h
    | done => simp [hw] at h
  | handlerReturn p' =>
    simp only [Sys.step] at h
    split_ifs at h with hp
    cases hw : s.wpc p' with
    | exited =>
      simp only [hw, Option.some.injEq] at h
      subst h
      show p < s.next ∧ (Function.update s.heap p' _ p).conn.closes
        = c0 + (Function.update s.wpc p' _ p).closeCalls
      by_cases hne : p = p'
      · subst hne
        rw [Function.update_same, Function.update_same]
        rw [hw] at hk
        simp only [WsClient.handlerClose, hk]
        exact ⟨hlt, rfl⟩
      · rw [Function.update_noteq hne, Function.update_noteq hne]
        exact ⟨hlt, hk⟩
    | recv => simp [hw] at h
    | write b => simp [hw] at h
    | done => simp [hw] at h

theorem Sys.run_closes (q : Nat) (hq : 1 ≤ q) (p c0 : Nat) (acts : List Action) :
    ∀ (s s' : Sys), s.Inv q → p < s.next →
      (s.heap p).conn.closes = c0 + (s.wpc p).closeCalls → Sys.run q s acts = some s' →
      (s'.heap p).conn.closes = c0 + (s'.wpc p).closeCalls := by
  induction acts with
  | nil =>
    intro s s' _ _ hk h
    simp only [Sys.run, Option.some.injEq] at h
    subst h
    exact hk
  | cons a as ih =>
    intro s s' hinv hlt hk h
    unfold Sys.run at h
    cases hs : s.step q a with
    | none => rw [hs] at h; cases h
    | some s1 =>
      rw [hs] at h
      obtain ⟨hlt1, hk1⟩ := Sys.step_closes q hq s s1 a hinv hs p c0 hlt hk
      exact ih s1 s' (Sys.step_inv q hq s s1 a hinv hs) hlt1 hk1 h

/-- C13, as the code has it. For every client that `wsHandler` creates in a
state the relay reaches (mailbox capacity `q ≥ 1`) and every run after that:
while the worker runs, `Close` has not been called on its connection; after the
return of `worker`, which follows its first failed write, it has been called
once; after the return of `wsHandler` it has been called exactly twice, once by
`worker` and once by the deferred call. -/
theorem close_called_twice (q : Nat) (hq : 1 ≤ q) (acts : List Action) (s : Sys)
    (hrun : Sys.run q Sys.init acts = some s) (conn : Conn) (s0 : Sys)
    (hconn : s.connect q conn = some s0) (rest : List Action) (s' : Sys)
    (hrest : Sys.run q s0 rest = some s') :
    (s'.heap s.next).conn.closes = conn.closes + (s'.wpc s.next).closeCalls
      ∧ (s'.wpc s.next = WorkerPC.done → (s'.heap s.next).conn.closes = conn.closes + 2) := by
  have hinv := Sys.run_inv q hq acts Sys.init s (Sys.init_inv q) hrun
  have hinv0 := connect_inv q s s0 hinv conn hconn
  have h0 : s0.next = s.next + 1 ∧ s0.heap s.next = NewWsClient conn q
      ∧ s0.wpc s.next = WorkerPC.recv := by
    unfold Sys.connect at hconn
    cases hsend : s.newclients.send s.next with
    | none => simp [hsend] at hconn
    | some ch =>
      simp only [hsend, Option.some.injEq] at hconn
      subst hconn
      exact ⟨rfl, Function.update_same _ _ _, Function.update_same _ _ _⟩
  obtain ⟨hn0, hh0, hw0⟩ := h0
  have key := Sys.run_closes q hq s.next conn.closes rest s0 s' hinv0 (by omega)
    (by rw [hh0, hw0]; rfl) hrest
  refine ⟨key, fun hd => ?_⟩
  rw [key, hd]
  rfl

/-- C13, as the code has it, for the first client: connection, admission, a
deposit, the failed write and the return of the handler; `Close` has been
called twice. -/
theorem close_called_twice_witness :
    ∃ s0 s', Sys.init.connect 1 ⟨[], 0⟩ = some s0
      ∧ Sys.run 1 s0 [Action.frame [0], Action.frame [1], Action.workerRecv 0,
          Action.workerWrite 0 false, Action.handlerReturn 0] = some s'
      ∧ s'.wpc 0 = WorkerPC.done
      ∧ (s'.heap Sys.init.next).conn.closes
          = (⟨[], 0⟩ : Conn).closes + (s'.wpc Sys.init.next).closeCalls
      ∧ (s'.wpc Sys.init.next = WorkerPC.done →
          (s'.heap Sys.init.next).conn.closes = (⟨[], 0⟩ : Conn).closes + 2) :=
  ⟨_, _, rfl, rfl, rfl,
    close_called_twice 1 (by decide) [] Sys.init rfl ⟨[], 0⟩ _ rfl
      [Action.frame [0], Action.frame [1], Action.workerRecv 0,
       Action.workerWrite 0 false, Action.handlerReturn 0] _ rfl⟩

/-- C13 fails: in the lifecycle of the first client (upgrade and registration,
admission, a deposit, the first write fails, the handler returns) `Close` is
called twice on its connection, not once. -/
theorem close_not_once :
    (Sys.run 1 Sys.init [Action.connect ⟨[], 0⟩, Action.frame [0], Action.frame [1],
        Action.workerRecv 0, Action.workerWrite 0 false, Action.handlerReturn 0]).map
      (fun s => ((s.heap 0).conn.closes, s.wpc 0)) = some (2, WorkerPC.done) := by
  decide

/-! ## The decoders do not look at what the scratch buffer held -/

theorem ReadFull_length_le (r r' : Reader) (k : Nat) (p : List Byte) (e : Option Error)
    (h : ReadFull r k = (p, e, r')) : p.length ≤ k := by
  unfold ReadFull at h
  dsimp only at h
  split_ifs at h <;>
    (cases h; rw [List.length_take]; exact Nat.min_le_left _ _)

/-- Copying `s` behind a prefix `w` that has already been written over the
front of `buf`. -/
theorem copyAt_behind (w buf s : List Byte) (k : Nat) (hk : w.length = k)
    (hs : k + s.length ≤ buf.length) :
    copyAt (w ++ buf.drop k) k s = (w ++ s) ++ buf.drop (s.length + k) := by
  have := copyAt_append w (buf.drop k) s (by rw [List.length_drop]; omega)
  rw [hk, List.drop_drop, Nat.add_comm k s.length] at this
  exact this

/-- The function `readPNGChunk` on all buffers of one length: it panics on all
of them, or it returns the same count, type, error and reader on all of them,
having written the same bytes over the front of the buffer and nothing else. -/
theorem readPNGChunk_shape (r : Reader) (len : Nat) :
    (∀ buf : List Byte, buf.length = len → readPNGChunk r buf = Outcome.panic)
    ∨ ∃ (n : Nat) (w t : List Byte) (e : Option Error) (r' : Reader),
        w.length = n ∧ n ≤ len ∧
        ∀ buf : List Byte, buf.length = len →
          readPNGChunk r buf = Outcome.ret ⟨n, t, e, w ++ buf.drop n, r'⟩ := by
  by_cases l0 : len < 4
  · left
    intro buf hb
    unfold readPNGChunk
    rw [if_pos (by omega)]
  cases hr : ReadFull r 4 with
  | mk p er =>
    obtain ⟨e, r1⟩ := er
    have hp := ReadFull_length_le _ _ _ _ _ hr
    cases e with
    | some e =>
      right
      refine ⟨p.length, p, [], some e, r1, rfl, by omega, fun buf hb => ?_⟩
      unfold readPNGChunk
      rw [if_neg (by omega), hr]
      dsimp only
      rw [copyAt_zero buf p (by omega)]
    | none =>
      have hp4 := ReadFull_none_length _ _ _ _ hr
      have hA : ∀ buf : List Byte, buf.length = len → copyAt buf 0 p = p ++ buf.drop 4 := by
        intro buf hb
        rw [copyAt_zero buf p (by omega), hp4]
      have hAl : ∀ buf : List Byte, buf.length = len → (p ++ buf.drop 4).length = len := by
        intro buf hb
        rw [List.length_append, List.length_drop]
        omega
      by_cases l1 : len < 8
      · left
        intro buf hb
        unfold readPNGChunk
        rw [if_neg (by omega), hr]
        dsimp only
        rw [hA buf hb, if_pos (by rw [hAl buf hb]; omega)]
      cases hr2 : ReadFull r1 4 with
      | mk p2 er2 =>
        obtain ⟨e2, r2⟩ := er2
        have hp2 := ReadFull_length_le _ _ _ _ _ hr2
        cases e2 with
        | some e2 =>
          right
          refine ⟨p2.length + 4, p ++ p2, [], some e2, r2,
            by rw [List.length_append]; omega, by omega, fun buf hb => ?_⟩
          unfold readPNGChunk
          rw [if_neg (by omega), hr]
          dsimp only
          rw [hA buf hb, if_neg (by rw [hAl buf hb]; omega), hr2]
          dsimp only
          rw [copyAt_behind p buf p2 4 hp4 (by omega)]
        | none =>
          have hp24 := ReadFull_none_length _ _ _ _ hr2
          have hB : ∀ buf : List Byte, buf.length = len →
              copyAt (p ++ buf.drop 4) 4 p2 = (p ++ p2) ++ buf.drop 8 := by
            intro buf hb
            rw [copyAt_behind p buf p2 4 hp4 (by omega), hp24]
          have hBl : ∀ buf : List Byte, buf.length = len →
              ((p ++ p2) ++ buf.drop 8).length = len := by
            intro buf hb
            rw [List.length_append, List.length_append, List.length_drop]
            omega
          by_cases l2 : ((Uint32 p + 4 + 4) % 2 ^ 32 + 4) % 2 ^ 32 < 4 + 4
              ∨ len < ((Uint32 p + 4 + 4) % 2 ^ 32 + 4) % 2 ^ 32
          · left
            intro buf hb
            unfold readPNGChunk
            rw [if_neg (by omega), hr]
            dsimp only
            rw [hA buf hb, if_neg (by rw [hAl buf hb]; omega), hr2]
            dsimp only
            rw [hB buf hb, List.take_left' hp4, hBl buf hb, if_pos l2]
          cases hr3 : ReadFull r2 (((Uint32 p + 4 + 4) % 2 ^ 32 + 4) % 2 ^ 32 - (4 + 4)) with
          | mk p3 er3 =>
            obtain ⟨e3, r3⟩ := er3
            have hp3 := ReadFull_length_le _ _ _ _ _ hr3
            have hlen8 : (p ++ p2).length = 8 := by rw [List.length_append]; omega
            right
            refine ⟨p3.length + 8, (p ++ p2) ++ p3, p2, e3, r3,
              by rw [List.length_append, hlen8]; omega, by omega, fun buf hb => ?_⟩
            unfold readPNGChunk
            rw [if_neg (by omega), hr]
            dsimp only
            rw [hA buf hb, if_neg (by rw [hAl buf hb]; omega), hr2]
            dsimp only
            rw [hB buf hb, List.take_left' hp4, hBl buf hb, if_neg l2, hr3]
            dsimp only
            rw [copyAt_behind (p ++ p2) buf p3 8 hlen8 (by omega)]
            have ht : ((p ++ p2 ++ p3 ++ buf.drop (p3.length + 8)).drop 4).take 4 = p2 := by
              rw [List.append_assoc, List.append_assoc, List.drop_left' hp4,
                List.take_left' hp24]
            rw [ht]

/-- The loop of `readPNG` on all buffers of one length that agree on the bytes
accumulated so far. -/
theorem pngLoop_shape (fuel : Nat) : ∀ (r : Reader) (done : List Byte) (len : Nat),
    (∀ junk : List Byte, junk.length = len →
        pngLoop fuel r (done ++ junk) done.length = Outcome.panic)
    ∨ (∀ junk : List Byte, junk.length = len →
        pngLoop fuel r (done ++ junk) done.length = Outcome.diverge)
    ∨ ∃ (n : Nat) (w : List Byte) (e : Option Error) (r' : Reader),
        w.length = n ∧ n ≤ len ∧
        ∀ junk : List Byte, junk.length = len →
          pngLoop fuel r (done ++ junk) done.length
            = Outcome.ret ⟨done.length + n, e, done ++ (w ++ junk.drop n), r'⟩ := by
  induction fuel with
  | zero =>
    intro r done len
    right; left
    intro junk _
    rfl
  | succ fuel ih =>
    intro r done len
    have l0 : ∀ junk : List Byte, ¬ (done ++ junk).length < done.length := by
      intro junk
      rw [List.length_append]; omega
    rcases readPNGChunk_shape r len with hpanic | ⟨n, w, t, e, r', hw, hn, hret⟩
    · left
      intro junk hj
      rw [pngLoop, if_neg (l0 junk), List.drop_left, hpanic junk hj]
    · cases e with
      | some e =>
        right; right
        refine ⟨n, w, some e, r', hw, hn, fun junk hj => ?_⟩
        rw [pngLoop, if_neg (l0 junk), List.drop_left, hret junk hj]
        dsimp only
        rw [List.take_left]
      | none =>
        by_cases ht : t = IEND
        · right; right
          refine ⟨n, w, none, r', hw, hn, fun junk hj => ?_⟩
          rw [pngLoop, if_neg (l0 junk), List.drop_left, hret junk hj]
          dsimp only
          rw [List.take_left, if_pos ht]
        · have hstep : ∀ junk : List Byte, junk.length = len →
              pngLoop (fuel + 1) r (done ++ junk) done.length
                = pngLoop fuel r' ((done ++ w) ++ junk.drop n) (done ++ w).length := by
            intro junk hj
            rw [pngLoop, if_neg (l0 junk), List.drop_left, hret junk hj]
            dsimp only
            rw [List.take_left, if_neg ht, List.length_append, hw, List.append_assoc]
          have hjl : ∀ junk : List Byte, junk.length = len → (junk.drop n).length = len - n := by
            intro junk hj
            rw [List.length_drop, hj]
          rcases ih r' (done ++ w) (len - n) with hp | hd | ⟨n', w', e', r'', hw', hn', hret'⟩
          · left
            intro junk hj
            rw [hstep junk hj, hp _ (hjl junk hj)]
          · right; left
            intro junk hj
            rw [hstep junk hj, hd _ (hjl junk hj)]
          · right; right
            refine ⟨n + n', w ++ w', e', r'', by rw [List.length_append, hw, hw'], by omega,
              fun junk hj => ?_⟩
            rw [hstep junk hj, hret' _ (hjl junk hj), List.length_append, hw, List.drop_drop,
              Nat.add_assoc, List.append_assoc, List.append_assoc]

/-- The function `readPNG` on all buffers of one length: it panics on all of
them, or it returns the same count, error and reader on all of them, having
written the same bytes over the front of the buffer and nothing else. -/
theorem readPNG_shape (r : Reader) (len : Nat) :
    (∀ buf : List Byte, buf.length = len → readPNG r buf = Outcome.panic)
    ∨ ∃ (n : Nat) (w : List Byte) (e : Option Error) (r' : Reader),
        w.length = n ∧ n ≤ len ∧
        ∀ buf : List Byte, buf.length = len →
          readPNG r buf = Outcome.ret ⟨n, e, w ++ buf.drop n, r'⟩ := by
  by_cases l0 : len < 8
  · left
    intro buf hb
    unfold readPNG
    rw [if_pos (by omega)]
  cases hr : ReadFull r 8 with
  | mk p er =>
    obtain ⟨e, r1⟩ := er
    have hp := ReadFull_length_le _ _ _ _ _ hr
    cases e with
    | some e =>
      right
      refine ⟨p.length, p, some e, r1, rfl, by omega, fun buf hb => ?_⟩
      unfold readPNG
      rw [if_neg (by omega), hr]
      dsimp only
      rw [copyAt_zero buf p (by omega)]
    | none =>
      have hp8 := ReadFull_none_length _ _ _ _ hr
      have hA : ∀ buf : List Byte, buf.length = len → copyAt buf 0 p = p ++ buf.drop 8 := by
        intro buf hb
        rw [copyAt_zero buf p (by omega), hp8]
      by_cases hsig : p = PNGSIG
      · have hstep : ∀ buf : List Byte, buf.length = len →
            readPNG r buf = pngLoop (r1.rest.length + 1) r1 (p ++ buf.drop 8) p.length := by
          intro buf hb
          unfold readPNG
          rw [if_neg (by omega), hr]
          dsimp only
          rw [hA buf hb, List.take_left' hp8, if_neg (not_not.2 hsig), hp8]
        have hjl : ∀ buf : List Byte, buf.length = len → (buf.drop 8).length = len - 8 := by
          intro buf hb
          rw [List.length_drop, hb]
        rcases pngLoop_shape (r1.rest.length + 1) r1 p (len - 8) with
          hpn | hd | ⟨n', w', e', r'', hw', hn', hret'⟩
        · left
          intro buf hb
          rw [hstep buf hb, hpn _ (hjl buf hb)]
        · exfalso
          have hb : (List.replicate len (0 : Byte)).length = len := List.length_replicate _ _
          have := hd _ (hjl _ hb)
          rw [← hstep _ hb] at this
          exact readPNG_total r _ this
        · right
          refine ⟨8 + n', p ++ w', e', r'', by rw [List.length_append, hp8, hw'], by omega,
            fun buf hb => ?_⟩
          rw [hstep buf hb, hret' _ (hjl buf hb), hp8, List.drop_drop, List.append_assoc]
      · right
        refine ⟨8, p, some Error.mayNotPNG, r1, hp8, by omega, fun buf hb => ?_⟩
        unfold readPNG
        rw [if_neg (by omega), hr]
        dsimp only
        rw [hA buf hb, List.take_left' hp8, if_pos hsig]

/-- The loop of `readJPG` on all buffers of one length that agree on the bytes
accumulated so far. -/
theorem jpgLoop_shape (fuel : Nat) : ∀ (r : Reader) (done : List Byte) (len : Nat),
    (∀ junk : List Byte, junk.length = len →
        jpgLoop fuel r (done ++ junk) done.length = Outcome.panic)
    ∨ (∀ junk : List Byte, junk.length = len →
        jpgLoop fuel r (done ++ junk) done.length = Outcome.diverge)
    ∨ ∃ (n : Nat) (w : List Byte) (e : Option Error) (r' : Reader),
        w.length = n ∧ n ≤ len ∧
        ∀ junk : List Byte, junk.length = len →
          jpgLoop fuel r (done ++ junk) done.length
            = Outcome.ret ⟨done.length + n, e, done ++ (w ++ junk.drop n), r'⟩ := by
  induction fuel with
  | zero =>
    intro r done len
    right; left
    intro junk _
    rfl
  | succ fuel ih =>
    intro r done len
    have l0 : ∀ junk : List Byte, ¬ (done ++ junk).length < done.length := by
      intro junk
      rw [List.length_append]; omega
    cases hr : ReadSlice r 0xD9 with
    | mk s er =>
      obtain ⟨e, r'⟩ := er
      cases e with
      | some err =>
        right; right
        refine ⟨0, [], some err, r', rfl, Nat.zero_le _, fun junk _ => ?_⟩
        rw [jpgLoop, hr]
        rfl
      | none =>
        by_cases hfit : s.length ≤ len
        · have hc : ∀ junk : List Byte, junk.length = len →
              copyAt (done ++ junk) done.length s = (done ++ s) ++ junk.drop s.length := by
            intro junk hj
            exact copyAt_append done junk s (by omega)
          have hcl : ∀ junk : List Byte, junk.length = len →
              ¬ ((done ++ s) ++ junk.drop s.length).length < done.length + s.length := by
            intro junk hj
            rw [List.length_append, List.length_append]
            omega
          have hds : (done ++ s).length = done.length + s.length := List.length_append _ _
          by_cases hsuf : HasSuffix (done ++ s) EOI = true
          · right; right
            refine ⟨s.length, s, none, r', rfl, hfit, fun junk hj => ?_⟩
            rw [jpgLoop, hr]
            dsimp only
            rw [if_neg (l0 junk), hc junk hj, if_neg (hcl junk hj), List.take_left' hds,
              if_pos hsuf, List.append_assoc]
          · have hstep : ∀ junk : List Byte, junk.length = len →
                jpgLoop (fuel + 1) r (done ++ junk) done.length
                  = jpgLoop fuel r' ((done ++ s) ++ junk.drop s.length) (done ++ s).length := by
              intro junk hj
              rw [jpgLoop, hr]
              dsimp only
              rw [if_neg (l0 junk), hc junk hj, if_neg (hcl junk hj), List.take_left' hds,
                if_neg hsuf, hds]
            have hjl : ∀ junk : List Byte, junk.length = len →
                (junk.drop s.length).length = len - s.length := by
              intro junk hj
              rw [List.length_drop, hj]
            rcases ih r' (done ++ s) (len - s.length) with
              hp | hd | ⟨n', w', e', r'', hw', hn', hret'⟩
            · left
              intro junk hj
              rw [hstep junk hj, hp _ (hjl junk hj)]
            · right; left
              intro junk hj
              rw [hstep junk hj, hd _ (hjl junk hj)]
            · right; right
              refine ⟨s.length + n', s ++ w', e', r'', by rw [List.length_append, hw'],
                by omega, fun junk hj => ?_⟩
              rw [hstep junk hj, hret' _ (hjl junk hj), hds, List.drop_drop,
                Nat.add_assoc, List.append_assoc, List.append_assoc]
        · left
          intro junk hj
          rw [jpgLoop, hr]
          dsimp only
          rw [if_neg (l0 junk), if_pos]
          rw [copyAt_length _ _ _ (by rw [List.length_append]; omega), List.length_append]
          omega

/-- The function `readJPG` on all buffers of one length: it panics on all of
them, or it returns the same count, error and reader on all of them, having
written the same bytes over the front of the buffer and nothing else. -/
theorem readJPG_shape (r : Reader) (len : Nat) :
    (∀ buf : List Byte, buf.length = len → readJPG r buf = Outcome.panic)
    ∨ ∃ (n : Nat) (w : List Byte) (e : Option Error) (r' : Reader),
        w.length = n ∧ n ≤ len ∧
        ∀ buf : List Byte, buf.length = len →
          readJPG r buf = Outcome.ret ⟨n, e, w ++ buf.drop n, r'⟩ := by
  by_cases l0 : len < 2
  · left
    intro buf hb
    unfold readJPG
    rw [if_pos (by omega)]
  cases hr : ReadFull r 2 with
  | mk p er =>
    obtain ⟨e, r1⟩ := er
    have hp := ReadFull_length_le _ _ _ _ _ hr
    cases e with
    | some e =>
      right
      refine ⟨p.length, p, some e, r1, rfl, by omega, fun buf hb => ?_⟩
      unfold readJPG
      rw [if_neg (by omega), hr]
      dsimp only
      rw [copyAt_zero buf p (by omega)]
    | none =>
      have hp2 := ReadFull_none_length _ _ _ _ hr
      have hA : ∀ buf : List Byte, buf.length = len → copyAt buf 0 p = p ++ buf.drop 2 := by
        intro buf hb
        rw [copyAt_zero buf p (by omega), hp2]
      by_cases hsig : p = SOI
      · have hstep : ∀ buf : List Byte, buf.length = len →
            readJPG r buf = jpgLoop (r1.rest.length + 1) r1 (p ++ buf.drop 2) p.length := by
          intro buf hb
          unfold readJPG
          rw [if_neg (by omega), hr]
          dsimp only
          rw [hA buf hb, List.take_left' hp2, if_neg (not_not.2 hsig), hp2]
        have hjl : ∀ buf : List Byte, buf.length = len → (buf.drop 2).length = len - 2 := by
          intro buf hb
          rw [List.length_drop, hb]
        rcases jpgLoop_shape (r1.rest.length + 1) r1 p (len - 2) with
          hpn | hd | ⟨n', w', e', r'', hw', hn', hret'⟩
        · left
          intro buf hb
          rw [hstep buf hb, hpn _ (hjl buf hb)]
        · exfalso
          have hb : (List.replicate len (0 : Byte)).length = len := List.length_replicate _ _
          have := hd _ (hjl _ hb)
          rw [← hstep _ hb] at this
          exact readJPG_total r _ this
        · right
          refine ⟨2 + n', p ++ w', e', r'', by rw [List.length_append, hp2, hw'], by omega,
            fun buf hb => ?_⟩
          rw [hstep buf hb, hret' _ (hjl buf hb), hp2, List.drop_drop, List.append_assoc]
      · right
        refine ⟨2, p, some Error.mayNotJPG, r1, hp2, by omega, fun buf hb => ?_⟩
        unfold readJPG
        rw [if_neg (by omega), hr]
        dsimp only
        rw [hA buf hb, List.take_left' hp2, if_pos hsig]

/-- C18. The decoders are stateless with respect to the scratch buffer: for
every reader and every two scratch buffers of the same length, whatever they
hold, `readJPG` ends the same way on both (it panics on both, or it returns on
both), and when it returns, it returns the same count `n` and the same error,
leaves the same bytes in `buf[:n]` and leaves the same reader, so it has
consumed the same bytes of the stream; and the same holds of `readPNG`. -/
theorem scratch_contents_irrelevant (r : Reader) (buf1 buf2 : List Byte)
    (hlen : buf1.length = buf2.length) :
    ((readJPG r buf1 = Outcome.panic ∧ readJPG r buf2 = Outcome.panic)
      ∨ ∃ x1 x2, readJPG r buf1 = Outcome.ret x1 ∧ readJPG r buf2 = Outcome.ret x2
          ∧ x1.n = x2.n ∧ x1.err = x2.err ∧ x1.r = x2.r ∧ x1.n ≤ buf1.length
          ∧ x1.buf.take x1.n = x2.buf.take x2.n)
    ∧ ((readPNG r buf1 = Outcome.panic ∧ readPNG r buf2 = Outcome.panic)
      ∨ ∃ x1 x2, readPNG r buf1 = Outcome.ret x1 ∧ readPNG r buf2 = Outcome.ret x2
          ∧ x1.n = x2.n ∧ x1.err = x2.err ∧ x1.r = x2.r ∧ x1.n ≤ buf1.length
          ∧ x1.buf.take x1.n = x2.buf.take x2.n) := by
  constructor
  · rcases readJPG_shape r buf2.length with hp | ⟨n, w, e, r', hw, hn, hret⟩
    · exact Or.inl ⟨hp buf1 hlen, hp buf2 rfl⟩
    · refine Or.inr ⟨_, _, hret buf1 hlen, hret buf2 rfl, rfl, rfl, rfl, (by rw [hlen]; exact hn), ?_⟩
      show (w ++ buf1.drop n).take n = (w ++ buf2.drop n).take n
      rw [List.take_left' hw, List.take_left' hw]
  · rcases readPNG_shape r buf2.length with hp | ⟨n, w, e, r', hw, hn, hret⟩
    · exact Or.inl ⟨hp buf1 hlen, hp buf2 rfl⟩
    · refine Or.inr ⟨_, _, hret buf1 hlen, hret buf2 rfl, rfl, rfl, rfl, (by rw [hlen]; exact hn), ?_⟩
      show (w ++ buf1.drop n).take n = (w ++ buf2.drop n).take n
      rw [List.take_left' hw, List.take_left' hw]

/-- C18 on a stream that holds a format-A frame and two more bytes, with an
8-byte scratch buffer of zeros and one that holds other bytes: both calls of
`readJPG` return 5 and leave the frame in `buf[:5]` and the two bytes in the
reader, and both calls of `readPNG` return 8 with the error `may not PNG image`;
what lies behind the count in each buffer is what the buffer held. -/
theorem scratch_contents_irrelevant_witness :
    ([0, 0, 0, 0, 0, 0, 0, 0] : List Byte).length
        = ([1, 2, 3, 4, 5, 6, 7, 8] : List Byte).length
      ∧ (((readJPG ⟨[0xFF, 0xD8, 7, 0xFF, 0xD9, 0xFF, 0xD8, 9], 16⟩ [0, 0, 0, 0, 0, 0, 0, 0]
            = Outcome.panic
          ∧ readJPG ⟨[0xFF, 0xD8, 7, 0xFF, 0xD9, 0xFF, 0xD8, 9], 16⟩ [1, 2, 3, 4, 5, 6, 7, 8]
            = Outcome.panic)
        ∨ ∃ x1 x2,
            readJPG ⟨[0xFF, 0xD8, 7, 0xFF, 0xD9, 0xFF, 0xD8, 9], 16⟩ [0, 0, 0, 0, 0, 0, 0, 0]
              = Outcome.ret x1
            ∧ readJPG ⟨[0xFF, 0xD8, 7, 0xFF, 0xD9, 0xFF, 0xD8, 9], 16⟩ [1, 2, 3, 4, 5, 6, 7, 8]
              = Outcome.ret x2
            ∧ x1.n = x2.n ∧ x1.err = x2.err ∧ x1.r = x2.r
            ∧ x1.n ≤ ([0, 0, 0, 0, 0, 0, 0, 0] : List Byte).length
            ∧ x1.buf.take x1.n = x2.buf.take x2.n)
      ∧ ((readPNG ⟨[0xFF, 0xD8, 7, 0xFF, 0xD9, 0xFF, 0xD8, 9], 16⟩ [0, 0, 0, 0, 0, 0, 0, 0]
            = Outcome.panic
          ∧ readPNG ⟨[0xFF, 0xD8, 7, 0xFF, 0xD9, 0xFF, 0xD8, 9], 16⟩ [1, 2, 3, 4, 5, 6, 7, 8]
            = Outcome.panic)
        ∨ ∃ x1 x2,
            readPNG ⟨[0xFF, 0xD8, 7, 0xFF, 0xD9, 0xFF, 0xD8, 9], 16⟩ [0, 0, 0, 0, 0, 0, 0, 0]
              = Outcome.ret x1
            ∧ readPNG ⟨[0xFF, 0xD8, 7, 0xFF, 0xD9, 0xFF, 0xD8, 9], 16⟩ [1, 2, 3, 4, 5, 6, 7, 8]
              = Outcome.ret x2
            ∧ x1.n = x2.n ∧ x1.err = x2.err ∧ x1.r = x2.r
            ∧ x1.n ≤ ([0, 0, 0, 0, 0, 0, 0, 0] : List Byte).length
            ∧ x1.buf.take x1.n = x2.buf.take x2.n))
      ∧ readJPG ⟨[0xFF, 0xD8, 7, 0xFF, 0xD9, 0xFF, 0xD8, 9], 16⟩ [0, 0, 0, 0, 0, 0, 0, 0]
          = Outcome.ret ⟨5, none, [0xFF, 0xD8, 7, 0xFF, 0xD9, 0, 0, 0], ⟨[0xFF, 0xD8, 9], 16⟩⟩
      ∧ readJPG ⟨[0xFF, 0xD8, 7, 0xFF, 0xD9, 0xFF, 0xD8, 9], 16⟩ [1, 2, 3, 4, 5, 6, 7, 8]
          = Outcome.ret ⟨5, none, [0xFF, 0xD8, 7, 0xFF, 0xD9, 6, 7, 8], ⟨[0xFF, 0xD8, 9], 16⟩⟩
      ∧ readPNG ⟨[0xFF, 0xD8, 7, 0xFF, 0xD9, 0xFF, 0xD8, 9], 16⟩ [1, 2, 3, 4, 5, 6, 7, 8]
          = Outcome.ret ⟨8, some Error.mayNotPNG, [0xFF, 0xD8, 7, 0xFF, 0xD9, 0xFF, 0xD8, 9],
              ⟨[], 16⟩⟩ :=
  ⟨rfl,
    scratch_contents_irrelevant ⟨[0xFF, 0xD8, 7, 0xFF, 0xD9, 0xFF, 0xD8, 9], 16⟩
      [0, 0, 0, 0, 0, 0, 0, 0] [1, 2, 3, 4, 5, 6, 7, 8] rfl,
    by decide, by decide, by decide⟩

/-! ## The frames `connCam` sends on `bufCh` -/

/-- A return of `readJPG` leaves the length of the scratch buffer as it was and
reports a count within it. -/
theorem readJPG_buf_length (r : Reader) (buf : List Byte) (x : DecodeRet)
    (h : readJPG r buf = Outcome.ret x) : x.buf.length = buf.length ∧ x.n ≤ buf.length := by
  rcases readJPG_shape r buf.length with hp | ⟨n, w, e, r', hw, hn, hret⟩
  · rw [hp buf rfl] at h; cases h
  · rw [hret buf rfl] at h
    cases h
    refine ⟨?_, hn⟩
    show (w ++ buf.drop n).length = buf.length
    rw [List.length_append, List.length_drop]
    omega

/-- A return of `readPNG` leaves the length of the scratch buffer as it was and
reports a count within it. -/
theorem readPNG_buf_length (r : Reader) (buf : List Byte) (x : DecodeRet)
    (h : readPNG r buf = Outcome.ret x) : x.buf.length = buf.length ∧ x.n ≤ buf.length := by
  rcases readPNG_shape r buf.length with hp | ⟨n, w, e, r', hw, hn, hret⟩
  · rw [hp buf rfl] at h; cases h
  · rw [hret buf rfl] at h
    cases h
    refine ⟨?_, hn⟩
    show (w ++ buf.drop n).length = buf.length
    rw [List.length_append, List.length_drop]
    omega

/-- The loop of `connCam` with a decoder that returns, consumes input when it
succeeds and keeps the length of the buffer: the frames sent are `buf[0:n]` of
the successive successful calls, and the loop ends with the first call that is
not successful. -/
theorem connCamLoop_calls (dec : Reader → List Byte → Outcome DecodeRet)
    (hdec : ∀ r buf, dec r buf ≠ Outcome.diverge)
    (hprog : ∀ r buf x, dec r buf = Outcome.ret x → x.err = none →
      x.r.rest.length < r.rest.length)
    (hlen : ∀ r buf x, dec r buf = Outcome.ret x →
      x.buf.length = buf.length ∧ x.n ≤ buf.length) (fuel : Nat) :
    ∀ (r : Reader) (buf : List Byte), r.rest.length < fuel → 8 ≤ buf.length →
      ∃ xs last, Calls dec xs last r buf
        ∧ (connCamLoop dec fuel r buf).frames = xs.map (fun x => x.buf.take x.n)
        ∧ (∀ x ∈ xs, (x.buf.take x.n).length = x.n)
        ∧ (connCamLoop dec fuel r buf).calls = xs.length + 1
        ∧ ((last = Outcome.panic ∧ (connCamLoop dec fuel r buf).out = Outcome.panic)
          ∨ ∃ x e, last = Outcome.ret x ∧ x.err = some e
              ∧ (connCamLoop dec fuel r buf).out = Outcome.ret ()
              ∧ (connCamLoop dec fuel r buf).rest = x.r.rest) := by
  induction fuel with
  | zero => intro r buf hf; omega
  | succ fuel ih =>
    intro r buf hf hb
    rw [connCamLoop]
    cases hd : dec r buf with
    | panic => exact ⟨[], Outcome.panic, hd, rfl, fun x hx => (by cases hx), rfl, Or.inl ⟨rfl, rfl⟩⟩
    | diverge => exact absurd hd (hdec r buf)
    | ret x =>
      dsimp only
      cases he : x.err with
      | some e =>
        exact ⟨[], Outcome.ret x, hd, rfl, fun x hx => (by cases hx), rfl,
          Or.inr ⟨x, e, rfl, he, rfl, rfl⟩⟩
      | none =>
        dsimp only
        obtain ⟨hl, hn⟩ := hlen r buf x hd
        have hp := hprog r buf x hd he
        rw [if_neg (by omega), if_neg (by omega)]
        obtain ⟨xs, last, hcalls, hfr, hlens, hcnt, hout⟩ := ih x.r x.buf (by omega) (by omega)
        refine ⟨x :: xs, last, ⟨hd, he, hcalls⟩, ?_, ?_, ?_, ?_⟩
        · show _ :: _ = _
          rw [hfr]
          rfl
        · intro y hy
          rcases List.mem_cons.1 hy with rfl | hy
          · rw [List.length_take]
            omega
          · exact hlens y hy
        · show _ + 1 = _
          rw [hcnt]
          rfl
        · exact hout

/-- C14. For every input stream, either decoder that `markMap` holds and every
size of at least 8 bytes for the reader and the scratch buffer: there are
successive calls of the decoder, each on the reader and buffer the call before
left, that return without error, followed by a call that returns an error or
panics; the frames `connCam` sends on `bufCh` are exactly `buf[0:n]` of those
successful calls, in order, each of length `n`; the decoder is called once more
than there are frames; and when that last call returns an error `connCam`
returns, leaving what the call left of the stream unread. -/
theorem ingest_frames (size : Nat) (hsize : 8 ≤ size) (split : String)
    (dec : Reader → List Byte → Outcome DecodeRet) (hsplit : markMap split = some dec)
    (stdin : List Byte) :
    ∃ xs last, Calls dec xs last (NewReaderSize stdin size) (List.replicate size 0)
      ∧ (connCam size split stdin).frames = xs.map (fun x => x.buf.take x.n)
      ∧ (∀ x ∈ xs, (x.buf.take x.n).length = x.n)
      ∧ (connCam size split stdin).calls = xs.length + 1
      ∧ ((last = Outcome.panic ∧ (connCam size split stdin).out = Outcome.panic)
        ∨ ∃ x e, last = Outcome.ret x ∧ x.err = some e
            ∧ (connCam size split stdin).out = Outcome.ret ()
            ∧ (connCam size split stdin).rest = x.r.rest) := by
  have hj := connCamLoop_calls readJPG readJPG_total readJPG_progress readJPG_buf_length
    (stdin.length + 1) (NewReaderSize stdin size) (List.replicate size 0)
    (by simp [NewReaderSize]) (by rw [List.length_replicate]; exact hsize)
  have hp := connCamLoop_calls readPNG readPNG_total readPNG_progress readPNG_buf_length
    (stdin.length + 1) (NewReaderSize stdin size) (List.replicate size 0)
    (by simp [NewReaderSize]) (by rw [List.length_replicate]; exact hsize)
  unfold connCam
  rw [hsplit]
  dsimp only
  unfold markMap at hsplit
  split_ifs at hsplit
  · cases hsplit
    exact hj
  · cases hsplit
    exact hp

/-- C14 on a stream of two format-A frames with a stray byte in between: the
first call returns the first frame, the second call returns the error
`may not JPG image`, and `connCam` sends the first frame only although the
bytes after the stray byte are a frame. -/
theorem ingest_frames_witness :
    8 ≤ 16 ∧ markMap "jpg" = some readJPG
      ∧ (∃ xs last,
          Calls readJPG xs last
            (NewReaderSize [0xFF, 0xD8, 1, 0xFF, 0xD9, 0, 0xFF, 0xD8, 2, 0xFF, 0xD9] 16)
            (List.replicate 16 0)
          ∧ (connCam 16 "jpg" [0xFF, 0xD8, 1, 0xFF, 0xD9, 0, 0xFF, 0xD8, 2, 0xFF, 0xD9]).frames
              = xs.map (fun x => x.buf.take x.n)
          ∧ (∀ x ∈ xs, (x.buf.take x.n).length = x.n)
          ∧ (connCam 16 "jpg" [0xFF, 0xD8, 1, 0xFF, 0xD9, 0, 0xFF, 0xD8, 2, 0xFF, 0xD9]).calls
              = xs.length + 1
          ∧ ((last = Outcome.panic
              ∧ (connCam 16 "jpg"
                  [0xFF, 0xD8, 1, 0xFF, 0xD9, 0, 0xFF, 0xD8, 2, 0xFF, 0xD9]).out
                = Outcome.panic)
            ∨ ∃ x e, last = Outcome.ret x ∧ x.err = some e
                ∧ (connCam 16 "jpg"
                    [0xFF, 0xD8, 1, 0xFF, 0xD9, 0, 0xFF, 0xD8, 2, 0xFF, 0xD9]).out
                  = Outcome.ret ()
                ∧ (connCam 16 "jpg"
                    [0xFF, 0xD8, 1, 0xFF, 0xD9, 0, 0xFF, 0xD8, 2, 0xFF, 0xD9]).rest
                  = x.r.rest))
      ∧ connCam 16 "jpg" [0xFF, 0xD8, 1, 0xFF, 0xD9, 0, 0xFF, 0xD8, 2, 0xFF, 0xD9]
          = ⟨[[0xFF, 0xD8, 1, 0xFF, 0xD9]], Outcome.ret (), 2, [0xD8, 2, 0xFF, 0xD9]⟩
      ∧ connCam 16 "jpg" [0xFF, 0xD8, 1, 0xFF, 0xD9, 0xFF, 0xD8, 2, 0xFF, 0xD9]
          = ⟨[[0xFF, 0xD8, 1, 0xFF, 0xD9], [0xFF, 0xD8, 2, 0xFF, 0xD9]], Outcome.ret (), 3, []⟩ :=
  ⟨by decide, rfl,
    ingest_frames 16 (by decide) "jpg" readJPG rfl
      [0xFF, 0xD8, 1, 0xFF, 0xD9, 0, 0xFF, 0xD8, 2, 0xFF, 0xD9],
    by decide, by decide⟩

/-! ## The choice of the decoder -/

/-- C15. The map `markMap` holds `readJPG` under `jpg`, `readPNG` under `png`
and nothing else.  With one of these two values `connCam` runs its loop with
that decoder and calls it at least once; with any other value it returns at
once: it sends no frame, calls no decoder, and leaves every byte of standard
input unread. -/
theorem split_selects_decoder (size : Nat) (split : String) (stdin : List Byte) :
    (split = "jpg" → markMap split = some readJPG
        ∧ connCam size split stdin
          = connCamLoop readJPG (stdin.length + 1) (NewReaderSize stdin size)
              (List.replicate size 0)
        ∧ 1 ≤ (connCam size split stdin).calls)
      ∧ (split = "png" → markMap split = some readPNG
        ∧ connCam size split stdin
          = connCamLoop readPNG (stdin.length + 1) (NewReaderSize stdin size)
              (List.replicate size 0)
        ∧ 1 ≤ (connCam size split stdin).calls)
      ∧ (split ≠ "jpg" → split ≠ "png" → markMap split = none
        ∧ connCam size split stdin = ⟨[], Outcome.ret (), 0, stdin⟩) := by
  have hcalls : ∀ (dec : Reader → List Byte → Outcome DecodeRet) (fuel : Nat) (r : Reader)
      (buf : List Byte), 1 ≤ (connCamLoop dec (fuel + 1) r buf).calls := by
    intro dec fuel r buf
    rw [connCamLoop]
    cases dec r buf with
    | panic => exact Nat.le_refl 1
    | diverge => exact Nat.le_refl 1
    | ret x =>
      dsimp only
      cases x.err with
      | some e => exact Nat.le_refl 1
      | none =>
        dsimp only
        split_ifs
        · exact Nat.le_refl 1
        · exact Nat.le_refl 1
        · exact Nat.le_add_left 1 _
  refine ⟨fun h => ?_, fun h => ?_, fun h1 h2 => ?_⟩
  · have hm : markMap split = some readJPG := by
      unfold markMap
      rw [if_pos h]
    refine ⟨hm, ?_, ?_⟩
    · unfold connCam
      rw [hm]
    · unfold connCam
      rw [hm]
      exact hcalls _ _ _ _
  · have hne : ¬ split = "jpg" := by
      rw [h]
      decide
    have hm : markMap split = some readPNG := by
      unfold markMap
      rw [if_neg hne, if_pos h]
    refine ⟨hm, ?_, ?_⟩
    · unfold connCam
      rw [hm]
    · unfold connCam
      rw [hm]
      exact hcalls _ _ _ _
  · have hm : markMap split = none := by
      unfold markMap
      rw [if_neg h1, if_neg h2]
    refine ⟨hm, ?_⟩
    unfold connCam
    rw [hm]

/-- C15 with the value `bmp` on a stream that holds a whole format-A frame:
`connCam` returns without a frame, without a call of a decoder and without
reading; with `jpg` it sends the frame. -/
theorem split_selects_decoder_witness :
    "bmp" ≠ "jpg" ∧ "bmp" ≠ "png"
      ∧ (markMap "bmp" = none
        ∧ connCam 16 "bmp" [0xFF, 0xD8, 1, 0xFF, 0xD9]
          = ⟨[], Outcome.ret (), 0, [0xFF, 0xD8, 1, 0xFF, 0xD9]⟩)
      ∧ connCam 16 "jpg" [0xFF, 0xD8, 1, 0xFF, 0xD9]
          = ⟨[[0xFF, 0xD8, 1, 0xFF, 0xD9]], Outcome.ret (), 2, []⟩ :=
  ⟨by decide, by decide,
    (split_selects_decoder 16 "bmp" [0xFF, 0xD8, 1, 0xFF, 0xD9]).2.2 (by decide) (by decide),
    by decide⟩

/-! ## `readJPG` returns at the first end marker -/

/-- The scan finds the first position at which a `D9` follows an `FF`. -/
theorem scanEOI_of_least : ∀ (l : List Byte) (prev : Byte) (k : Nat),
    (prev :: l)[k]? = some 0xFF → l[k]? = some 0xD9 →
    (∀ j, j < k → ¬ ((prev :: l)[j]? = some 0xFF ∧ l[j]? = some 0xD9)) →
    scanEOI prev l = some (k + 1) := by
  intro l
  induction l with
  | nil =>
    intro prev k _ h2 _
    simp at h2
  | cons b t ih =>
    intro prev k h1 h2 hleast
    cases k with
    | zero =>
      simp only [List.getElem?_cons_zero, Option.some.injEq] at h1 h2
      simp [scanEOI, h1, h2]
    | succ k =>
      have h0 := hleast 0 (Nat.succ_pos k)
      simp only [List.getElem?_cons_zero, Option.some.injEq] at h0
      rw [List.getElem?_cons_succ] at h1 h2
      have hrec := ih b k h1 h2 (fun j hj hc => hleast (j + 1) (by omega)
        (by rw [List.getElem?_cons_succ, List.getElem?_cons_succ]; exact hc))
      simp only [scanEOI, h0, if_false, hrec, Option.map_some']

/-- A payload that holds the pair `FF D9` makes the scan stop inside it. -/
theorem scanEOI_inside : ∀ (l t : List Byte) (prev : Byte), noEOI (prev :: l) = false →
    ∃ m, scanEOI prev (l ++ t) = some m ∧ m ≤ l.length := by
  intro l
  induction l with
  | nil =>
    intro t prev h
    simp [noEOI] at h
  | cons b l ih =>
    intro t prev h
    by_cases hc : prev = 0xFF ∧ b = 0xD9
    · exact ⟨1, by simp [scanEOI, hc], by simp⟩
    · have h2 : noEOI (b :: l) = false := by
        have hc2 : (prev == 0xFF && b == 0xD9) = false := by
          simpa using hc
        simpa [noEOI, hc2] using h
      obtain ⟨m, hm, hle⟩ := ih t b h2
      refine ⟨m + 1, ?_, by simp only [List.length_cons]; omega⟩
      show scanEOI prev (b :: (l ++ t)) = some (m + 1)
      rw [scanEOI, if_neg hc, hm]
      rfl

/-- C16. For every stream `s` that begins with `FF D8` and in which `n ≥ 4` is
the least position with `s[n-2] = FF` and `s[n-1] = D9`, and every scratch
buffer of at least `n` bytes (the reader sized as the buffer, as in `connCam`):
`readJPG` returns `n` without error, `buf[:n] = s[:n]`, and exactly `n` bytes are
consumed.  Consequently, for every frame whose payload holds the pair `FF D9`
and that fits the buffer, `readJPG` returns a length below the length of the
frame, and the reader is left inside that frame. -/
theorem readJPG_first_marker :
    (∀ (s buf : List Byte) (n : Nat), s.take 2 = SOI → 4 ≤ n → eoiAt s n →
        (∀ m, 4 ≤ m → m < n → ¬ eoiAt s m) → n ≤ buf.length →
        readJPG (NewReaderSize s buf.length) buf
          = Outcome.ret ⟨n, none, s.take n ++ buf.drop n, ⟨s.drop n, max buf.length 16⟩⟩)
      ∧ (∀ (payload tail buf : List Byte), noEOI payload = false →
          (jpgFrame payload).length ≤ buf.length →
          ∃ n, n < (jpgFrame payload).length
            ∧ readJPG (NewReaderSize (jpgFrame payload ++ tail) buf.length) buf
              = Outcome.ret ⟨n, none, (jpgFrame payload).take n ++ buf.drop n,
                  ⟨(jpgFrame payload).drop n ++ tail, max buf.length 16⟩⟩) := by
  constructor
  · intro s buf n hsoi hn hend hleast hfit
    obtain ⟨k, rfl⟩ : ∃ k, n = k + 3 := ⟨n - 3, by omega⟩
    have hs : s = SOI ++ s.drop 2 := by
      rw [← hsoi, List.take_append_drop]
    obtain ⟨_, he1, he2⟩ := hend
    have hidx : ∀ j, s[j + 2]? = (s.drop 2)[j]? := by
      intro j
      rw [List.getElem?_drop, Nat.add_comm]
    have hidx1 : ∀ j, (0xD8 :: s.drop 2)[j + 1]? = s[j + 2]? := by
      intro j
      rw [List.getElem?_cons_succ, hidx]
    have hscan : scanEOI 0xD8 (s.drop 2) = some (k + 1) := by
      refine scanEOI_of_least (s.drop 2) 0xD8 k ?_ ?_ ?_
      · obtain ⟨k', rfl⟩ : ∃ k', k = k' + 1 := ⟨k - 1, by omega⟩
        rw [hidx1]
        exact he1
      · rw [← hidx]
        exact he2
      · intro j hj hc
        cases j with
        | zero =>
          have h0 := hc.1
          simp only [List.getElem?_cons_zero, Option.some.injEq] at h0
          exact absurd h0 (by decide)
        | succ j =>
          refine hleast (j + 4) (by omega) (by omega) ⟨by omega, ?_, ?_⟩
          · have := hc.1
            rw [hidx1] at this
            exact this
          · have := hc.2
            rw [← hidx] at this
            exact this
    have key := readJPG_stream (s.drop 2) buf (max buf.length 16) (k + 1) hscan (by omega)
      (by have := Nat.le_max_left buf.length 16; omega)
    have htake : SOI ++ (s.drop 2).take (k + 1) = s.take (k + 3) := by
      have h2 : (SOI ++ s.drop 2).take (k + 3) = SOI ++ (s.drop 2).take (k + 1) := by
        rw [List.take_append_eq_append_take]
        simp [SOI]
      rw [← h2, ← hs]
    have hdrop : (s.drop 2).drop (k + 1) = s.drop (k + 3) := by
      rw [List.drop_drop, Nat.add_comm 2 (k + 1)]
    rw [← hs, htake, hdrop] at key
    exact key
  · intro payload tail buf hpay hfit
    have hl : (jpgFrame payload).length = payload.length + 4 := by
      simp [jpgFrame, SOI, EOI]
    obtain ⟨m, hm, hle⟩ := scanEOI_inside payload (EOI ++ tail) 0xD8
      (by rw [noEOI_cons_D8]; exact hpay)
    have hfr : jpgFrame payload ++ tail = SOI ++ (payload ++ (EOI ++ tail)) := by
      simp [jpgFrame]
    have key := readJPG_stream (payload ++ (EOI ++ tail)) buf (max buf.length 16) m hm
      (by omega) (by have := Nat.le_max_left buf.length 16; omega)
    refine ⟨m + 2, by omega, ?_⟩
    have hfr2 : jpgFrame payload = SOI ++ (payload ++ EOI) := by
      simp [jpgFrame]
    have htake : SOI ++ (payload ++ (EOI ++ tail)).take m = (jpgFrame payload).take (m + 2) := by
      have h1 : (SOI ++ (payload ++ EOI)).take (m + 2) = SOI ++ (payload ++ EOI).take m := rfl
      rw [hfr2, h1, List.take_append_of_le_length hle, List.take_append_of_le_length hle]
    have hdrop : (payload ++ (EOI ++ tail)).drop m = (jpgFrame payload).drop (m + 2) ++ tail := by
      have h1 : (SOI ++ (payload ++ EOI)).drop (m + 2) = (payload ++ EOI).drop m := rfl
      rw [hfr2, h1, List.drop_append_of_le_length hle, List.drop_append_of_le_length hle,
        List.append_assoc]
    unfold NewReaderSize
    rw [hfr, key, htake, hdrop]

/-- C16 on the frame `FF D8 01 D9 FF D9 00 FF D9`, whose payload holds the pair
`FF D9`, followed by `FF D8`, with a 9-byte scratch buffer: the least position
is 6, `readJPG` returns 6, which is less than the 9 bytes of the frame, and the
next call starts at the byte `00` inside the frame and returns the error
`may not JPG image`. -/
theorem readJPG_first_marker_witness :
    ([0xFF, 0xD8, 1, 0xD9, 0xFF, 0xD9, 0, 0xFF, 0xD9, 0xFF, 0xD8] : List Byte).take 2 = SOI
      ∧ eoiAt [0xFF, 0xD8, 1, 0xD9, 0xFF, 0xD9, 0, 0xFF, 0xD9, 0xFF, 0xD8] 6
      ∧ readJPG (NewReaderSize [0xFF, 0xD8, 1, 0xD9, 0xFF, 0xD9, 0, 0xFF, 0xD9, 0xFF, 0xD8]
            ([0, 0, 0, 0, 0, 0, 0, 0, 0] : List Byte).length) [0, 0, 0, 0, 0, 0, 0, 0, 0]
          = Outcome.ret ⟨6, none,
              ([0xFF, 0xD8, 1, 0xD9, 0xFF, 0xD9, 0, 0xFF, 0xD9, 0xFF, 0xD8] : List Byte).take 6
                ++ ([0, 0, 0, 0, 0, 0, 0, 0, 0] : List Byte).drop 6,
              ⟨([0xFF, 0xD8, 1, 0xD9, 0xFF, 0xD9, 0, 0xFF, 0xD9, 0xFF, 0xD8] : List Byte).drop 6,
                max ([0, 0, 0, 0, 0, 0, 0, 0, 0] : List Byte).length 16⟩⟩
      ∧ noEOI [1, 0xD9, 0xFF, 0xD9, 0] = false
      ∧ (∃ n, n < (jpgFrame [1, 0xD9, 0xFF, 0xD9, 0]).length
          ∧ readJPG (NewReaderSize (jpgFrame [1, 0xD9, 0xFF, 0xD9, 0] ++ [0xFF, 0xD8])
                ([0, 0, 0, 0, 0, 0, 0, 0, 0] : List Byte).length) [0, 0, 0, 0, 0, 0, 0, 0, 0]
              = Outcome.ret ⟨n, none,
                  (jpgFrame [1, 0xD9, 0xFF, 0xD9, 0]).take n
                    ++ ([0, 0, 0, 0, 0, 0, 0, 0, 0] : List Byte).drop n,
                  ⟨(jpgFrame [1, 0xD9, 0xFF, 0xD9, 0]).drop n ++ [0xFF, 0xD8],
                    max ([0, 0, 0, 0, 0, 0, 0, 0, 0] : List Byte).length 16⟩⟩)
      ∧ readJPG (NewReaderSize (jpgFrame [1, 0xD9, 0xFF, 0xD9, 0] ++ [0xFF, 0xD8]) 9)
            [0, 0, 0, 0, 0, 0, 0, 0, 0]
          = Outcome.ret ⟨6, none, [0xFF, 0xD8, 1, 0xD9, 0xFF, 0xD9, 0, 0, 0],
              ⟨[0, 0xFF, 0xD9, 0xFF, 0xD8], 16⟩⟩
      ∧ readJPG ⟨[0, 0xFF, 0xD9, 0xFF, 0xD8], 16⟩ [0xFF, 0xD8, 1, 0xD9, 0xFF, 0xD9, 0, 0, 0]
          = Outcome.ret ⟨2, some Error.mayNotJPG, [0, 0xFF, 1, 0xD9, 0xFF, 0xD9, 0, 0, 0],
              ⟨[0xD9, 0xFF, 0xD8], 16⟩⟩ :=
  ⟨rfl, by decide,
    readJPG_first_marker.1 [0xFF, 0xD8, 1, 0xD9, 0xFF, 0xD9, 0, 0xFF, 0xD9, 0xFF, 0xD8]
      [0, 0, 0, 0, 0, 0, 0, 0, 0] 6 rfl (by decide) (by decide)
      (fun m h1 h2 => by interval_cases m <;> decide) (by decide),
    by decide,
    readJPG_first_marker.2 [1, 0xD9, 0xFF, 0xD9, 0] [0xFF, 0xD8] [0, 0, 0, 0, 0, 0, 0, 0, 0]
      (by decide) (by decide),
    by decide, by decide⟩

/-! ## Declared lengths at which the `uint32` arithmetic of `readPNGChunk` wraps -/

/-- The call `readPNGChunk` on a record whose declared length `L` is one of the
four largest 32-bit values: `L + 8` wraps to `k + 4`, the slice for data and
checksum is `buf[8:8+k]`, and the call returns `k + 8` after `k` bytes of the
data. -/
theorem readPNGChunk_wrap_short (L k : Nat) (typ a b buf : List Byte) (size : Nat)
    (hLk : L + 4 = 2 ^ 32 + k) (hk : k < 4) (ht : typ.length = 4) (ha : a.length = k)
    (hfit : k + 8 ≤ buf.length) :
    readPNGChunk ⟨be32 L ++ (typ ++ (a ++ b)), size⟩ buf
      = Outcome.ret ⟨k + 8, typ, none, be32 L ++ typ ++ a ++ buf.drop (k + 8), ⟨b, size⟩⟩ := by
  have hd : L < 2 ^ 32 := by omega
  have r1 := ReadFull_exact (be32 L) (typ ++ (a ++ b)) size 4 rfl
  have r2 := ReadFull_exact typ (a ++ b) size 4 ht
  have r3 := ReadFull_exact a b size k ha
  have b1 : copyAt buf 0 (be32 L) = be32 L ++ buf.drop 4 :=
    copyAt_zero buf _ (by rw [be32_length]; omega)
  have t1 : (be32 L ++ buf.drop 4).take 4 = be32 L := List.take_left' rfl
  have b2 : copyAt (be32 L ++ buf.drop 4) 4 typ = be32 L ++ typ ++ buf.drop 8 := by
    have := copyAt_behind (be32 L) buf typ 4 rfl (by omega)
    rw [ht] at this
    exact this
  have hl8 : (be32 L ++ typ).length = 8 := by
    rw [List.length_append, be32_length, ht]
  have b3 : copyAt (be32 L ++ typ ++ buf.drop 8) 8 a
      = be32 L ++ typ ++ a ++ buf.drop (k + 8) := by
    have := copyAt_behind (be32 L ++ typ) buf a 8 hl8 (by omega)
    rw [ha] at this
    exact this
  have t3 : ((be32 L ++ typ ++ a ++ buf.drop (k + 8)).drop 4).take 4 = typ := by
    simp only [List.append_assoc]
    rw [List.drop_left' (be32_length _), List.take_left' ht]
  have hu := Uint32_be32 L hd
  have n1 : (L + 4 + 4) % 2 ^ 32 = k + 4 := by omega
  have n2 : (k + 4 + 4) % 2 ^ 32 = k + 8 := by omega
  have n3 : k + 8 - (4 + 4) = k := by omega
  have l0 : ¬ buf.length < 4 := by omega
  have l1 : ¬ (be32 L ++ buf.drop 4).length < 4 + 4 := by
    rw [List.length_append, be32_length, List.length_drop]; omega
  have l2 : ¬ (k + 8 < 4 + 4 ∨ (be32 L ++ typ ++ buf.drop 8).length < k + 8) := by
    rw [List.length_append, hl8, List.length_drop]; omega
  unfold readPNGChunk
  rw [if_neg l0, r1]
  dsimp only
  rw [b1, if_neg l1, r2]
  dsimp only
  rw [t1, hu, n1, n2, b2, if_neg l2, n3, r3]
  dsimp only
  rw [b3, t3, ha]

/-- The call `readPNGChunk` on a record whose declared length `L` lies in the
eight values below those: the slice bound `dataLen + 4` wraps to less than 8 and
the slice expression `buf[8:dataLen+4]` panics. -/
theorem readPNGChunk_wrap_panic (L : Nat) (typ rest buf : List Byte) (size : Nat)
    (hL1 : 2 ^ 32 ≤ L + 12) (hL2 : L + 4 < 2 ^ 32) (ht : typ.length = 4)
    (hfit : 8 ≤ buf.length) :
    readPNGChunk ⟨be32 L ++ (typ ++ rest), size⟩ buf = Outcome.panic := by
  have hd : L < 2 ^ 32 := by omega
  have r1 := ReadFull_exact (be32 L) (typ ++ rest) size 4 rfl
  have r2 := ReadFull_exact typ rest size 4 ht
  have b1 : copyAt buf 0 (be32 L) = be32 L ++ buf.drop 4 :=
    copyAt_zero buf _ (by rw [be32_length]; omega)
  have t1 : (be32 L ++ buf.drop 4).take 4 = be32 L := List.take_left' rfl
  have hu := Uint32_be32 L hd
  have l0 : ¬ buf.length < 4 := by omega
  have l1 : ¬ (be32 L ++ buf.drop 4).length < 4 + 4 := by
    rw [List.length_append, be32_length, List.length_drop]; omega
  have l2 : ((L + 4 + 4) % 2 ^ 32 + 4) % 2 ^ 32 < 4 + 4 := by omega
  unfold readPNGChunk
  rw [if_neg l0, r1]
  dsimp only
  rw [b1, if_neg l1, r2]
  dsimp only
  rw [t1, hu, if_pos (Or.inl l2)]

/-- A record of type `IEND` with `0xFFFFFFFC` data bytes, in a buffer as long as
the record: the record is well formed and has `L + 12` bytes, and
`readPNGChunk` returns after the length and the type. -/
theorem readPNGChunk_max_length (d buf : List Byte) (hd : d.length = 4294967292)
    (hb : buf.length = 4294967304) :
    (⟨IEND, d, [0, 0, 0, 0]⟩ : Chunk).wf
      ∧ (Chunk.encode ⟨IEND, d, [0, 0, 0, 0]⟩).length = 4294967304
      ∧ readPNGChunk ⟨Chunk.encode ⟨IEND, d, [0, 0, 0, 0]⟩, 16⟩ buf
        = Outcome.ret ⟨8, IEND, none, [0xFF, 0xFF, 0xFF, 0xFC] ++ IEND ++ buf.drop 8,
            ⟨d ++ [0, 0, 0, 0], 16⟩⟩ := by
  have hwf : (⟨IEND, d, [0, 0, 0, 0]⟩ : Chunk).wf := by
    refine ⟨rfl, rfl, ?_⟩
    show d.length < 2 ^ 32
    rw [hd]
    norm_num
  refine ⟨hwf, ?_, ?_⟩
  · rw [Chunk.encode_length _ hwf]
    show d.length + 12 = 4294967304
    rw [hd]
  · have h := readPNGChunk_wrap_short d.length 0 IEND [] (d ++ [0, 0, 0, 0]) buf 16
      (by rw [hd]; norm_num) (by norm_num) rfl rfl (by rw [hb]; norm_num)
    have hbe : be32 d.length = [0xFF, 0xFF, 0xFF, 0xFC] := by
      rw [hd]
      decide
    have he : Chunk.encode ⟨IEND, d, [0, 0, 0, 0]⟩
        = be32 d.length ++ (IEND ++ ([] ++ (d ++ [0, 0, 0, 0]))) := by
      simp only [Chunk.encode, List.append_assoc, List.nil_append]
    simp only [List.append_nil, Nat.zero_add] at h
    rw [he, h, hbe]

/-- A record of type `IEND` with `0xFFFFFFF4` data bytes, in a buffer as long as
the record: `readPNGChunk` panics. -/
theorem readPNGChunk_wrap_zero (d buf : List Byte) (hd : d.length = 4294967284)
    (hb : buf.length = 4294967296) :
    (Chunk.encode ⟨IEND, d, [0, 0, 0, 0]⟩).length = 4294967296
      ∧ readPNGChunk ⟨Chunk.encode ⟨IEND, d, [0, 0, 0, 0]⟩, 16⟩ buf = Outcome.panic := by
  have hwf : (⟨IEND, d, [0, 0, 0, 0]⟩ : Chunk).wf := by
    refine ⟨rfl, rfl, ?_⟩
    show d.length < 2 ^ 32
    rw [hd]
    norm_num
  constructor
  · rw [Chunk.encode_length _ hwf]
    show d.length + 12 = 4294967296
    rw [hd]
  · have h := readPNGChunk_wrap_panic d.length IEND (d ++ [0, 0, 0, 0]) buf 16
      (by rw [hd]; norm_num) (by rw [hd]; norm_num) rfl (by rw [hb]; norm_num)
    have he : Chunk.encode ⟨IEND, d, [0, 0, 0, 0]⟩
        = be32 d.length ++ (IEND ++ (d ++ [0, 0, 0, 0])) := by
      simp only [Chunk.encode, List.append_assoc]
    rw [he, h]

/-- The wrap at the declared length `L = 0xFFFFFFFC`, with a buffer of `2^32`
bytes or more, which `connCam` never makes.  The record is well formed, the
reader supplies all its `L + 12` bytes and the buffer has `L + 12` bytes, yet
`readPNGChunk` returns 8, not `L + 12`: it has consumed the length and the type
only, and the data and the checksum are still in the reader.  At
`L = 0xFFFFFFF4` it panics.  The same eight header bytes alone, with an 8-byte
buffer, give the same return, and `readPNG` takes the signature followed by
them for a whole frame of 16 bytes. -/
theorem readPNGChunk_length_wraps :
    ((⟨IEND, List.replicate 4294967292 0, [0, 0, 0, 0]⟩ : Chunk).wf
      ∧ (Chunk.encode ⟨IEND, List.replicate 4294967292 0, [0, 0, 0, 0]⟩).length = 4294967304
      ∧ readPNGChunk ⟨Chunk.encode ⟨IEND, List.replicate 4294967292 0, [0, 0, 0, 0]⟩, 16⟩
          (List.replicate 4294967304 0)
        = Outcome.ret ⟨8, IEND, none,
            [0xFF, 0xFF, 0xFF, 0xFC] ++ IEND ++ (List.replicate 4294967304 0).drop 8,
            ⟨List.replicate 4294967292 0 ++ [0, 0, 0, 0], 16⟩⟩)
      ∧ ((Chunk.encode ⟨IEND, List.replicate 4294967284 0, [0, 0, 0, 0]⟩).length = 4294967296
        ∧ readPNGChunk ⟨Chunk.encode ⟨IEND, List.replicate 4294967284 0, [0, 0, 0, 0]⟩, 16⟩
            (List.replicate 4294967296 0)
          = Outcome.panic)
      ∧ readPNGChunk ⟨[0xFF, 0xFF, 0xFF, 0xFC] ++ IEND, 16⟩ [0, 0, 0, 0, 0, 0, 0, 0]
        = Outcome.ret ⟨8, IEND, none, [0xFF, 0xFF, 0xFF, 0xFC] ++ IEND, ⟨[], 16⟩⟩
      ∧ readPNG ⟨PNGSIG ++ [0xFF, 0xFF, 0xFF, 0xFC] ++ IEND, 16⟩ (List.replicate 16 0)
        = Outcome.ret ⟨16, none, PNGSIG ++ [0xFF, 0xFF, 0xFF, 0xFC] ++ IEND, ⟨[], 16⟩⟩ :=
  ⟨readPNGChunk_max_length (List.replicate 4294967292 0) (List.replicate 4294967304 0)
      (List.length_replicate _ _) (List.length_replicate _ _),
    readPNGChunk_wrap_zero (List.replicate 4294967284 0) (List.replicate 4294967296 0)
      (List.length_replicate _ _) (List.length_replicate _ _),
    by decide, by decide⟩

/-! ## The mailbox holds at most one frame -/

/-- C19. For every mailbox capacity `q ≥ 1` and every state reached from a new
subscriber (empty mailbox) by an interleaving of steps of `Send` and of the
worker: the mailbox holds at most one frame; when `Send(f)` stands at its
deposit, the deposit step can be taken and leaves exactly `f` in the mailbox;
and when no `Send` is under way and the subscriber is not dead, a whole call
`Send(f)` returns nil and leaves exactly `f` in the mailbox. -/
theorem mailbox_at_most_one (q : Nat) (hq : 1 ≤ q) (conn : Conn) (acts : List ClientAct)
    (s : ClientSys) (hrun : (ClientSys.init conn q).run acts = some s) :
    s.c.data.buf.length ≤ 1
      ∧ (∀ f, s.sender = some f →
          ∃ s', s.step ClientAct.sendDeposit = some s' ∧ s'.c.data.buf = [f])
      ∧ (∀ f, s.sender = none → s.c.die = false →
          ∃ c', s.c.Send f = SendResult.ret none c' ∧ c'.data.buf = [f]
            ∧ s.run [ClientAct.sendEnter f, ClientAct.sendDeposit]
                = some { s with c := c' }) := by
  obtain ⟨hc, hl, he⟩ := ClientSys.client_run_inv q acts (ClientSys.init conn q) s
    ⟨rfl, by simp [ClientSys.init, NewWsClient, Chan.make], fun _ => rfl⟩ hrun
  refine ⟨hl, fun f hs => ?_, fun f hs hd => ?_⟩
  · have hemp := he (by rw [hs]; simp)
    have hlt : s.c.data.buf.length < s.c.data.cap := by
      rw [hemp, hc]; simp only [List.length_nil]; omega
    obtain ⟨ch', h1, h2, _⟩ := Chan.send_some s.c.data f hlt
    refine ⟨{ s with c := { s.c with data := ch' }, sender := none }, ?_, ?_⟩
    · unfold ClientSys.step
      simp only [hs, h1]
    · show ch'.buf = [f]
      rw [h2, hemp]
      rfl
  · obtain ⟨c', h1, h2, _⟩ := Send_live s.c f hd (by rw [hc]; exact hq)
    have htail : s.c.data.buf.tail = [] := by
      cases hb : s.c.data.buf with
      | nil => rfl
      | cons y ys =>
        rw [hb] at hl
        simp only [List.length_cons] at hl
        have : ys = [] := List.length_eq_zero.1 (by omega)
        simp [this]
    refine ⟨c', h1, ?_, Send_steps s f c' hs h1⟩
    rw [h2, htail]
    rfl

/-- C19 at capacity 3 after `Send [1]`, `Send [2]`, a receive and a write of the
worker, and `Send [3]` up to its deposit: the mailbox is empty and the deposit
leaves exactly `[3]` in it. -/
theorem mailbox_at_most_one_witness :
    ∃ s, (ClientSys.init ⟨[], 0⟩ 3).run
        [ClientAct.sendEnter [1], ClientAct.sendDeposit, ClientAct.sendEnter [2],
         ClientAct.sendDeposit, ClientAct.workerRecv, ClientAct.workerWrite true,
         ClientAct.sendEnter [3]] = some s
      ∧ s.sender = some [3] ∧ s.c.conn.written = [[2]]
      ∧ s.c.data.buf.length ≤ 1
      ∧ (∀ f, s.sender = some f →
          ∃ s', s.step ClientAct.sendDeposit = some s' ∧ s'.c.data.buf = [f])
      ∧ (∀ f, s.sender = none → s.c.die = false →
          ∃ c', s.c.Send f = SendResult.ret none c' ∧ c'.data.buf = [f]
            ∧ s.run [ClientAct.sendEnter f, ClientAct.sendDeposit]
                = some { s with c := c' }) :=
  ⟨_, rfl, rfl, rfl,
    mailbox_at_most_one 3 (by decide) ⟨[], 0⟩
      [ClientAct.sendEnter [1], ClientAct.sendDeposit, ClientAct.sendEnter [2],
       ClientAct.sendDeposit, ClientAct.workerRecv, ClientAct.workerWrite true,
       ClientAct.sendEnter [3]] _ rfl⟩

/-! ## `readPNGChunk` consumes the record it is given -/

/-- C17. For every 32-bit declared data length `L`, every reader that supplies
the four bytes of `L` in big-endian order followed by at least `L + 8` more
bytes, and every buffer of at least `L + 12` and fewer than `2^32` bytes (as
every buffer is that `readPNG` passes, a suffix of the 8 MiB buffer of
`connCam`): `readPNGChunk` returns no error, reports `L + 12`, has consumed
exactly the first `L + 12` bytes, which it leaves in `buf[:L+12]`, and returns
as type the four bytes that follow the length field. -/
theorem readPNGChunk_consumes (L : Nat) (hL : L < 2 ^ 32) (rest buf : List Byte) (size : Nat)
    (hsup : L + 8 ≤ rest.length) (hfit : L + 12 ≤ buf.length) (hbuf : buf.length < 2 ^ 32) :
    readPNGChunk ⟨be32 L ++ rest, size⟩ buf
      = Outcome.ret ⟨L + 12, rest.take 4, none,
          (be32 L ++ rest.take (L + 8)) ++ buf.drop (L + 12), ⟨rest.drop (L + 8), size⟩⟩ := by
  have hd : ((rest.drop 4).take L).length = L := by
    rw [List.length_take, List.length_drop]
    omega
  have hwf : (⟨rest.take 4, (rest.drop 4).take L, (rest.drop (4 + L)).take 4⟩ : Chunk).wf := by
    refine ⟨?_, ?_, ?_⟩
    · show (rest.take 4).length = 4
      rw [List.length_take]
      omega
    · show ((rest.drop (4 + L)).take 4).length = 4
      rw [List.length_take, List.length_drop]
      omega
    · show ((rest.drop 4).take L).length < 2 ^ 32
      rw [hd]
      exact hL
  have key := readPNGChunk_chunk ⟨rest.take 4, (rest.drop 4).take L, (rest.drop (4 + L)).take 4⟩
    (rest.drop (L + 8)) buf size hwf (by show ((rest.drop 4).take L).length + 12 ≤ _; omega)
    (by show ((rest.drop 4).take L).length + 12 < _; omega)
  have h1 : rest.take 4 ++ ((rest.drop 4).take L ++ (rest.drop (4 + L)).take 4)
      = rest.take (L + 8) := by
    have e1 : (rest.drop 4).take L ++ (rest.drop (4 + L)).take 4 = (rest.drop 4).take (L + 4) := by
      rw [List.take_add, List.drop_drop]
    have e2 : rest.take 4 ++ (rest.drop 4).take (L + 4) = rest.take (4 + (L + 4)) :=
      (List.take_add rest 4 (L + 4)).symm
    rw [e1, e2]
    congr 1
    omega
  have henc : Chunk.encode ⟨rest.take 4, (rest.drop 4).take L, (rest.drop (4 + L)).take 4⟩
      = be32 L ++ rest.take (L + 8) := by
    simp only [Chunk.encode, hd, List.append_assoc, h1]
  have hall : rest.take (L + 8) ++ rest.drop (L + 8) = rest := List.take_append_drop _ _
  rw [henc, List.append_assoc, hall] at key
  dsimp only at key
  rw [hd] at key
  exact key

/-- C17 at the declared length 1: the record `00 00 00 01`, `IDAT`, one data
byte and four checksum bytes, followed by two more bytes, with a 16-byte
buffer; `readPNGChunk` returns 13 and the type `IDAT` and leaves the two bytes
in the reader. -/
theorem readPNGChunk_consumes_witness :
    1 < 2 ^ 32
      ∧ 1 + 8 ≤ ([0x49, 0x44, 0x41, 0x54, 7, 1, 2, 3, 4, 0xAA, 0xBB] : List Byte).length
      ∧ 1 + 12 ≤ (List.replicate 16 (0 : Byte)).length
      ∧ readPNGChunk ⟨be32 1 ++ [0x49, 0x44, 0x41, 0x54, 7, 1, 2, 3, 4, 0xAA, 0xBB], 16⟩
          (List.replicate 16 0)
        = Outcome.ret ⟨1 + 12, ([0x49, 0x44, 0x41, 0x54, 7, 1, 2, 3, 4, 0xAA, 0xBB] : List Byte).take 4,
            none,
            (be32 1 ++ ([0x49, 0x44, 0x41, 0x54, 7, 1, 2, 3, 4, 0xAA, 0xBB] : List Byte).take (1 + 8))
              ++ (List.replicate 16 (0 : Byte)).drop (1 + 12),
            ⟨([0x49, 0x44, 0x41, 0x54, 7, 1, 2, 3, 4, 0xAA, 0xBB] : List Byte).drop (1 + 8), 16⟩⟩
      ∧ readPNGChunk ⟨[0, 0, 0, 1, 0x49, 0x44, 0x41, 0x54, 7, 1, 2, 3, 4, 0xAA, 0xBB], 16⟩
          (List.replicate 16 0)
        = Outcome.ret ⟨13, [0x49, 0x44, 0x41, 0x54], none,
            [0, 0, 0, 1, 0x49, 0x44, 0x41, 0x54, 7, 1, 2, 3, 4, 0, 0, 0], ⟨[0xAA, 0xBB], 16⟩⟩ :=
  ⟨by norm_num, by decide, by decide,
    readPNGChunk_consumes 1 (by norm_num) [0x49, 0x44, 0x41, 0x54, 7, 1, 2, 3, 4, 0xAA, 0xBB]
      (List.replicate 16 0) 16 (by decide) (by decide)
      (by rw [List.length_replicate]; norm_num),
    by decide⟩

end WsRelay
